import Mathlib

/-!
Verification of the AVL tree implementation in `AVLTreeHeader.hpp` /
`AVLTreeImplementation.tpp`.

The C++ `Node` (fields `key`, `left`, `right`, `parent`, `height`) is embedded
as an inductive tree.  Pointers are modelled by allocation identifiers: every
node carries its own id (`nid`, standing for the node's address) and the id of
its parent (`parent`, `none` for a null parent pointer).  The tree object
(`root`, `tree_size` and the allocator state) is the structure `AVLTreeSt`.
The template parameters `T`/`Compare` become a type `α` together with a
comparison function `lt : α → α → Bool`; theorems instantiate them.
-/

set_option maxHeartbeats 1600000

namespace AVL

/-- Embedding of `AVLTree<T>::Node`: key, left and right subtrees, parent
pointer (as the parent's allocation id), the cached `height` field, and the
node's own allocation id `nid` (its address). -/
inductive PT (α : Type) where
  | nil : PT α
  | node (key : α) (left : PT α) (right : PT α) (parent : Option Nat)
      (height : Nat) (nid : Nat) : PT α
  deriving DecidableEq

variable {α : Type}

/-- `AVLTree::height`: cached height of a node, `0` for a null pointer. -/
def height : PT α → Nat
  | .nil => 0
  | .node _ _ _ _ h _ => h

/-- `AVLTree::getBalanceFactor`: difference of the children's cached heights. -/
def getBalanceFactor : PT α → Int
  | .nil => 0
  | .node _ l r _ _ _ => (height l : Int) - (height r : Int)

/-- Actual height of the embedded tree (independent of cached fields). -/
def realHeight : PT α → Nat
  | .nil => 0
  | .node _ l r _ _ _ => 1 + max (realHeight l) (realHeight r)

/-- Number of nodes reachable from the root. -/
def countNodes : PT α → Nat
  | .nil => 0
  | .node _ l r _ _ _ => 1 + countNodes l + countNodes r

/-- In-order key sequence of the tree. -/
def inorder : PT α → List α
  | .nil => []
  | .node k l r _ _ _ => inorder l ++ k :: inorder r

/-- Multiset of allocation ids of the nodes of the tree. -/
def idsMS : PT α → Multiset Nat
  | .nil => 0
  | .node _ l r _ _ i => i ::ₘ (idsMS l + idsMS r)

/-- Multiset of (allocation id, key) pairs of the nodes of the tree. -/
def pairsMS : PT α → Multiset (Nat × α)
  | .nil => 0
  | .node k l r _ _ i => (i, k) ::ₘ (pairsMS l + pairsMS r)

/-- Allocation id of the root node (`none` for the null pointer). -/
def rootId? : PT α → Option Nat
  | .nil => none
  | .node _ _ _ _ _ i => some i

/-- Key of the root node. -/
def rootKey? : PT α → Option α
  | .nil => none
  | .node k _ _ _ _ _ => some k

/-- Key of the root node, with a default for the null tree (used to model a
`->key` dereference whose argument is known to be non-null). -/
def rootKeyOr (d : α) : PT α → α
  | .nil => d
  | .node k _ _ _ _ _ => k

/-- Parent field of the root node. -/
def parentF : PT α → Option Nat
  | .nil => none
  | .node _ _ _ p _ _ => p

/-- Helper for the rotations: the statements `if (T2) T2->parent = y;` resp.
`if (T2) T2->parent = x;` overwrite the parent field of the root of the moved
subtree (a no-op on a null pointer). -/
def setParentRoot (p : Option Nat) : PT α → PT α
  | .nil => .nil
  | .node k l r _ h i => .node k l r p h i

/-- `AVLTree::rightRotate`.  On input `y` with a non-null left child `x`
(the only way the source calls it) it performs
`x->right = y; y->left = T2;` updates the three parent pointers and then
recomputes `y->height` followed by `x->height` from the cached child heights.
A shape the source never passes (null `y` or null `y->left`, which would
dereference a null pointer) is returned unchanged. -/
def rightRotate : PT α → PT α
  | .nil => .nil
  | .node yk yl c yp yh yi =>
    match yl with
    | .nil => .node yk .nil c yp yh yi
    | .node xk a t2 _xp _xh xi =>
      let t2' := setParentRoot (some yi) t2
      let ynew : PT α := .node yk t2' c (some xi) (max (height t2') (height c) + 1) yi
      .node xk a ynew yp (max (height a) (height ynew) + 1) xi

/-- `AVLTree::leftRotate`, symmetric to `rightRotate`. -/
def leftRotate : PT α → PT α
  | .nil => .nil
  | .node xk a xr xp xh xi =>
    match xr with
    | .nil => .node xk a .nil xp xh xi
    | .node yk t2 c _yp _yh yi =>
      let t2' := setParentRoot (some xi) t2
      let xnew : PT α := .node xk a t2' (some yi) (max (height a) (height t2')  + 1) xi
      .node yk xnew c xp (max (height xnew) (height c) + 1) yi

/-- Does `comp(key, l->key)` hold (with `false` for a null `l`)? -/
def ltRoot (lt : α → α → Bool) (key : α) : PT α → Bool
  | .nil => false
  | .node k _ _ _ _ _ => lt key k

/-- Does `comp(l->key, key)` hold (with `false` for a null `l`)? -/
def rootLt (lt : α → α → Bool) (key : α) : PT α → Bool
  | .nil => false
  | .node k _ _ _ _ _ => lt k key

/-- The rebalancing step at the end of the recursive `AVLTree::insert` helper
(lines computing `balance` and distinguishing the Left-Left, Right-Right,
Left-Right and Right-Left cases by comparing `key` with the child's key). -/
def insFix (lt : α → α → Bool) (t : PT α) (key : α) : PT α :=
  match t with
  | .nil => .nil
  | .node k l r p h i =>
    let balance := getBalanceFactor (.node k l r p h i)
    if 1 < balance ∧ ltRoot lt key l = true then
      rightRotate (.node k l r p h i)
    else if balance < -1 ∧ rootLt lt key r = true then
      leftRotate (.node k l r p h i)
    else if 1 < balance ∧ rootLt lt key l = true then
      rightRotate (.node k (leftRotate l) r p h i)
    else if balance < -1 ∧ ltRoot lt key r = true then
      leftRotate (.node k l (rightRotate r) p h i)
    else
      .node k l r p h i

/-- The recursive `AVLTree::insert(Node*, const T&, Node*)` helper.  The
mutable members touched by it are threaded through explicitly: `fresh` models
the allocator (`new` returns the next id) and `sz` models `tree_size`.
Returns the new subtree together with the updated allocator and size. -/
def insert (lt : α → α → Bool) : PT α → α → Option Nat → Nat → Nat → PT α × Nat × Nat
  | .nil, key, par, fresh, sz => (.node key .nil .nil par 1 fresh, fresh + 1, sz + 1)
  | .node k l r p h i, key, _par, fresh, sz =>
    if lt key k then
      match insert lt l key (some i) fresh sz with
      | (l', fresh', sz') =>
        (insFix lt (.node k l' r p (1 + max (height l') (height r)) i) key, fresh', sz')
    else if lt k key then
      match insert lt r key (some i) fresh sz with
      | (r', fresh', sz') =>
        (insFix lt (.node k l r' p (1 + max (height l) (height r')) i) key, fresh', sz')
    else
      (.node k l r p h i, fresh, sz)

/-- `AVLTree::minValueNode`: walk to the leftmost node of a subtree. -/
def minValueNode : PT α → PT α
  | .nil => .nil
  | .node k .nil r p h i => .node k .nil r p h i
  | .node _ (.node lk ll lr lp lh li) _ _ _ _ => minValueNode (.node lk ll lr lp lh li)

/-- The rebalancing step at the end of `AVLTree::deleteNode` (distinguishing
the four cases by the sign of the child's balance factor). -/
def delFix : PT α → PT α
  | .nil => .nil
  | .node k l r p h i =>
    let balance := getBalanceFactor (.node k l r p h i)
    if 1 < balance ∧ 0 ≤ getBalanceFactor l then
      rightRotate (.node k l r p h i)
    else if 1 < balance ∧ getBalanceFactor l < 0 then
      rightRotate (.node k (leftRotate l) r p h i)
    else if balance < -1 ∧ getBalanceFactor r ≤ 0 then
      leftRotate (.node k l r p h i)
    else if balance < -1 ∧ 0 < getBalanceFactor r then
      leftRotate (.node k l (rightRotate r) p h i)
    else
      .node k l r p h i

/-- `AVLTree::deleteNode`, with `tree_size` threaded through as `sz`.
In the no-child case the node is destroyed and `nullptr` returned (skipping
the height update).  In the one-child case the source executes
`temp->parent = node->parent; *node = *temp; delete temp;`: the node keeps its
address (id `i`) and its parent field, receives all other members from the
child, and the child object disappears; afterwards the height is recomputed
and the subtree rebalanced.  In the two-child case the in-order successor's
key is copied into the node and the successor's key is deleted from the right
subtree. -/
def deleteNode (lt : α → α → Bool) : PT α → α → Nat → PT α × Nat
  | .nil, _, sz => (.nil, sz)
  | .node k l r p h i, key, sz =>
    if lt key k then
      let res := deleteNode lt l key sz
      (delFix (.node k res.1 r p (1 + max (height res.1) (height r)) i), res.2)
    else if lt k key then
      let res := deleteNode lt r key sz
      (delFix (.node k l res.1 p (1 + max (height l) (height res.1)) i), res.2)
    else
      match l, r with
      | .nil, .nil => (.nil, sz - 1)
      | .node ck cl cr _cp _ch _ci, .nil =>
          (delFix (.node ck cl cr p (1 + max (height cl) (height cr)) i), sz - 1)
      | .nil, .node ck cl cr _cp _ch _ci =>
          (delFix (.node ck cl cr p (1 + max (height cl) (height cr)) i), sz - 1)
      | .node lk ll lr lp lh li, .node rk rl rr rp rh ri =>
          let m := rootKeyOr rk (minValueNode (.node rk rl rr rp rh ri))
          let res := deleteNode lt (.node rk rl rr rp rh ri) m sz
          (delFix (.node m (.node lk ll lr lp lh li) res.1 p
              (1 + max (height (.node lk ll lr lp lh li)) (height res.1)) i), res.2)

/-- `AVLTree::find`: iterative descent, returning the node the iterator would
point to (`nil` for the end iterator).  `find` only reads the tree. -/
def findSub (lt : α → α → Bool) : PT α → α → PT α
  | .nil, _ => .nil
  | .node k l r p h i, key =>
    if lt key k then findSub lt l key
    else if lt k key then findSub lt r key
    else .node k l r p h i

/-- The descent of `insert`/`deleteNode`/`find` reduced to a Boolean: is a
node with a comparator-equal key reached on the search path? -/
def ceq (lt : α → α → Bool) : PT α → α → Bool
  | .nil, _ => false
  | .node k l r _ _ _, key =>
    if lt key k then ceq lt l key
    else if lt k key then ceq lt r key
    else true

/-- Embedding of the `AVLTree` object: the root pointer, the `tree_size`
member, and the allocator state (next fresh node id). -/
structure AVLTreeSt (α : Type) where
  root : PT α
  tree_size : Nat
  fresh : Nat
  deriving DecidableEq

/-- The default-constructed `AVLTree`: null root, size `0`. -/
def emptyTree : AVLTreeSt α := ⟨.nil, 0, 0⟩

/-- Public `AVLTree::insert(const T&)`: `root = insert(root, key, nullptr);`. -/
def insertTree (lt : α → α → Bool) (s : AVLTreeSt α) (key : α) : AVLTreeSt α :=
  match insert lt s.root key none s.fresh s.tree_size with
  | (t, f, n) => ⟨t, n, f⟩

/-- Public `AVLTree::erase(const T&)`: `root = deleteNode(root, key);`. -/
def eraseTree (lt : α → α → Bool) (s : AVLTreeSt α) (key : α) : AVLTreeSt α :=
  match deleteNode lt s.root key s.tree_size with
  | (t, n) => ⟨t, n, s.fresh⟩

/-- Tree states reachable from the empty tree by `insert`/`erase` calls. -/
inductive Reachable (lt : α → α → Bool) : AVLTreeSt α → Prop where
  | empty : Reachable lt emptyTree
  | ins (k : α) {s : AVLTreeSt α} : Reachable lt s → Reachable lt (insertTree lt s k)
  | del (k : α) {s : AVLTreeSt α} : Reachable lt s → Reachable lt (eraseTree lt s k)

/-- `std::less<int>` on the embedded key type `Int`. -/
def ltInt (a b : Int) : Bool := decide (a < b)

/-- A comparator on pairs that only looks at the first component: a strict
weak order whose induced equivalence is coarser than equality (used for the
claims about comparator-equal but distinct elements). -/
def ltFst (a b : Int × Int) : Bool := decide (a.1 < b.1)

end AVL

namespace AVL

variable {α : Type}

/-! ### Invariants -/

/-- Invariant 3 of the spec: every node's cached `height` field equals
`1 + max` of its children's height fields (so an absent child counts as `0`
and a leaf gets height `1`). -/
def HtOk : PT α → Prop
  | .nil => True
  | .node _ l r _ h _ => h = 1 + max (height l) (height r) ∧ HtOk l ∧ HtOk r

/-- Invariant 2 of the spec: AVL balance, `|height l − height r| ≤ 1` at
every node, stated with actual subtree heights. -/
def BalancedR : PT α → Prop
  | .nil => True
  | .node _ l r _ _ _ =>
      realHeight l ≤ realHeight r + 1 ∧ realHeight r ≤ realHeight l + 1 ∧
      BalancedR l ∧ BalancedR r

/-- Invariant 4 of the spec: the parent field of every node names the node
that holds it as a child; `p` is the expected parent id of the root
(`none` at the top level). -/
def ParentOk : Option Nat → PT α → Prop
  | _, .nil => True
  | p, .node _ l r q _ i => q = p ∧ ParentOk (some i) l ∧ ParentOk (some i) r

/-- Invariant 1 of the spec at the `Int` instantiation: BST ordering. -/
def BST : PT Int → Prop
  | .nil => True
  | .node k l r _ _ _ =>
      (∀ x ∈ inorder l, x < k) ∧ (∀ x ∈ inorder r, k < x) ∧ BST l ∧ BST r

/-- All allocation ids in the tree are distinct (distinct node addresses). -/
def NodupIds (t : PT α) : Prop := (idsMS t).Nodup

@[simp] theorem HtOk_nil : HtOk (.nil : PT α) := trivial

@[simp] theorem HtOk_node {k : α} {l r p h i} :
    HtOk (.node k l r p h i) ↔ h = 1 + max (height l) (height r) ∧ HtOk l ∧ HtOk r :=
  Iff.rfl

@[simp] theorem BalancedR_nil : BalancedR (.nil : PT α) := trivial

@[simp] theorem BalancedR_node {k : α} {l r p h i} :
    BalancedR (.node k l r p h i) ↔
      realHeight l ≤ realHeight r + 1 ∧ realHeight r ≤ realHeight l + 1 ∧
      BalancedR l ∧ BalancedR r :=
  Iff.rfl

@[simp] theorem ParentOk_nil {p : Option Nat} : ParentOk p (.nil : PT α) := trivial

@[simp] theorem ParentOk_node {pp : Option Nat} {k : α} {l r p h i} :
    ParentOk pp (.node k l r p h i) ↔
      p = pp ∧ ParentOk (some i) l ∧ ParentOk (some i) r :=
  Iff.rfl

@[simp] theorem BST_nil : BST .nil := trivial

@[simp] theorem BST_node {k : Int} {l r p h i} :
    BST (.node k l r p h i) ↔
      (∀ x ∈ inorder l, x < k) ∧ (∀ x ∈ inorder r, k < x) ∧ BST l ∧ BST r :=
  Iff.rfl

@[simp] theorem height_nil : height (.nil : PT α) = 0 := rfl

@[simp] theorem height_node {k : α} {l r p h i} : height (.node k l r p h i) = h := rfl

@[simp] theorem realHeight_nil : realHeight (.nil : PT α) = 0 := rfl

@[simp] theorem realHeight_node {k : α} {l r p h i} :
    realHeight (.node k l r p h i) = 1 + max (realHeight l) (realHeight r) := rfl

@[simp] theorem countNodes_nil : countNodes (.nil : PT α) = 0 := rfl

@[simp] theorem countNodes_node {k : α} {l r p h i} :
    countNodes (.node k l r p h i) = 1 + countNodes l + countNodes r := rfl

@[simp] theorem inorder_nil : inorder (.nil : PT α) = [] := rfl

@[simp] theorem inorder_node {k : α} {l r p h i} :
    inorder (.node k l r p h i) = inorder l ++ k :: inorder r := rfl

@[simp] theorem idsMS_nil : idsMS (.nil : PT α) = 0 := rfl

@[simp] theorem idsMS_node {k : α} {l r p h i} :
    idsMS (.node k l r p h i) = i ::ₘ (idsMS l + idsMS r) := rfl

@[simp] theorem pairsMS_nil : pairsMS (.nil : PT α) = 0 := rfl

@[simp] theorem pairsMS_node {k : α} {l r p h i} :
    pairsMS (.node k l r p h i) = (i, k) ::ₘ (pairsMS l + pairsMS r) := rfl

@[simp] theorem getBalanceFactor_nil : getBalanceFactor (.nil : PT α) = 0 := rfl

@[simp] theorem getBalanceFactor_node {k : α} {l r p h i} :
    getBalanceFactor (.node k l r p h i) = (height l : Int) - (height r : Int) := rfl

theorem HtOk.height_eq {t : PT α} (ht : HtOk t) : height t = realHeight t := by
  induction t with
  | nil => rfl
  | node k l r p h i ihl ihr =>
    rcases ht with ⟨hh, hl, hr⟩
    simp [hh, ihl hl, ihr hr, Nat.add_comm]

theorem length_inorder (t : PT α) : (inorder t).length = countNodes t := by
  induction t with
  | nil => rfl
  | node k l r p h i ihl ihr => simp [ihl, ihr]; omega

/-! ### Rotations: structural bookkeeping -/

@[simp] theorem height_setParentRoot (p : Option Nat) (t : PT α) :
    height (setParentRoot p t) = height t := by
  cases t <;> rfl

@[simp] theorem realHeight_setParentRoot (p : Option Nat) (t : PT α) :
    realHeight (setParentRoot p t) = realHeight t := by
  cases t <;> rfl

@[simp] theorem inorder_setParentRoot (p : Option Nat) (t : PT α) :
    inorder (setParentRoot p t) = inorder t := by
  cases t <;> rfl

@[simp] theorem idsMS_setParentRoot (p : Option Nat) (t : PT α) :
    idsMS (setParentRoot p t) = idsMS t := by
  cases t <;> rfl

@[simp] theorem pairsMS_setParentRoot (p : Option Nat) (t : PT α) :
    pairsMS (setParentRoot p t) = pairsMS t := by
  cases t <;> rfl

@[simp] theorem HtOk_setParentRoot {p : Option Nat} {t : PT α} :
    HtOk (setParentRoot p t) ↔ HtOk t := by
  cases t <;> rfl

theorem ParentOk_setParentRoot (p : Option Nat) {q : Option Nat} {t : PT α}
    (hp : ParentOk q t) : ParentOk p (setParentRoot p t) := by
  cases t with
  | nil => trivial
  | node k l r q' h i => exact ⟨rfl, hp.2.1, hp.2.2⟩

theorem inorder_rightRotate (t : PT α) : inorder (rightRotate t) = inorder t := by
  cases t with
  | nil => rfl
  | node yk yl c yp yh yi =>
    cases yl with
    | nil => rfl
    | node xk a t2 xp xh xi => simp [rightRotate]

theorem inorder_leftRotate (t : PT α) : inorder (leftRotate t) = inorder t := by
  cases t with
  | nil => rfl
  | node xk a xr xp xh xi =>
    cases xr with
    | nil => rfl
    | node yk t2 c yp yh yi => simp [leftRotate]

theorem msSwap {β : Type} (a b : β) (A B C : Multiset β) :
    a ::ₘ (A + b ::ₘ (B + C)) = b ::ₘ (a ::ₘ (A + B) + C) := by
  rw [Multiset.add_cons, Multiset.cons_swap, Multiset.cons_add, add_assoc]

theorem idsMS_rightRotate (t : PT α) : idsMS (rightRotate t) = idsMS t := by
  cases t with
  | nil => rfl
  | node yk yl c yp yh yi =>
    cases yl with
    | nil => rfl
    | node xk a t2 xp xh xi =>
      simp only [rightRotate, idsMS_node, idsMS_setParentRoot]
      exact msSwap _ _ _ _ _

theorem idsMS_leftRotate (t : PT α) : idsMS (leftRotate t) = idsMS t := by
  cases t with
  | nil => rfl
  | node xk a xr xp xh xi =>
    cases xr with
    | nil => rfl
    | node yk t2 c yp yh yi =>
      simp only [leftRotate, idsMS_node, idsMS_setParentRoot]
      exact (msSwap _ _ _ _ _).symm

theorem pairsMS_rightRotate (t : PT α) : pairsMS (rightRotate t) = pairsMS t := by
  cases t with
  | nil => rfl
  | node yk yl c yp yh yi =>
    cases yl with
    | nil => rfl
    | node xk a t2 xp xh xi =>
      simp only [rightRotate, pairsMS_node, pairsMS_setParentRoot]
      exact msSwap _ _ _ _ _

theorem pairsMS_leftRotate (t : PT α) : pairsMS (leftRotate t) = pairsMS t := by
  cases t with
  | nil => rfl
  | node xk a xr xp xh xi =>
    cases xr with
    | nil => rfl
    | node yk t2 c yp yh yi =>
      simp only [leftRotate, pairsMS_node, pairsMS_setParentRoot]
      exact (msSwap _ _ _ _ _).symm

theorem ParentOk_rightRotate {p : Option Nat} {t : PT α} (hp : ParentOk p t) :
    ParentOk p (rightRotate t) := by
  cases t with
  | nil => trivial
  | node yk yl c yp yh yi =>
    cases yl with
    | nil => exact hp
    | node xk a t2 xp xh xi =>
      rcases hp with ⟨hyp, ⟨hxp, hpa, hpt2⟩, hpc⟩
      exact ⟨hyp, hpa, rfl, ParentOk_setParentRoot _ hpt2, hpc⟩

theorem ParentOk_leftRotate {p : Option Nat} {t : PT α} (hp : ParentOk p t) :
    ParentOk p (leftRotate t) := by
  cases t with
  | nil => trivial
  | node xk a xr xp xh xi =>
    cases xr with
    | nil => exact hp
    | node yk t2 c yp yh yi =>
      rcases hp with ⟨hxp, hpa, ⟨hyp, hpt2, hpc⟩⟩
      exact ⟨hxp, ⟨rfl, hpa, ParentOk_setParentRoot _ hpt2⟩, hpc⟩

end AVL

namespace AVL

variable {α : Type}

@[simp] theorem BalancedR_setParentRoot {p : Option Nat} {t : PT α} :
    BalancedR (setParentRoot p t) ↔ BalancedR t := by
  cases t <;> rfl

theorem inorder_insFix (lt : α → α → Bool) (t : PT α) (key : α) :
    inorder (insFix lt t key) = inorder t := by
  cases t with
  | nil => rfl
  | node k l r p h i =>
    simp only [insFix]
    split_ifs <;>
      simp [inorder_rightRotate, inorder_leftRotate]

theorem inorder_delFix (t : PT α) : inorder (delFix t) = inorder t := by
  cases t with
  | nil => rfl
  | node k l r p h i =>
    simp only [delFix]
    split_ifs <;>
      simp [inorder_rightRotate, inorder_leftRotate]

theorem idsMS_insFix (lt : α → α → Bool) (t : PT α) (key : α) :
    idsMS (insFix lt t key) = idsMS t := by
  cases t with
  | nil => rfl
  | node k l r p h i =>
    simp only [insFix]
    split_ifs <;>
      simp [idsMS_rightRotate, idsMS_leftRotate]

theorem idsMS_delFix (t : PT α) : idsMS (delFix t) = idsMS t := by
  cases t with
  | nil => rfl
  | node k l r p h i =>
    simp only [delFix]
    split_ifs <;>
      simp [idsMS_rightRotate, idsMS_leftRotate]

theorem pairsMS_insFix (lt : α → α → Bool) (t : PT α) (key : α) :
    pairsMS (insFix lt t key) = pairsMS t := by
  cases t with
  | nil => rfl
  | node k l r p h i =>
    simp only [insFix]
    split_ifs <;>
      simp [pairsMS_rightRotate, pairsMS_leftRotate]

theorem pairsMS_delFix (t : PT α) : pairsMS (delFix t) = pairsMS t := by
  cases t with
  | nil => rfl
  | node k l r p h i =>
    simp only [delFix]
    split_ifs <;>
      simp [pairsMS_rightRotate, pairsMS_leftRotate]

theorem ParentOk_insFix {lt : α → α → Bool} {pp : Option Nat} {t : PT α} {key : α}
    (hp : ParentOk pp t) : ParentOk pp (insFix lt t key) := by
  cases t with
  | nil => trivial
  | node k l r p h i =>
    rcases hp with ⟨hq, hl, hr⟩
    simp only [insFix]
    split_ifs
    · exact ParentOk_rightRotate ⟨hq, hl, hr⟩
    · exact ParentOk_leftRotate ⟨hq, hl, hr⟩
    · exact ParentOk_rightRotate ⟨hq, ParentOk_leftRotate hl, hr⟩
    · exact ParentOk_leftRotate ⟨hq, hl, ParentOk_rightRotate hr⟩
    · exact ⟨hq, hl, hr⟩

theorem ParentOk_delFix {pp : Option Nat} {t : PT α}
    (hp : ParentOk pp t) : ParentOk pp (delFix t) := by
  cases t with
  | nil => trivial
  | node k l r p h i =>
    rcases hp with ⟨hq, hl, hr⟩
    simp only [delFix]
    split_ifs
    · exact ParentOk_rightRotate ⟨hq, hl, hr⟩
    · exact ParentOk_rightRotate ⟨hq, ParentOk_leftRotate hl, hr⟩
    · exact ParentOk_leftRotate ⟨hq, hl, hr⟩
    · exact ParentOk_leftRotate ⟨hq, hl, ParentOk_rightRotate hr⟩
    · exact ⟨hq, hl, hr⟩

theorem insFix_eq_self {lt : α → α → Bool} {key : α} {k : α} {l r : PT α}
    {p : Option Nat} {h i : Nat}
    (h1 : (height l : Int) - height r ≤ 1) (h2 : (-1 : Int) ≤ (height l : Int) - height r) :
    insFix lt (.node k l r p h i) key = .node k l r p h i := by
  simp only [insFix, getBalanceFactor_node]
  split_ifs with c1 c2 c3 c4
  · exact absurd c1.1 (by omega)
  · exact absurd c2.1 (by omega)
  · exact absurd c3.1 (by omega)
  · exact absurd c4.1 (by omega)
  · rfl

theorem delFix_eq_self {k : α} {l r : PT α} {p : Option Nat} {h i : Nat}
    (h1 : (height l : Int) - height r ≤ 1) (h2 : (-1 : Int) ≤ (height l : Int) - height r) :
    delFix (.node k l r p h i) = .node k l r p h i := by
  simp only [delFix, getBalanceFactor_node]
  split_ifs with c1 c2 c3 c4
  · exact absurd c1.1 (by omega)
  · exact absurd c2.1 (by omega)
  · exact absurd c3.1 (by omega)
  · exact absurd c4.1 (by omega)
  · rfl

/-- A right rotation on a left-heavy node whose left child leans left or is
even: restores the AVL shape.  Covers the insert Left-Left case and the
deletion case `balance > 1 ∧ getBalanceFactor(left) ≥ 0`. -/
theorem rightRotate_spec {k lk : α} {la lb r : PT α} {lp p : Option Nat} {lh h li i : Nat}
    (hla : HtOk la) (hlb : HtOk lb) (hr : HtOk r)
    (bla : BalancedR la) (blb : BalancedR lb) (br : BalancedR r)
    (d1 : realHeight lb ≤ realHeight la) (d2 : realHeight la ≤ realHeight lb + 1)
    (d3 : realHeight la = realHeight r + 1) :
    HtOk (rightRotate (.node k (.node lk la lb lp lh li) r p h i)) ∧
    BalancedR (rightRotate (.node k (.node lk la lb lp lh li) r p h i)) ∧
    ((realHeight lb = realHeight r ∧
        realHeight (rightRotate (.node k (.node lk la lb lp lh li) r p h i)) =
          realHeight r + 2) ∨
      (realHeight lb = realHeight r + 1 ∧
        realHeight (rightRotate (.node k (.node lk la lb lp lh li) r p h i)) =
          realHeight r + 3)) := by
  have ea := hla.height_eq
  have eb := hlb.height_eq
  have er := hr.height_eq
  simp only [rightRotate, height_setParentRoot, height_node]
  refine ⟨?_, ?_, ?_⟩
  · simp only [HtOk_node, HtOk_setParentRoot, height_node, height_setParentRoot]
    refine ⟨by omega, hla, by omega, hlb, hr⟩
  · simp only [BalancedR_node, BalancedR_setParentRoot, realHeight_node,
      realHeight_setParentRoot]
    refine ⟨by omega, by omega, bla, by omega, by omega, blb, br⟩
  · simp only [realHeight_node, realHeight_setParentRoot]
    omega

/-- A left rotation on a right-heavy node whose right child leans right or is
even: restores the AVL shape.  Covers the insert Right-Right case and the
deletion case `balance < -1 ∧ getBalanceFactor(right) ≤ 0`. -/
theorem leftRotate_spec {k rk : α} {l ra rb : PT α} {rp p : Option Nat} {rh h ri i : Nat}
    (hl : HtOk l) (hra : HtOk ra) (hrb : HtOk rb)
    (bl : BalancedR l) (bra : BalancedR ra) (brb : BalancedR rb)
    (d1 : realHeight ra ≤ realHeight rb) (d2 : realHeight rb ≤ realHeight ra + 1)
    (d3 : realHeight rb = realHeight l + 1) :
    HtOk (leftRotate (.node k l (.node rk ra rb rp rh ri) p h i)) ∧
    BalancedR (leftRotate (.node k l (.node rk ra rb rp rh ri) p h i)) ∧
    ((realHeight ra = realHeight l ∧
        realHeight (leftRotate (.node k l (.node rk ra rb rp rh ri) p h i)) =
          realHeight l + 2) ∨
      (realHeight ra = realHeight l + 1 ∧
        realHeight (leftRotate (.node k l (.node rk ra rb rp rh ri) p h i)) =
          realHeight l + 3)) := by
  have el := hl.height_eq
  have eca := hra.height_eq
  have ecb := hrb.height_eq
  simp only [leftRotate, height_setParentRoot, height_node]
  refine ⟨?_, ?_, ?_⟩
  · simp only [HtOk_node, HtOk_setParentRoot, height_node, height_setParentRoot]
    refine ⟨by omega, ⟨by omega, hl, hra⟩, hrb⟩
  · simp only [BalancedR_node, BalancedR_setParentRoot, realHeight_node,
      realHeight_setParentRoot]
    refine ⟨by omega, by omega, ⟨by omega, by omega, bl, bra⟩, brb⟩
  · simp only [realHeight_node, realHeight_setParentRoot]
    omega

/-- The double rotation `left(left child)` then `right(node)` on a left-heavy
node whose left child leans right.  Covers the insert Left-Right case and the
deletion case `balance > 1 ∧ getBalanceFactor(left) < 0`. -/
theorem lrRotate_spec {k lk mk : α} {la m1 m2 r : PT α}
    {lp mp p : Option Nat} {lh mh h li mi i : Nat}
    (hla : HtOk la) (hm1 : HtOk m1) (hm2 : HtOk m2) (hr : HtOk r)
    (bla : BalancedR la) (bm1 : BalancedR m1) (bm2 : BalancedR m2) (br : BalancedR r)
    (d0 : realHeight la = realHeight r)
    (d1 : max (realHeight m1) (realHeight m2) = realHeight r)
    (d2 : realHeight m1 ≤ realHeight m2 + 1) (d3 : realHeight m2 ≤ realHeight m1 + 1) :
    HtOk (rightRotate
        (.node k (leftRotate (.node lk la (.node mk m1 m2 mp mh mi) lp lh li)) r p h i)) ∧
    BalancedR (rightRotate
        (.node k (leftRotate (.node lk la (.node mk m1 m2 mp mh mi) lp lh li)) r p h i)) ∧
    realHeight (rightRotate
        (.node k (leftRotate (.node lk la (.node mk m1 m2 mp mh mi) lp lh li)) r p h i)) =
      realHeight r + 2 := by
  have ea := hla.height_eq
  have e1 := hm1.height_eq
  have e2 := hm2.height_eq
  have er := hr.height_eq
  simp only [leftRotate, rightRotate, height_setParentRoot, height_node]
  refine ⟨?_, ?_, ?_⟩
  · simp only [HtOk_node, HtOk_setParentRoot, height_node, height_setParentRoot]
    exact ⟨by omega, ⟨by omega, hla, hm1⟩, by omega, hm2, hr⟩
  · simp only [BalancedR_node, BalancedR_setParentRoot, realHeight_node,
      realHeight_setParentRoot]
    exact ⟨by omega, by omega, ⟨by omega, by omega, bla, bm1⟩, by omega, by omega, bm2, br⟩
  · simp only [realHeight_node, realHeight_setParentRoot]
    omega

/-- The double rotation `right(right child)` then `left(node)` on a
right-heavy node whose right child leans left.  Covers the insert Right-Left
case and the deletion case `balance < -1 ∧ getBalanceFactor(right) > 0`. -/
theorem rlRotate_spec {k rk mk : α} {l m1 m2 rb : PT α}
    {rp mp p : Option Nat} {rh mh h ri mi i : Nat}
    (hl : HtOk l) (hm1 : HtOk m1) (hm2 : HtOk m2) (hrb : HtOk rb)
    (bl : BalancedR l) (bm1 : BalancedR m1) (bm2 : BalancedR m2) (brb : BalancedR rb)
    (d0 : realHeight rb = realHeight l)
    (d1 : max (realHeight m1) (realHeight m2) = realHeight l)
    (d2 : realHeight m1 ≤ realHeight m2 + 1) (d3 : realHeight m2 ≤ realHeight m1 + 1) :
    HtOk (leftRotate
        (.node k l (rightRotate (.node rk (.node mk m1 m2 mp mh mi) rb rp rh ri)) p h i)) ∧
    BalancedR (leftRotate
        (.node k l (rightRotate (.node rk (.node mk m1 m2 mp mh mi) rb rp rh ri)) p h i)) ∧
    realHeight (leftRotate
        (.node k l (rightRotate (.node rk (.node mk m1 m2 mp mh mi) rb rp rh ri)) p h i)) =
      realHeight l + 2 := by
  have el := hl.height_eq
  have e1 := hm1.height_eq
  have e2 := hm2.height_eq
  have eb := hrb.height_eq
  simp only [leftRotate, rightRotate, height_setParentRoot, height_node]
  refine ⟨?_, ?_, ?_⟩
  · simp only [HtOk_node, HtOk_setParentRoot, height_node, height_setParentRoot]
    exact ⟨by omega, ⟨by omega, hl, hm1⟩, by omega, hm2, hrb⟩
  · simp only [BalancedR_node, BalancedR_setParentRoot, realHeight_node,
      realHeight_setParentRoot]
    exact ⟨by omega, by omega, ⟨by omega, by omega, bl, bm1⟩, by omega, by omega, bm2, brb⟩
  · simp only [realHeight_node, realHeight_setParentRoot]
    omega

end AVL

namespace AVL

variable {α : Type}

/-- Asymmetry of the comparator — part of the strict-weak-order requirement
`Compare` must satisfy. -/
def Asymm (lt : α → α → Bool) : Prop := ∀ a b, lt a b = true → lt b a = false

/-- After an insertion that increased the height of a (previously non-empty)
subtree, the new subtree root leans towards the side the inserted key lies
on.  This is the invariant that ties the implementation's key-comparison
based case split to the actual shape. -/
def GrowWitness (lt : α → α → Bool) (key : α) : PT α → Prop
  | .nil => False
  | .node k l r _ _ _ =>
      (realHeight l = realHeight r + 1 ∧ lt key k = true) ∨
      (realHeight r = realHeight l + 1 ∧ lt k key = true)

end AVL

namespace AVL

variable {α : Type}

@[simp] theorem GrowWitness_nil {lt : α → α → Bool} {key : α} :
    ¬ GrowWitness lt key (.nil : PT α) := fun hyp => hyp

@[simp] theorem GrowWitness_node {lt : α → α → Bool} {key k : α} {l r p h i} :
    GrowWitness lt key (.node k l r p h i) ↔
      (realHeight l = realHeight r + 1 ∧ lt key k = true) ∨
      (realHeight r = realHeight l + 1 ∧ lt k key = true) :=
  Iff.rfl


/-- Height and balance bookkeeping of the recursive insert helper: the cached
heights stay consistent, the AVL balance invariant is preserved, the height
grows by at most one, and if it does grow (on a non-empty subtree) the new
root leans towards the inserted key. -/
theorem insert_HB {lt : α → α → Bool} (hA : Asymm lt) (key : α) (t : PT α) :
    ∀ (par : Option Nat) (fresh sz : Nat), HtOk t → BalancedR t →
      HtOk (insert lt t key par fresh sz).1 ∧
      BalancedR (insert lt t key par fresh sz).1 ∧
      realHeight t ≤ realHeight (insert lt t key par fresh sz).1 ∧
      realHeight (insert lt t key par fresh sz).1 ≤ realHeight t + 1 ∧
      (t ≠ .nil → realHeight (insert lt t key par fresh sz).1 = realHeight t + 1 →
        GrowWitness lt key (insert lt t key par fresh sz).1) := by
  induction t with
  | nil =>
    intro par fresh sz _ _
    refine ⟨⟨by simp, trivial, trivial⟩, ⟨by simp, by simp, trivial, trivial⟩, ?_, ?_, ?_⟩
    · simp [insert]
    · simp [insert]
    · intro hne; exact absurd rfl hne
  | node k l r p h i ihl ihr =>
    intro par fresh sz hht hbal
    rcases hht with ⟨hh, hhl, hhr⟩
    rcases hbal with ⟨hb1, hb2, hbl, hbr⟩
    by_cases hkl : lt key k = true
    · -- descend into the left subtree
      rcases e : insert lt l key (some i) fresh sz with ⟨l', f', s'⟩
      have IH := ihl (some i) fresh sz hhl hbl
      rw [e] at IH
      dsimp only at IH
      rcases IH with ⟨ihtH, ihtB, ihlo, ihhi, ihgw⟩
      have el' := ihtH.height_eq
      have er := hhr.height_eq
      have hins : insert lt (PT.node k l r p h i) key par fresh sz =
          (insFix lt (.node k l' r p (1 + max (height l') (height r)) i) key, f', s') := by
        simp [insert, hkl, e]
      rw [hins]
      dsimp only
      by_cases hover : realHeight l' ≤ realHeight r + 1
      · -- no rotation
        have hfix : insFix lt (.node k l' r p (1 + max (height l') (height r)) i) key =
            .node k l' r p (1 + max (height l') (height r)) i :=
          insFix_eq_self (by omega) (by omega)
        rw [hfix]
        refine ⟨⟨rfl, ihtH, hhr⟩, ⟨by omega, by omega, ihtB, hbr⟩, ?_, ?_, ?_⟩
        · simp only [realHeight_node]; omega
        · simp only [realHeight_node]; omega
        · intro _ hgrow
          simp only [realHeight_node] at hgrow
          exact Or.inl ⟨by omega, hkl⟩
      · -- the left subtree overflowed: realHeight l' = realHeight r + 2
        have hl2 : realHeight l' = realHeight r + 2 := by omega
        have hlg : realHeight l' = realHeight l + 1 := by omega
        have hlne : l ≠ PT.nil := by
          intro hnil
          rw [hnil] at ihhi
          simp at ihhi
          omega
        have hgw := ihgw hlne hlg
        cases l' with
        | nil => exact absurd hgw (by simp)
        | node lk la lb lp lh li =>
          have ela := ihtH.2.1.height_eq
          have elb := ihtH.2.2.height_eq
          simp only [realHeight_node, height_node] at hl2 hlg hover el'
          rcases hgw with ⟨hglt, hgcmp⟩ | ⟨hglt, hgcmp⟩
          · -- Left-Left case
            have hfix : insFix lt
                (.node k (.node lk la lb lp lh li) r p
                  (1 + max (height (.node lk la lb lp lh li)) (height r)) i) key =
                rightRotate (.node k (.node lk la lb lp lh li) r p
                  (1 + max (height (.node lk la lb lp lh li)) (height r)) i) := by
              simp only [insFix, getBalanceFactor_node]
              rw [if_pos]
              exact ⟨by simp only [height_node]; omega, by simp [ltRoot, hgcmp]⟩
            rw [hfix]
            have hspec := @rightRotate_spec α k lk la lb r lp p lh
              (1 + max (height (.node lk la lb lp lh li)) (height r)) li i
              ihtH.2.1 ihtH.2.2 hhr ihtB.2.2.1 ihtB.2.2.2 hbr
              (by omega) (by omega) (by omega)
            rcases hspec with ⟨hsH, hsB, hsh⟩
            refine ⟨hsH, hsB, ?_, ?_, ?_⟩
            · simp only [realHeight_node]; omega
            · simp only [realHeight_node]; omega
            · intro _ hgrow
              exfalso
              simp only [realHeight_node] at hgrow
              omega
          · -- Left-Right case
            have hnotll : ltRoot lt key (.node lk la lb lp lh li) = false := by
              simp [ltRoot, hA _ _ hgcmp]
            cases lb with
            | nil => simp at hglt
            | node mk m1 m2 mp mh mi =>
              have hfix : insFix lt
                  (.node k (.node lk la (.node mk m1 m2 mp mh mi) lp lh li) r p
                    (1 + max (height (.node lk la (.node mk m1 m2 mp mh mi) lp lh li))
                      (height r)) i) key =
                  rightRotate (.node k
                    (leftRotate (.node lk la (.node mk m1 m2 mp mh mi) lp lh li)) r p
                    (1 + max (height (.node lk la (.node mk m1 m2 mp mh mi) lp lh li))
                      (height r)) i) := by
                simp only [insFix, getBalanceFactor_node]
                rw [if_neg, if_neg, if_pos]
                · exact ⟨by simp only [height_node]; omega, by simp [rootLt, hgcmp]⟩
                · rintro ⟨hc, -⟩
                  simp only [height_node] at hc
                  omega
                · rintro ⟨-, hc⟩
                  rw [hnotll] at hc
                  exact Bool.false_ne_true hc
              rw [hfix]
              have em1 := ihtH.2.2.2.1.height_eq
              have em2 := ihtH.2.2.2.2.height_eq
              simp only [realHeight_node, height_node] at hglt hl2 ela elb
              have hspec := @lrRotate_spec α k lk mk la m1 m2 r lp mp p lh mh
                (1 + max (height (.node lk la (.node mk m1 m2 mp mh mi) lp lh li))
                  (height r)) li mi i
                ihtH.2.1 ihtH.2.2.2.1 ihtH.2.2.2.2 hhr
                ihtB.2.2.1 ihtB.2.2.2.2.2.1 ihtB.2.2.2.2.2.2 hbr
                (by omega) (by omega) ihtB.2.2.2.1 ihtB.2.2.2.2.1
              rcases hspec with ⟨hsH, hsB, hsh⟩
              refine ⟨hsH, hsB, ?_, ?_, ?_⟩
              · simp only [realHeight_node]; omega
              · simp only [realHeight_node]; omega
              · intro _ hgrow
                exfalso
                simp only [realHeight_node] at hgrow
                omega
    · by_cases hlk : lt k key = true
      · -- descend into the right subtree
        rcases e : insert lt r key (some i) fresh sz with ⟨r', f', s'⟩
        have IH := ihr (some i) fresh sz hhr hbr
        rw [e] at IH
        dsimp only at IH
        rcases IH with ⟨ihtH, ihtB, ihlo, ihhi, ihgw⟩
        have er' := ihtH.height_eq
        have el := hhl.height_eq
        have hins : insert lt (PT.node k l r p h i) key par fresh sz =
            (insFix lt (.node k l r' p (1 + max (height l) (height r')) i) key, f', s') := by
          simp [insert, hkl, hlk, e]
        rw [hins]
        dsimp only
        by_cases hover : realHeight r' ≤ realHeight l + 1
        · have hfix : insFix lt (.node k l r' p (1 + max (height l) (height r')) i) key =
              .node k l r' p (1 + max (height l) (height r')) i :=
            insFix_eq_self (by omega) (by omega)
          rw [hfix]
          refine ⟨⟨rfl, hhl, ihtH⟩, ⟨by omega, by omega, hbl, ihtB⟩, ?_, ?_, ?_⟩
          · simp only [realHeight_node]; omega
          · simp only [realHeight_node]; omega
          · intro _ hgrow
            simp only [realHeight_node] at hgrow
            exact Or.inr ⟨by omega, hlk⟩
        · have hr2 : realHeight r' = realHeight l + 2 := by omega
          have hrg : realHeight r' = realHeight r + 1 := by omega
          have hrne : r ≠ PT.nil := by
            intro hnil
            rw [hnil] at ihhi
            simp at ihhi
            omega
          have hgw := ihgw hrne hrg
          cases r' with
          | nil => exact absurd hgw (by simp)
          | node rk ra rb rpp rhh rii =>
            have era := ihtH.2.1.height_eq
            have erb := ihtH.2.2.height_eq
            simp only [realHeight_node, height_node] at hr2 hrg hover er'
            rcases hgw with ⟨hglt, hgcmp⟩ | ⟨hglt, hgcmp⟩
            · -- Right-Left case
              have hnotrr : rootLt lt key (.node rk ra rb rpp rhh rii) = false := by
                simp [rootLt, hA _ _ hgcmp]
              cases ra with
              | nil => simp at hglt
              | node mk m1 m2 mp mh mi =>
                have hfix : insFix lt
                    (.node k l (.node rk (.node mk m1 m2 mp mh mi) rb rpp rhh rii) p
                      (1 + max (height l)
                        (height (.node rk (.node mk m1 m2 mp mh mi) rb rpp rhh rii))) i) key =
                    leftRotate (.node k l
                      (rightRotate (.node rk (.node mk m1 m2 mp mh mi) rb rpp rhh rii)) p
                      (1 + max (height l)
                        (height (.node rk (.node mk m1 m2 mp mh mi) rb rpp rhh rii))) i) := by
                  simp only [insFix, getBalanceFactor_node]
                  rw [if_neg, if_neg, if_neg, if_pos]
                  · exact ⟨by simp only [height_node]; omega, by simp [ltRoot, hgcmp]⟩
                  · rintro ⟨hc, -⟩
                    simp only [height_node] at hc
                    omega
                  · rintro ⟨-, hc⟩
                    rw [hnotrr] at hc
                    exact Bool.false_ne_true hc
                  · rintro ⟨hc, -⟩
                    simp only [height_node] at hc
                    omega
                rw [hfix]
                have em1 := ihtH.2.1.2.1.height_eq
                have em2 := ihtH.2.1.2.2.height_eq
                simp only [realHeight_node, height_node] at hglt hr2 era erb
                have hspec := @rlRotate_spec α k rk mk l m1 m2 rb rpp mp p rhh mh
                  (1 + max (height l)
                    (height (.node rk (.node mk m1 m2 mp mh mi) rb rpp rhh rii))) rii mi i
                  hhl ihtH.2.1.2.1 ihtH.2.1.2.2 ihtH.2.2
                  hbl ihtB.2.2.1.2.2.1 ihtB.2.2.1.2.2.2 ihtB.2.2.2
                  (by omega) (by omega) ihtB.2.2.1.1 ihtB.2.2.1.2.1
                rcases hspec with ⟨hsH, hsB, hsh⟩
                refine ⟨hsH, hsB, ?_, ?_, ?_⟩
                · simp only [realHeight_node]; omega
                · simp only [realHeight_node]; omega
                · intro _ hgrow
                  exfalso
                  simp only [realHeight_node] at hgrow
                  omega
            · -- Right-Right case
              have hfix : insFix lt
                  (.node k l (.node rk ra rb rpp rhh rii) p
                    (1 + max (height l) (height (.node rk ra rb rpp rhh rii))) i) key =
                  leftRotate (.node k l (.node rk ra rb rpp rhh rii) p
                    (1 + max (height l) (height (.node rk ra rb rpp rhh rii))) i) := by
                simp only [insFix, getBalanceFactor_node]
                rw [if_neg, if_pos]
                · exact ⟨by simp only [height_node]; omega, by simp [rootLt, hgcmp]⟩
                · rintro ⟨hc, -⟩
                  simp only [height_node] at hc
                  omega
              rw [hfix]
              have hspec := @leftRotate_spec α k rk l ra rb rpp p rhh
                (1 + max (height l) (height (.node rk ra rb rpp rhh rii))) rii i
                hhl ihtH.2.1 ihtH.2.2 hbl ihtB.2.2.1 ihtB.2.2.2
                (by omega) (by omega) (by omega)
              rcases hspec with ⟨hsH, hsB, hsh⟩
              refine ⟨hsH, hsB, ?_, ?_, ?_⟩
              · simp only [realHeight_node]; omega
              · simp only [realHeight_node]; omega
              · intro _ hgrow
                exfalso
                simp only [realHeight_node] at hgrow
                omega
      · -- duplicate key: the node is returned unchanged
        have hins : insert lt (PT.node k l r p h i) key par fresh sz =
            (.node k l r p h i, fresh, sz) := by
          simp [insert, hkl, hlk]
        rw [hins]
        dsimp only
        refine ⟨⟨hh, hhl, hhr⟩, ⟨hb1, hb2, hbl, hbr⟩, le_refl _, by omega, ?_⟩
        intro _ hgrow
        exfalso
        omega

end AVL

namespace AVL

variable {α : Type}

theorem card_idsMS (t : PT α) : Multiset.card (idsMS t) = countNodes t := by
  induction t with
  | nil => rfl
  | node k l r p h i ihl ihr => simp [ihl, ihr]; omega

/-- Allocation bookkeeping of the insert helper: either the key was already
present and tree, allocator and size are all unchanged, or exactly one node
with the fresh id was allocated. -/
theorem insert_alloc (lt : α → α → Bool) (key : α) (t : PT α) :
    ∀ (par : Option Nat) (fresh sz : Nat),
      (idsMS (insert lt t key par fresh sz).1 = idsMS t ∧
        (insert lt t key par fresh sz).2.1 = fresh ∧
        (insert lt t key par fresh sz).2.2 = sz) ∨
      (idsMS (insert lt t key par fresh sz).1 = fresh ::ₘ idsMS t ∧
        (insert lt t key par fresh sz).2.1 = fresh + 1 ∧
        (insert lt t key par fresh sz).2.2 = sz + 1) := by
  induction t with
  | nil =>
    intro par fresh sz
    right
    simp [insert]
  | node k l r p h i ihl ihr =>
    intro par fresh sz
    by_cases hkl : lt key k = true
    · rcases e : insert lt l key (some i) fresh sz with ⟨l', f', s'⟩
      have IH := ihl (some i) fresh sz
      rw [e] at IH
      dsimp only at IH
      have hins : insert lt (PT.node k l r p h i) key par fresh sz =
          (insFix lt (.node k l' r p (1 + max (height l') (height r)) i) key, f', s') := by
        simp [insert, hkl, e]
      rw [hins]
      dsimp only
      rw [idsMS_insFix]
      rcases IH with ⟨hi, hf, hs⟩ | ⟨hi, hf, hs⟩
      · left
        simp [hi, hf, hs]
      · right
        refine ⟨?_, hf, hs⟩
        rw [idsMS_node, idsMS_node, hi, Multiset.cons_add, Multiset.cons_swap]
    · by_cases hlk : lt k key = true
      · rcases e : insert lt r key (some i) fresh sz with ⟨r', f', s'⟩
        have IH := ihr (some i) fresh sz
        rw [e] at IH
        dsimp only at IH
        have hins : insert lt (PT.node k l r p h i) key par fresh sz =
            (insFix lt (.node k l r' p (1 + max (height l) (height r')) i) key, f', s') := by
          simp [insert, hkl, hlk, e]
        rw [hins]
        dsimp only
        rw [idsMS_insFix]
        rcases IH with ⟨hi, hf, hs⟩ | ⟨hi, hf, hs⟩
        · left
          simp [hi, hf, hs]
        · right
          refine ⟨?_, hf, hs⟩
          rw [idsMS_node, idsMS_node, hi, Multiset.add_cons, Multiset.cons_swap]
      · left
        simp [insert, hkl, hlk]

/-- The corresponding key bookkeeping: either nothing changes or exactly the
pair (fresh id, new key) is added. -/
theorem insert_pairs (lt : α → α → Bool) (key : α) (t : PT α) :
    ∀ (par : Option Nat) (fresh sz : Nat),
      pairsMS (insert lt t key par fresh sz).1 = pairsMS t ∨
      pairsMS (insert lt t key par fresh sz).1 = (fresh, key) ::ₘ pairsMS t := by
  induction t with
  | nil =>
    intro par fresh sz
    right
    simp [insert]
  | node k l r p h i ihl ihr =>
    intro par fresh sz
    by_cases hkl : lt key k = true
    · rcases e : insert lt l key (some i) fresh sz with ⟨l', f', s'⟩
      have IH := ihl (some i) fresh sz
      rw [e] at IH
      dsimp only at IH
      have hins : insert lt (PT.node k l r p h i) key par fresh sz =
          (insFix lt (.node k l' r p (1 + max (height l') (height r)) i) key, f', s') := by
        simp [insert, hkl, e]
      rw [hins]
      dsimp only
      rw [pairsMS_insFix]
      rcases IH with hi | hi
      · left
        simp [hi]
      · right
        rw [pairsMS_node, pairsMS_node, hi, Multiset.cons_add, Multiset.cons_swap]
    · by_cases hlk : lt k key = true
      · rcases e : insert lt r key (some i) fresh sz with ⟨r', f', s'⟩
        have IH := ihr (some i) fresh sz
        rw [e] at IH
        dsimp only at IH
        have hins : insert lt (PT.node k l r p h i) key par fresh sz =
            (insFix lt (.node k l r' p (1 + max (height l) (height r')) i) key, f', s') := by
          simp [insert, hkl, hlk, e]
        rw [hins]
        dsimp only
        rw [pairsMS_insFix]
        rcases IH with hi | hi
        · left
          simp [hi]
        · right
          rw [pairsMS_node, pairsMS_node, hi, Multiset.add_cons, Multiset.cons_swap]
      · left
        simp [insert, hkl, hlk]

/-- Parent-pointer consistency is preserved by the insert helper, provided it
is called with the actual parent id (as the source does). -/
theorem insert_parent (lt : α → α → Bool) (key : α) (t : PT α) :
    ∀ (par : Option Nat) (fresh sz : Nat), ParentOk par t →
      ParentOk par (insert lt t key par fresh sz).1 := by
  induction t with
  | nil =>
    intro par fresh sz _
    exact ⟨rfl, trivial, trivial⟩
  | node k l r p h i ihl ihr =>
    intro par fresh sz hp
    rcases hp with ⟨hq, hpl, hpr⟩
    by_cases hkl : lt key k = true
    · rcases e : insert lt l key (some i) fresh sz with ⟨l', f', s'⟩
      have IH := ihl (some i) fresh sz hpl
      rw [e] at IH
      dsimp only at IH
      have hins : insert lt (PT.node k l r p h i) key par fresh sz =
          (insFix lt (.node k l' r p (1 + max (height l') (height r)) i) key, f', s') := by
        simp [insert, hkl, e]
      rw [hins]
      exact ParentOk_insFix (ParentOk_node.mpr ⟨hq, IH, hpr⟩)
    · by_cases hlk : lt k key = true
      · rcases e : insert lt r key (some i) fresh sz with ⟨r', f', s'⟩
        have IH := ihr (some i) fresh sz hpr
        rw [e] at IH
        dsimp only at IH
        have hins : insert lt (PT.node k l r p h i) key par fresh sz =
            (insFix lt (.node k l r' p (1 + max (height l) (height r')) i) key, f', s') := by
          simp [insert, hkl, hlk, e]
        rw [hins]
        exact ParentOk_insFix (ParentOk_node.mpr ⟨hq, hpl, IH⟩)
      · have hins : insert lt (PT.node k l r p h i) key par fresh sz =
            (.node k l r p h i, fresh, sz) := by
          simp [insert, hkl, hlk]
        rw [hins]
        exact ⟨hq, hpl, hpr⟩

/-- Inserting a key that is already present (in the sense of the comparison
descent) is a complete no-op: the returned subtree is the very same value and
neither the allocator nor the size moves. -/
theorem insert_noop (lt : α → α → Bool) (key : α) (t : PT α) :
    ∀ (par : Option Nat) (fresh sz : Nat), HtOk t → BalancedR t →
      ceq lt t key = true → insert lt t key par fresh sz = (t, fresh, sz) := by
  induction t with
  | nil =>
    intro par fresh sz _ _ hc
    simp [ceq] at hc
  | node k l r p h i ihl ihr =>
    intro par fresh sz hht hbal hc
    rcases hht with ⟨hh, hhl, hhr⟩
    rcases hbal with ⟨hb1, hb2, hbl, hbr⟩
    have el := hhl.height_eq
    have er := hhr.height_eq
    by_cases hkl : lt key k = true
    · have hcl : ceq lt l key = true := by
        simpa [ceq, hkl] using hc
      have e := ihl (some i) fresh sz hhl hbl hcl
      have hins : insert lt (PT.node k l r p h i) key par fresh sz =
          (insFix lt (.node k l r p (1 + max (height l) (height r)) i) key, fresh, sz) := by
        simp [insert, hkl, e]
      rw [hins, insFix_eq_self (by omega) (by omega)]
      rw [← hh]
    · by_cases hlk : lt k key = true
      · have hcr : ceq lt r key = true := by
          simpa [ceq, hkl, hlk] using hc
        have e := ihr (some i) fresh sz hhr hbr hcr
        have hins : insert lt (PT.node k l r p h i) key par fresh sz =
            (insFix lt (.node k l r p (1 + max (height l) (height r)) i) key, fresh, sz) := by
          simp [insert, hkl, hlk, e]
        rw [hins, insFix_eq_self (by omega) (by omega)]
        rw [← hh]
      · simp [insert, hkl, hlk]

end AVL

namespace AVL

variable {α : Type}

/-- Erasing a key that is absent (the comparison descent reaches a null
pointer) is a complete no-op: `deleteNode` returns the identical subtree and
leaves `tree_size` unchanged. -/
theorem delete_noop (lt : α → α → Bool) (key : α) (t : PT α) :
    ∀ (sz : Nat), HtOk t → BalancedR t →
      ceq lt t key = false → deleteNode lt t key sz = (t, sz) := by
  induction t with
  | nil =>
    intro sz _ _ _
    rfl
  | node k l r p h i ihl ihr =>
    intro sz hht hbal hc
    rcases hht with ⟨hh, hhl, hhr⟩
    rcases hbal with ⟨hb1, hb2, hbl, hbr⟩
    have el := hhl.height_eq
    have er := hhr.height_eq
    by_cases hkl : lt key k = true
    · have hcl : ceq lt l key = false := by
        simpa [ceq, hkl] using hc
      have e := ihl sz hhl hbl hcl
      have hins : deleteNode lt (PT.node k l r p h i) key sz =
          (delFix (.node k l r p (1 + max (height l) (height r)) i), sz) := by
        rw [deleteNode.eq_def]
        simp [hkl, e]
      rw [hins, delFix_eq_self (by omega) (by omega)]
      rw [← hh]
    · by_cases hlk : lt k key = true
      · have hcr : ceq lt r key = false := by
          simpa [ceq, hkl, hlk] using hc
        have e := ihr sz hhr hbr hcr
        have hins : deleteNode lt (PT.node k l r p h i) key sz =
            (delFix (.node k l r p (1 + max (height l) (height r)) i), sz) := by
          rw [deleteNode.eq_def]
          simp [hkl, hlk, e]
        rw [hins, delFix_eq_self (by omega) (by omega)]
        rw [← hh]
      · exfalso
        simp [ceq, hkl, hlk] at hc

theorem BST_iff_pairwise (t : PT Int) : BST t ↔ (inorder t).Pairwise (· < ·) := by
  induction t with
  | nil => simp [BST]
  | node k l r p h i ihl ihr =>
    rw [BST_node, inorder_node, List.pairwise_append, ihl, ihr, List.pairwise_cons]
    constructor
    · rintro ⟨hl, hr, bl, br⟩
      refine ⟨bl, ⟨hr, br⟩, ?_⟩
      intro x hx y hy
      rcases List.mem_cons.mp hy with rfl | hy
      · exact hl x hx
      · exact lt_trans (hl x hx) (hr y hy)
    · rintro ⟨bl, ⟨hr, br⟩, hcross⟩
      refine ⟨?_, hr, bl, br⟩
      intro x hx
      exact hcross x hx k (List.mem_cons_self _ _)

/-- BST-order preservation for insertion at the `Int` instantiation, together
with the fact that insertion adds no key other than the inserted one. -/
theorem insert_BST (key : Int) (t : PT Int) :
    ∀ (par : Option Nat) (fresh sz : Nat), BST t →
      BST (insert ltInt t key par fresh sz).1 ∧
      (∀ x ∈ inorder (insert ltInt t key par fresh sz).1, x ∈ inorder t ∨ x = key) := by
  induction t with
  | nil =>
    intro par fresh sz _
    constructor
    · exact ⟨by simp, by simp, trivial, trivial⟩
    · intro x hx
      right
      have hx2 : x ∈ ([key] : List Int) := hx
      simpa using hx2
  | node k l r p h i ihl ihr =>
    intro par fresh sz hbst
    rcases hbst with ⟨hl, hr, bl, br⟩
    by_cases hkl : ltInt key k = true
    · have hklv : key < k := by simpa [ltInt] using hkl
      rcases e : insert ltInt l key (some i) fresh sz with ⟨l', f', s'⟩
      have IH := ihl (some i) fresh sz bl
      rw [e] at IH
      dsimp only at IH
      rcases IH with ⟨IHbst, IHmem⟩
      have hins : insert ltInt (PT.node k l r p h i) key par fresh sz =
          (insFix ltInt (.node k l' r p (1 + max (height l') (height r)) i) key, f', s') := by
        simp [insert, hkl, e]
      rw [hins]
      dsimp only
      constructor
      · rw [BST_iff_pairwise, inorder_insFix, inorder_node, List.pairwise_append,
          List.pairwise_cons]
        refine ⟨(BST_iff_pairwise _).mp IHbst, ⟨hr, (BST_iff_pairwise _).mp br⟩, ?_⟩
        intro x hx y hy
        have hxk : x < k := by
          rcases IHmem x hx with hx' | rfl
          · exact hl x hx'
          · exact hklv
        rcases List.mem_cons.mp hy with rfl | hy
        · exact hxk
        · exact lt_trans hxk (hr y hy)
      · simp only [inorder_insFix, inorder_node, List.mem_append, List.mem_cons]
        intro x hx
        rcases hx with hx | hx
        · rcases IHmem x hx with hx' | rfl
          · exact Or.inl (Or.inl hx')
          · exact Or.inr rfl
        · exact Or.inl (Or.inr hx)
    · by_cases hlk : ltInt k key = true
      · have hlkv : k < key := by simpa [ltInt] using hlk
        rcases e : insert ltInt r key (some i) fresh sz with ⟨r', f', s'⟩
        have IH := ihr (some i) fresh sz br
        rw [e] at IH
        dsimp only at IH
        rcases IH with ⟨IHbst, IHmem⟩
        have hins : insert ltInt (PT.node k l r p h i) key par fresh sz =
            (insFix ltInt (.node k l r' p (1 + max (height l) (height r')) i) key, f', s') := by
          simp [insert, hkl, hlk, e]
        rw [hins]
        dsimp only
        constructor
        · rw [BST_iff_pairwise, inorder_insFix, inorder_node, List.pairwise_append,
            List.pairwise_cons]
          refine ⟨(BST_iff_pairwise _).mp bl, ⟨?_, (BST_iff_pairwise _).mp IHbst⟩, ?_⟩
          · intro y hy
            rcases IHmem y hy with hy' | rfl
            · exact hr y hy'
            · exact hlkv
          · intro x hx y hy
            rcases List.mem_cons.mp hy with rfl | hy
            · exact hl x hx
            · rcases IHmem y hy with hy' | rfl
              · exact lt_trans (hl x hx) (hr y hy')
              · exact lt_trans (hl x hx) hlkv
        · simp only [inorder_insFix, inorder_node, List.mem_append, List.mem_cons]
          intro x hx
          rcases hx with hx | rfl | hx
          · exact Or.inl (Or.inl hx)
          · exact Or.inl (Or.inr (Or.inl rfl))
          · rcases IHmem x hx with hx' | rfl
            · exact Or.inl (Or.inr (Or.inr hx'))
            · exact Or.inr rfl
      · have hins : insert ltInt (PT.node k l r p h i) key par fresh sz =
            (.node k l r p h i, fresh, sz) := by
          simp [insert, hkl, hlk]
        rw [hins]
        exact ⟨⟨hl, hr, bl, br⟩, fun x hx => Or.inl hx⟩

end AVL

namespace AVL

variable {α : Type}

theorem realHeight_eq_zero {t : PT α} : realHeight t = 0 ↔ t = .nil := by
  cases t with
  | nil => simp
  | node k l r p h i => simp

theorem countNodes_delFix (t : PT α) : countNodes (delFix t) = countNodes t := by
  rw [← length_inorder, ← length_inorder, inorder_delFix]

theorem countNodes_insFix (lt : α → α → Bool) (t : PT α) (key : α) :
    countNodes (insFix lt t key) = countNodes t := by
  rw [← length_inorder, ← length_inorder, inorder_insFix]

/-- Behaviour of the rebalancing step of `deleteNode` when fed a node whose
children satisfy the invariants and whose heights differ by at most two (as
is the case after deleting from one subtree): the result satisfies the
invariants and its height is `max` or `max + 1` of the children's heights,
with equality to `max + 1` whenever no rotation is needed. -/
theorem delFix_spec (k : α) (l r : PT α) (p : Option Nat) (i : Nat)
    (hl : HtOk l) (hr : HtOk r) (bl : BalancedR l) (br : BalancedR r)
    (d1 : realHeight l ≤ realHeight r + 2) (d2 : realHeight r ≤ realHeight l + 2) :
    HtOk (delFix (.node k l r p (1 + max (height l) (height r)) i)) ∧
    BalancedR (delFix (.node k l r p (1 + max (height l) (height r)) i)) ∧
    max (realHeight l) (realHeight r) ≤
      realHeight (delFix (.node k l r p (1 + max (height l) (height r)) i)) ∧
    realHeight (delFix (.node k l r p (1 + max (height l) (height r)) i)) ≤
      1 + max (realHeight l) (realHeight r) ∧
    (realHeight l ≤ realHeight r + 1 → realHeight r ≤ realHeight l + 1 →
      realHeight (delFix (.node k l r p (1 + max (height l) (height r)) i)) =
        1 + max (realHeight l) (realHeight r)) := by
  have el := hl.height_eq
  have er := hr.height_eq
  simp only [delFix, getBalanceFactor_node]
  split_ifs with c1 c2 c3 c4
  · -- left-heavy, left child not leaning right
    rcases c1 with ⟨hbal, hbfl⟩
    cases l with
    | nil => exfalso; simp only [height_nil] at hbal; omega
    | node lk la lb lp lh li =>
      have ela := hl.2.1.height_eq
      have elb := hl.2.2.height_eq
      have hlh := hl.1
      simp only [height_node] at hbal
      simp only [getBalanceFactor_node] at hbfl
      simp only [realHeight_node] at d1 d2
      have hspec := @rightRotate_spec α k lk la lb r lp p lh
        (1 + max (height (.node lk la lb lp lh li)) (height r)) li i
        hl.2.1 hl.2.2 hr bl.2.2.1 bl.2.2.2 br
        (by omega) bl.1 (by omega)
      rcases hspec with ⟨hsH, hsB, hsh⟩
      refine ⟨hsH, hsB, ?_, ?_, ?_⟩
      · simp only [realHeight_node]; omega
      · simp only [realHeight_node]; omega
      · intro hx hy
        exfalso
        simp only [realHeight_node] at hx
        omega
  · -- left-heavy, left child leaning right: double rotation
    rcases c2 with ⟨hbal, hbfl⟩
    cases l with
    | nil => exfalso; simp only [height_nil] at hbal; omega
    | node lk la lb lp lh li =>
      have ela := hl.2.1.height_eq
      have elb := hl.2.2.height_eq
      have hlh := hl.1
      simp only [height_node] at hbal
      simp only [getBalanceFactor_node] at hbfl
      simp only [realHeight_node] at d1 d2
      cases lb with
      | nil =>
        exfalso
        simp only [height_nil] at hbfl
        omega
      | node mk m1 m2 mp mh mi =>
        have em1 := hl.2.2.2.1.height_eq
        have em2 := hl.2.2.2.2.height_eq
        have hmh := hl.2.2.1
        simp only [height_node, realHeight_node] at hbfl elb hlh
        simp only [realHeight_node] at d1 d2 ela
        have hbl1 := bl.1
        have hbl2 := bl.2.1
        simp only [realHeight_node] at hbl1 hbl2
        have hspec := @lrRotate_spec α k lk mk la m1 m2 r lp mp p lh mh
          (1 + max (height (.node lk la (.node mk m1 m2 mp mh mi) lp lh li)) (height r)) li mi i
          hl.2.1 hl.2.2.2.1 hl.2.2.2.2 hr
          bl.2.2.1 bl.2.2.2.2.2.1 bl.2.2.2.2.2.2 br
          (by omega) (by omega) bl.2.2.2.1 bl.2.2.2.2.1
        rcases hspec with ⟨hsH, hsB, hsh⟩
        refine ⟨hsH, hsB, ?_, ?_, ?_⟩
        · simp only [realHeight_node]; omega
        · simp only [realHeight_node]; omega
        · intro hx hy
          exfalso
          simp only [realHeight_node] at hx
          omega
  · -- right-heavy, right child not leaning left
    rcases c3 with ⟨hbal, hbfr⟩
    cases r with
    | nil => exfalso; simp only [height_nil] at hbal; omega
    | node rk ra rb rp2 rh2 ri2 =>
      have era := hr.2.1.height_eq
      have erb := hr.2.2.height_eq
      have hrh := hr.1
      simp only [height_node] at hbal
      simp only [getBalanceFactor_node] at hbfr
      simp only [realHeight_node] at d1 d2
      have hspec := @leftRotate_spec α k rk l ra rb rp2 p rh2
        (1 + max (height l) (height (.node rk ra rb rp2 rh2 ri2))) ri2 i
        hl hr.2.1 hr.2.2 bl br.2.2.1 br.2.2.2
        (by omega) br.2.1 (by omega)
      rcases hspec with ⟨hsH, hsB, hsh⟩
      refine ⟨hsH, hsB, ?_, ?_, ?_⟩
      · simp only [realHeight_node]; omega
      · simp only [realHeight_node]; omega
      · intro hx hy
        exfalso
        simp only [realHeight_node] at hy
        omega
  · -- right-heavy, right child leaning left: double rotation
    rcases c4 with ⟨hbal, hbfr⟩
    cases r with
    | nil => exfalso; simp only [height_nil] at hbal; omega
    | node rk ra rb rp2 rh2 ri2 =>
      have era := hr.2.1.height_eq
      have erb := hr.2.2.height_eq
      have hrh := hr.1
      simp only [height_node] at hbal
      simp only [getBalanceFactor_node] at hbfr
      simp only [realHeight_node] at d1 d2
      cases ra with
      | nil =>
        exfalso
        simp only [height_nil] at hbfr
        omega
      | node mk m1 m2 mp mh mi =>
        have em1 := hr.2.1.2.1.height_eq
        have em2 := hr.2.1.2.2.height_eq
        have hmh := hr.2.1.1
        simp only [height_node, realHeight_node] at hbfr era hrh
        simp only [realHeight_node] at d1 d2 erb
        have hbr1 := br.1
        have hbr2 := br.2.1
        simp only [realHeight_node] at hbr1 hbr2
        have hspec := @rlRotate_spec α k rk mk l m1 m2 rb rp2 mp p rh2 mh
          (1 + max (height l) (height (.node rk (.node mk m1 m2 mp mh mi) rb rp2 rh2 ri2))) ri2 mi i
          hl hr.2.1.2.1 hr.2.1.2.2 hr.2.2
          bl br.2.2.1.2.2.1 br.2.2.1.2.2.2 br.2.2.2
          (by omega) (by omega) br.2.2.1.1 br.2.2.1.2.1
        rcases hspec with ⟨hsH, hsB, hsh⟩
        refine ⟨hsH, hsB, ?_, ?_, ?_⟩
        · simp only [realHeight_node]; omega
        · simp only [realHeight_node]; omega
        · intro hx hy
          exfalso
          simp only [realHeight_node] at hy
          omega
  · -- no rotation
    refine ⟨⟨rfl, hl, hr⟩, ⟨by omega, by omega, bl, br⟩, ?_, ?_, ?_⟩
    · simp only [realHeight_node]; omega
    · simp only [realHeight_node]; omega
    · intro hx hy
      simp only [realHeight_node]

end AVL

namespace AVL

variable {α : Type}

/-- Height and balance bookkeeping of `deleteNode`: the invariants are
preserved and the height shrinks by at most one. -/
theorem delete_HB (lt : α → α → Bool) (t : PT α) :
    ∀ (key : α) (sz : Nat), HtOk t → BalancedR t →
      HtOk (deleteNode lt t key sz).1 ∧ BalancedR (deleteNode lt t key sz).1 ∧
      realHeight (deleteNode lt t key sz).1 ≤ realHeight t ∧
      realHeight t ≤ realHeight (deleteNode lt t key sz).1 + 1 := by
  induction t with
  | nil =>
    intro key sz _ _
    exact ⟨trivial, trivial, le_refl _, by simp⟩
  | node k l r p h i ihl ihr =>
    intro key sz hht hbal
    rcases hht with ⟨hh, hhl, hhr⟩
    rcases hbal with ⟨hb1, hb2, hbl, hbr⟩
    have el := hhl.height_eq
    have er := hhr.height_eq
    by_cases hkl : lt key k = true
    · rcases e : deleteNode lt l key sz with ⟨l', s'⟩
      have IH := ihl key sz hhl hbl
      rw [e] at IH
      dsimp only at IH
      rcases IH with ⟨dH, dB, dhi, dlo⟩
      have hins : deleteNode lt (PT.node k l r p h i) key sz =
          (delFix (.node k l' r p (1 + max (height l') (height r)) i), s') := by
        rw [deleteNode.eq_def]
        simp [hkl, e]
      rw [hins]
      dsimp only
      have el' := dH.height_eq
      have hspec := delFix_spec k l' r p i dH hhr dB hbr (by omega) (by omega)
      rcases hspec with ⟨sH, sB, s3, s4, s5⟩
      refine ⟨sH, sB, ?_, ?_⟩
      · simp only [realHeight_node]
        omega
      · by_cases hd : realHeight l' ≤ realHeight r + 1 ∧ realHeight r ≤ realHeight l' + 1
        · have := s5 hd.1 hd.2
          simp only [realHeight_node]
          omega
        · simp only [realHeight_node]
          omega
    · by_cases hlk : lt k key = true
      · rcases e : deleteNode lt r key sz with ⟨r', s'⟩
        have IH := ihr key sz hhr hbr
        rw [e] at IH
        dsimp only at IH
        rcases IH with ⟨dH, dB, dhi, dlo⟩
        have hins : deleteNode lt (PT.node k l r p h i) key sz =
            (delFix (.node k l r' p (1 + max (height l) (height r')) i), s') := by
          rw [deleteNode.eq_def]
          simp [hkl, hlk, e]
        rw [hins]
        dsimp only
        have er' := dH.height_eq
        have hspec := delFix_spec k l r' p i hhl dH hbl dB (by omega) (by omega)
        rcases hspec with ⟨sH, sB, s3, s4, s5⟩
        refine ⟨sH, sB, ?_, ?_⟩
        · simp only [realHeight_node]
          omega
        · by_cases hd : realHeight l ≤ realHeight r' + 1 ∧ realHeight r' ≤ realHeight l + 1
          · have := s5 hd.1 hd.2
            simp only [realHeight_node]
            omega
          · simp only [realHeight_node]
            omega
      · -- the key is at this node
        cases l with
        | nil =>
          cases r with
          | nil =>
            have hins : deleteNode lt (PT.node k .nil .nil p h i) key sz = (.nil, sz - 1) := by
              rw [deleteNode.eq_def]
              simp [hkl, hlk]
            rw [hins]
            exact ⟨trivial, trivial, by simp, by simp⟩
          | node ck cl cr cp ch ci =>
            have hcl : cl = PT.nil := by
              simp only [realHeight_node, realHeight_nil] at hb2
              rw [← realHeight_eq_zero]
              omega
            have hcr : cr = PT.nil := by
              simp only [realHeight_node, realHeight_nil] at hb2
              rw [← realHeight_eq_zero]
              omega
            subst hcl hcr
            have hins : deleteNode lt (PT.node k .nil (.node ck .nil .nil cp ch ci) p h i) key sz =
                (delFix (.node ck .nil .nil p
                  (1 + max (height (.nil : PT α)) (height (.nil : PT α))) i), sz - 1) := by
              rw [deleteNode.eq_def]
              simp [hkl, hlk]
            rw [hins]
            dsimp only
            rw [delFix_eq_self (by simp) (by simp)]
            refine ⟨⟨by simp, trivial, trivial⟩, ⟨by simp, by simp, trivial, trivial⟩, ?_, ?_⟩
            · simp
            · simp only [realHeight_node, realHeight_nil]
              omega
        | node lk2 ll2 lr2 lp2 lh2 li2 =>
          cases r with
          | nil =>
            have hll : ll2 = PT.nil := by
              simp only [realHeight_node, realHeight_nil] at hb1
              rw [← realHeight_eq_zero]
              omega
            have hlr : lr2 = PT.nil := by
              simp only [realHeight_node, realHeight_nil] at hb1
              rw [← realHeight_eq_zero]
              omega
            subst hll hlr
            have hins : deleteNode lt
                (PT.node k (.node lk2 .nil .nil lp2 lh2 li2) .nil p h i) key sz =
                (delFix (.node lk2 .nil .nil p
                  (1 + max (height (.nil : PT α)) (height (.nil : PT α))) i), sz - 1) := by
              rw [deleteNode.eq_def]
              simp [hkl, hlk]
            rw [hins]
            dsimp only
            rw [delFix_eq_self (by simp) (by simp)]
            refine ⟨⟨by simp, trivial, trivial⟩, ⟨by simp, by simp, trivial, trivial⟩, ?_, ?_⟩
            · simp
            · simp only [realHeight_node, realHeight_nil]
              omega
          | node rk2 rl2 rr2 rp2 rh2 ri2 =>
            -- two children: delete the in-order successor from the right subtree
            rcases e : deleteNode lt (.node rk2 rl2 rr2 rp2 rh2 ri2)
                (rootKeyOr rk2 (minValueNode (.node rk2 rl2 rr2 rp2 rh2 ri2))) sz with ⟨r', s'⟩
            have IH := ihr (rootKeyOr rk2 (minValueNode (.node rk2 rl2 rr2 rp2 rh2 ri2))) sz hhr hbr
            rw [e] at IH
            dsimp only at IH
            rcases IH with ⟨dH, dB, dhi, dlo⟩
            have hins : deleteNode lt
                (PT.node k (.node lk2 ll2 lr2 lp2 lh2 li2) (.node rk2 rl2 rr2 rp2 rh2 ri2) p h i) key sz =
                (delFix (.node (rootKeyOr rk2 (minValueNode (.node rk2 rl2 rr2 rp2 rh2 ri2)))
                  (.node lk2 ll2 lr2 lp2 lh2 li2) r' p
                  (1 + max (height (.node lk2 ll2 lr2 lp2 lh2 li2)) (height r')) i), s') := by
              rw [deleteNode.eq_def]
              simp [hkl, hlk, e]
            rw [hins]
            dsimp only
            have er' := dH.height_eq
            simp only [realHeight_node] at hb1 hb2 dhi dlo
            have hspec := delFix_spec
              (rootKeyOr rk2 (minValueNode (.node rk2 rl2 rr2 rp2 rh2 ri2)))
              (.node lk2 ll2 lr2 lp2 lh2 li2) r' p i hhl dH hbl dB
              (by simp only [realHeight_node]; omega) (by simp only [realHeight_node]; omega)
            rcases hspec with ⟨sH, sB, s3, s4, s5⟩
            simp only [realHeight_node] at s3 s4 s5
            refine ⟨sH, sB, ?_, ?_⟩
            · simp only [realHeight_node]
              omega
            · by_cases hd : 1 + max (realHeight ll2) (realHeight lr2) ≤ realHeight r' + 1 ∧
                  realHeight r' ≤ 1 + max (realHeight ll2) (realHeight lr2)
              · have := s5 (by omega) (by omega)
                simp only [realHeight_node]
                omega
              · simp only [realHeight_node]
                omega

end AVL

namespace AVL

variable {α : Type}

/-- Parent-pointer consistency is preserved by `deleteNode`.  (The invariants
are needed: they force the child in the one-child case to be a leaf, so the
`*node = *temp` member copy cannot leave dangling parent pointers.) -/
theorem delete_parent (lt : α → α → Bool) (t : PT α) :
    ∀ (key : α) (sz : Nat) (pp : Option Nat), HtOk t → BalancedR t → ParentOk pp t →
      ParentOk pp (deleteNode lt t key sz).1 := by
  induction t with
  | nil =>
    intro key sz pp _ _ _
    trivial
  | node k l r p h i ihl ihr =>
    intro key sz pp hht hbal hpar
    rcases hht with ⟨hh, hhl, hhr⟩
    rcases hbal with ⟨hb1, hb2, hbl, hbr⟩
    rcases hpar with ⟨hq, hpl, hpr⟩
    by_cases hkl : lt key k = true
    · rcases e : deleteNode lt l key sz with ⟨l', s'⟩
      have IH := ihl key sz (some i) hhl hbl hpl
      rw [e] at IH
      dsimp only at IH
      have hins : deleteNode lt (PT.node k l r p h i) key sz =
          (delFix (.node k l' r p (1 + max (height l') (height r)) i), s') := by
        rw [deleteNode.eq_def]
        simp [hkl, e]
      rw [hins]
      exact ParentOk_delFix (ParentOk_node.mpr ⟨hq, IH, hpr⟩)
    · by_cases hlk : lt k key = true
      · rcases e : deleteNode lt r key sz with ⟨r', s'⟩
        have IH := ihr key sz (some i) hhr hbr hpr
        rw [e] at IH
        dsimp only at IH
        have hins : deleteNode lt (PT.node k l r p h i) key sz =
            (delFix (.node k l r' p (1 + max (height l) (height r')) i), s') := by
          rw [deleteNode.eq_def]
          simp [hkl, hlk, e]
        rw [hins]
        exact ParentOk_delFix (ParentOk_node.mpr ⟨hq, hpl, IH⟩)
      · cases l with
        | nil =>
          cases r with
          | nil =>
            have hins : deleteNode lt (PT.node k .nil .nil p h i) key sz = (.nil, sz - 1) := by
              rw [deleteNode.eq_def]
              simp [hkl, hlk]
            rw [hins]
            trivial
          | node ck cl cr cp ch ci =>
            have hcl : cl = PT.nil := by
              simp only [realHeight_node, realHeight_nil] at hb2
              rw [← realHeight_eq_zero]
              omega
            have hcr : cr = PT.nil := by
              simp only [realHeight_node, realHeight_nil] at hb2
              rw [← realHeight_eq_zero]
              omega
            subst hcl hcr
            have hins : deleteNode lt (PT.node k .nil (.node ck .nil .nil cp ch ci) p h i) key sz =
                (delFix (.node ck .nil .nil p
                  (1 + max (height (.nil : PT α)) (height (.nil : PT α))) i), sz - 1) := by
              rw [deleteNode.eq_def]
              simp [hkl, hlk]
            rw [hins]
            exact ParentOk_delFix (ParentOk_node.mpr ⟨hq, ParentOk_nil, ParentOk_nil⟩)
        | node lk2 ll2 lr2 lp2 lh2 li2 =>
          cases r with
          | nil =>
            have hll : ll2 = PT.nil := by
              simp only [realHeight_node, realHeight_nil] at hb1
              rw [← realHeight_eq_zero]
              omega
            have hlr : lr2 = PT.nil := by
              simp only [realHeight_node, realHeight_nil] at hb1
              rw [← realHeight_eq_zero]
              omega
            subst hll hlr
            have hins : deleteNode lt
                (PT.node k (.node lk2 .nil .nil lp2 lh2 li2) .nil p h i) key sz =
                (delFix (.node lk2 .nil .nil p
                  (1 + max (height (.nil : PT α)) (height (.nil : PT α))) i), sz - 1) := by
              rw [deleteNode.eq_def]
              simp [hkl, hlk]
            rw [hins]
            exact ParentOk_delFix (ParentOk_node.mpr ⟨hq, ParentOk_nil, ParentOk_nil⟩)
          | node rk2 rl2 rr2 rp2 rh2 ri2 =>
            rcases e : deleteNode lt (.node rk2 rl2 rr2 rp2 rh2 ri2)
                (rootKeyOr rk2 (minValueNode (.node rk2 rl2 rr2 rp2 rh2 ri2))) sz with ⟨r', s'⟩
            have IH := ihr (rootKeyOr rk2 (minValueNode (.node rk2 rl2 rr2 rp2 rh2 ri2)))
              sz (some i) hhr hbr hpr
            rw [e] at IH
            dsimp only at IH
            have hins : deleteNode lt
                (PT.node k (.node lk2 ll2 lr2 lp2 lh2 li2) (.node rk2 rl2 rr2 rp2 rh2 ri2) p h i) key sz =
                (delFix (.node (rootKeyOr rk2 (minValueNode (.node rk2 rl2 rr2 rp2 rh2 ri2)))
                  (.node lk2 ll2 lr2 lp2 lh2 li2) r' p
                  (1 + max (height (.node lk2 ll2 lr2 lp2 lh2 li2)) (height r')) i), s') := by
              rw [deleteNode.eq_def]
              simp [hkl, hlk, e]
            rw [hins]
            exact ParentOk_delFix (ParentOk_node.mpr ⟨hq, hpl, IH⟩)

/-- Size bookkeeping of `deleteNode`: the difference between `tree_size` and
the node count is maintained (given that the counter is an upper bound of the
node count, as size consistency guarantees). -/
theorem delete_count (lt : α → α → Bool) (t : PT α) :
    ∀ (key : α) (sz : Nat), countNodes t ≤ sz →
      (deleteNode lt t key sz).2 + countNodes t = sz + countNodes (deleteNode lt t key sz).1 ∧
      (deleteNode lt t key sz).2 ≤ sz := by
  induction t with
  | nil =>
    intro key sz _
    exact ⟨rfl, le_refl _⟩
  | node k l r p h i ihl ihr =>
    intro key sz hsz
    simp only [countNodes_node] at hsz
    by_cases hkl : lt key k = true
    · rcases e : deleteNode lt l key sz with ⟨l', s'⟩
      have IH := ihl key sz (by omega)
      rw [e] at IH
      dsimp only at IH
      have hins : deleteNode lt (PT.node k l r p h i) key sz =
          (delFix (.node k l' r p (1 + max (height l') (height r)) i), s') := by
        rw [deleteNode.eq_def]
        simp [hkl, e]
      rw [hins]
      dsimp only
      rw [countNodes_delFix]
      simp only [countNodes_node]
      omega
    · by_cases hlk : lt k key = true
      · rcases e : deleteNode lt r key sz with ⟨r', s'⟩
        have IH := ihr key sz (by omega)
        rw [e] at IH
        dsimp only at IH
        have hins : deleteNode lt (PT.node k l r p h i) key sz =
            (delFix (.node k l r' p (1 + max (height l) (height r')) i), s') := by
          rw [deleteNode.eq_def]
          simp [hkl, hlk, e]
        rw [hins]
        dsimp only
        rw [countNodes_delFix]
        simp only [countNodes_node]
        omega
      · cases l with
        | nil =>
          cases r with
          | nil =>
            have hins : deleteNode lt (PT.node k .nil .nil p h i) key sz = (.nil, sz - 1) := by
              rw [deleteNode.eq_def]
              simp [hkl, hlk]
            rw [hins]
            dsimp only
            simp only [countNodes_node, countNodes_nil] at hsz ⊢
            omega
          | node ck cl cr cp ch ci =>
            have hins : deleteNode lt (PT.node k .nil (.node ck cl cr cp ch ci) p h i) key sz =
                (delFix (.node ck cl cr p (1 + max (height cl) (height cr)) i), sz - 1) := by
              rw [deleteNode.eq_def]
              simp [hkl, hlk]
            rw [hins]
            dsimp only
            rw [countNodes_delFix]
            simp only [countNodes_node, countNodes_nil] at hsz ⊢
            omega
        | node lk2 ll2 lr2 lp2 lh2 li2 =>
          cases r with
          | nil =>
            have hins : deleteNode lt
                (PT.node k (.node lk2 ll2 lr2 lp2 lh2 li2) .nil p h i) key sz =
                (delFix (.node lk2 ll2 lr2 p (1 + max (height ll2) (height lr2)) i), sz - 1) := by
              rw [deleteNode.eq_def]
              simp [hkl, hlk]
            rw [hins]
            dsimp only
            rw [countNodes_delFix]
            simp only [countNodes_node, countNodes_nil] at hsz ⊢
            omega
          | node rk2 rl2 rr2 rp2 rh2 ri2 =>
            rcases e : deleteNode lt (.node rk2 rl2 rr2 rp2 rh2 ri2)
                (rootKeyOr rk2 (minValueNode (.node rk2 rl2 rr2 rp2 rh2 ri2))) sz with ⟨r', s'⟩
            have IH := ihr (rootKeyOr rk2 (minValueNode (.node rk2 rl2 rr2 rp2 rh2 ri2)))
              sz (by simp only [countNodes_node] at hsz ⊢; omega)
            rw [e] at IH
            dsimp only at IH
            have hins : deleteNode lt
                (PT.node k (.node lk2 ll2 lr2 lp2 lh2 li2) (.node rk2 rl2 rr2 rp2 rh2 ri2) p h i) key sz =
                (delFix (.node (rootKeyOr rk2 (minValueNode (.node rk2 rl2 rr2 rp2 rh2 ri2)))
                  (.node lk2 ll2 lr2 lp2 lh2 li2) r' p
                  (1 + max (height (.node lk2 ll2 lr2 lp2 lh2 li2)) (height r')) i), s') := by
              rw [deleteNode.eq_def]
              simp [hkl, hlk, e]
            rw [hins]
            dsimp only
            rw [countNodes_delFix]
            simp only [countNodes_node] at IH hsz ⊢
            omega

end AVL

namespace AVL

variable {α : Type}

theorem rootKeyOr_minValueNode_mem (d : α) (t : PT α) :
    t ≠ .nil → rootKeyOr d (minValueNode t) ∈ inorder t := by
  induction t with
  | nil => intro hne; exact absurd rfl hne
  | node k l r p h i ihl ihr =>
    intro _
    cases l with
    | nil => simp [minValueNode, rootKeyOr]
    | node lk ll lr lp lh li =>
      have : minValueNode (PT.node k (.node lk ll lr lp lh li) r p h i) =
          minValueNode (.node lk ll lr lp lh li) := by
        simp [minValueNode]
      rw [this, inorder_node]
      exact List.mem_append_left _ (ihl (by simp))

/-- Deletion never adds a key: every key of the result was already stored. -/
theorem delete_mem (lt : α → α → Bool) (t : PT α) :
    ∀ (key : α) (sz : Nat) (x : α),
      x ∈ inorder (deleteNode lt t key sz).1 → x ∈ inorder t := by
  induction t with
  | nil =>
    intro key sz x hx
    exact hx
  | node k l r p h i ihl ihr =>
    intro key sz x
    by_cases hkl : lt key k = true
    · rcases e : deleteNode lt l key sz with ⟨l', s'⟩
      have hins : deleteNode lt (PT.node k l r p h i) key sz =
          (delFix (.node k l' r p (1 + max (height l') (height r)) i), s') := by
        rw [deleteNode.eq_def]
        simp [hkl, e]
      rw [hins]
      dsimp only
      rw [inorder_delFix]
      simp only [inorder_node, List.mem_append, List.mem_cons]
      rintro (hx | hx)
      · have := ihl key sz x (by rw [e]; exact hx)
        exact Or.inl this
      · exact Or.inr hx
    · by_cases hlk : lt k key = true
      · rcases e : deleteNode lt r key sz with ⟨r', s'⟩
        have hins : deleteNode lt (PT.node k l r p h i) key sz =
            (delFix (.node k l r' p (1 + max (height l) (height r')) i), s') := by
          rw [deleteNode.eq_def]
          simp [hkl, hlk, e]
        rw [hins]
        dsimp only
        rw [inorder_delFix]
        simp only [inorder_node, List.mem_append, List.mem_cons]
        rintro (hx | rfl | hx)
        · exact Or.inl hx
        · exact Or.inr (Or.inl rfl)
        · have := ihr key sz x (by rw [e]; exact hx)
          exact Or.inr (Or.inr this)
      · cases l with
        | nil =>
          cases r with
          | nil =>
            have hins : deleteNode lt (PT.node k .nil .nil p h i) key sz = (.nil, sz - 1) := by
              rw [deleteNode.eq_def]
              simp [hkl, hlk]
            rw [hins]
            intro hx
            exact absurd hx (by simp)
          | node ck cl cr cp ch ci =>
            have hins : deleteNode lt (PT.node k .nil (.node ck cl cr cp ch ci) p h i) key sz =
                (delFix (.node ck cl cr p (1 + max (height cl) (height cr)) i), sz - 1) := by
              rw [deleteNode.eq_def]
              simp [hkl, hlk]
            rw [hins]
            dsimp only
            rw [inorder_delFix]
            simp only [inorder_node, List.mem_append, List.mem_cons, inorder_nil,
              List.not_mem_nil, false_or]
            tauto
        | node lk2 ll2 lr2 lp2 lh2 li2 =>
          cases r with
          | nil =>
            have hins : deleteNode lt
                (PT.node k (.node lk2 ll2 lr2 lp2 lh2 li2) .nil p h i) key sz =
                (delFix (.node lk2 ll2 lr2 p (1 + max (height ll2) (height lr2)) i), sz - 1) := by
              rw [deleteNode.eq_def]
              simp [hkl, hlk]
            rw [hins]
            dsimp only
            rw [inorder_delFix]
            simp only [inorder_node, List.mem_append, List.mem_cons]
            tauto
          | node rk2 rl2 rr2 rp2 rh2 ri2 =>
            rcases e : deleteNode lt (.node rk2 rl2 rr2 rp2 rh2 ri2)
                (rootKeyOr rk2 (minValueNode (.node rk2 rl2 rr2 rp2 rh2 ri2))) sz with ⟨r', s'⟩
            have hins : deleteNode lt
                (PT.node k (.node lk2 ll2 lr2 lp2 lh2 li2) (.node rk2 rl2 rr2 rp2 rh2 ri2) p h i) key sz =
                (delFix (.node (rootKeyOr rk2 (minValueNode (.node rk2 rl2 rr2 rp2 rh2 ri2)))
                  (.node lk2 ll2 lr2 lp2 lh2 li2) r' p
                  (1 + max (height (.node lk2 ll2 lr2 lp2 lh2 li2)) (height r')) i), s') := by
              rw [deleteNode.eq_def]
              simp [hkl, hlk, e]
            rw [hins]
            dsimp only
            rw [inorder_delFix]
            simp only [inorder_node, List.mem_append, List.mem_cons]
            rintro (hx | rfl | hx)
            · exact Or.inl hx
            · have := rootKeyOr_minValueNode_mem rk2 (.node rk2 rl2 rr2 rp2 rh2 ri2) (by simp)
              simp only [inorder_node, List.mem_append, List.mem_cons] at this
              tauto
            · have := ihr (rootKeyOr rk2 (minValueNode (.node rk2 rl2 rr2 rp2 rh2 ri2)))
                sz x (by rw [e]; exact hx)
              simp only [inorder_node, List.mem_append, List.mem_cons] at this
              tauto

end AVL

namespace AVL

/-- The leftmost key of a BST is a lower bound of all stored keys. -/
theorem minValueNode_min (d : Int) (t : PT Int) :
    BST t → ∀ x ∈ inorder t, rootKeyOr d (minValueNode t) ≤ x := by
  induction t with
  | nil => intro _ x hx; exact absurd hx (by simp)
  | node k l r p h i ihl ihr =>
    rintro ⟨hl, hr, bl, br⟩ x hx
    cases l with
    | nil =>
      have hm : rootKeyOr d (minValueNode (PT.node k .nil r p h i)) = k := by
        simp [minValueNode, rootKeyOr]
      rw [hm]
      simp only [inorder_node, inorder_nil, List.nil_append, List.mem_cons] at hx
      rcases hx with rfl | hx
      · exact le_refl _
      · exact le_of_lt (hr x hx)
    | node lk ll lr2 lp lh li =>
      have hm : minValueNode (PT.node k (.node lk ll lr2 lp lh li) r p h i) =
          minValueNode (.node lk ll lr2 lp lh li) := by
        simp [minValueNode]
      rw [hm]
      have hmem := rootKeyOr_minValueNode_mem d (.node lk ll lr2 lp lh li) (by simp)
      have hx2 : x ∈ inorder (PT.node lk ll lr2 lp lh li) ++ k :: inorder r := hx
      rcases List.mem_append.mp hx2 with hx3 | hx3
      · exact ihl bl x hx3
      · rcases List.mem_cons.mp hx3 with rfl | hx4
        · exact le_of_lt (hl _ hmem)
        · exact le_of_lt (lt_trans (hl _ hmem) (hr x hx4))

/-- After deleting the minimum key from a BST, every remaining key is
strictly greater than it. -/
theorem delete_min_gt (d : Int) (t : PT Int) :
    ∀ (sz : Nat), BST t →
      ∀ x ∈ inorder (deleteNode ltInt t (rootKeyOr d (minValueNode t)) sz).1,
        rootKeyOr d (minValueNode t) < x := by
  induction t with
  | nil =>
    intro sz _ x hx
    exact absurd (hx : x ∈ ([] : List Int)) (List.not_mem_nil x)
  | node k l r p h i ihl ihr =>
    rintro sz ⟨hl, hr, bl, br⟩ x
    cases l with
    | nil =>
      have hm : rootKeyOr d (minValueNode (PT.node k .nil r p h i)) = k := by
        simp [minValueNode, rootKeyOr]
      rw [hm]
      have hkl : ltInt k k = false := by simp [ltInt]
      cases r with
      | nil =>
        have hins : deleteNode ltInt (PT.node k .nil .nil p h i) k sz = (.nil, sz - 1) := by
          rw [deleteNode.eq_def]
          simp [hkl]
        rw [hins]
        intro hx
        exact absurd hx (by simp)
      | node ck cl cr cp ch ci =>
        have hins : deleteNode ltInt (PT.node k .nil (.node ck cl cr cp ch ci) p h i) k sz =
            (delFix (.node ck cl cr p (1 + max (height cl) (height cr)) i), sz - 1) := by
          rw [deleteNode.eq_def]
          simp [hkl]
        rw [hins]
        dsimp only
        rw [inorder_delFix]
        intro hx
        apply hr
        simpa using hx
    | node lk ll lr2 lp lh li =>
      have hm : minValueNode (PT.node k (.node lk ll lr2 lp lh li) r p h i) =
          minValueNode (.node lk ll lr2 lp lh li) := by
        simp [minValueNode]
      rw [hm]
      have hmem := rootKeyOr_minValueNode_mem d (.node lk ll lr2 lp lh li) (by simp)
      have hmk : rootKeyOr d (minValueNode (.node lk ll lr2 lp lh li)) < k := hl _ hmem
      have hkl : ltInt (rootKeyOr d (minValueNode (.node lk ll lr2 lp lh li))) k = true := by
        simp [ltInt, hmk]
      rcases e : deleteNode ltInt (.node lk ll lr2 lp lh li)
          (rootKeyOr d (minValueNode (.node lk ll lr2 lp lh li))) sz with ⟨l', s'⟩
      have hins : deleteNode ltInt (PT.node k (.node lk ll lr2 lp lh li) r p h i)
          (rootKeyOr d (minValueNode (.node lk ll lr2 lp lh li))) sz =
          (delFix (.node k l' r p (1 + max (height l') (height r)) i), s') := by
        rw [deleteNode.eq_def]
        simp [hkl, e]
      rw [hins]
      dsimp only
      rw [inorder_delFix]
      simp only [inorder_node, List.mem_append, List.mem_cons]
      rintro (hx | rfl | hx)
      · have := ihl sz bl x (by rw [e]; exact hx)
        exact this
      · exact hmk
      · exact lt_trans hmk (hr x hx)

/-- BST-order preservation for `deleteNode` at the `Int` instantiation. -/
theorem delete_BST (t : PT Int) :
    ∀ (key : Int) (sz : Nat), BST t → BST (deleteNode ltInt t key sz).1 := by
  induction t with
  | nil => intro key sz _; trivial
  | node k l r p h i ihl ihr =>
    rintro key sz ⟨hl, hr, bl, br⟩
    by_cases hkl : ltInt key k = true
    · rcases e : deleteNode ltInt l key sz with ⟨l', s'⟩
      have hins : deleteNode ltInt (PT.node k l r p h i) key sz =
          (delFix (.node k l' r p (1 + max (height l') (height r)) i), s') := by
        rw [deleteNode.eq_def]
        simp [hkl, e]
      rw [hins]
      dsimp only
      rw [BST_iff_pairwise, inorder_delFix, inorder_node, List.pairwise_append,
        List.pairwise_cons]
      have hbst' : BST l' := by
        have := ihl key sz bl
        rw [e] at this
        exact this
      refine ⟨(BST_iff_pairwise _).mp hbst', ⟨hr, (BST_iff_pairwise _).mp br⟩, ?_⟩
      intro x hx y hy
      have hxl : x ∈ inorder l := delete_mem ltInt l key sz x (by rw [e]; exact hx)
      rcases List.mem_cons.mp hy with rfl | hy
      · exact hl x hxl
      · exact lt_trans (hl x hxl) (hr y hy)
    · by_cases hlk : ltInt k key = true
      · rcases e : deleteNode ltInt r key sz with ⟨r', s'⟩
        have hins : deleteNode ltInt (PT.node k l r p h i) key sz =
            (delFix (.node k l r' p (1 + max (height l) (height r')) i), s') := by
          rw [deleteNode.eq_def]
          simp [hkl, hlk, e]
        rw [hins]
        dsimp only
        rw [BST_iff_pairwise, inorder_delFix, inorder_node, List.pairwise_append,
          List.pairwise_cons]
        have hbst' : BST r' := by
          have := ihr key sz br
          rw [e] at this
          exact this
        refine ⟨(BST_iff_pairwise _).mp bl, ⟨?_, (BST_iff_pairwise _).mp hbst'⟩, ?_⟩
        · intro y hy
          exact hr y (delete_mem ltInt r key sz y (by rw [e]; exact hy))
        · intro x hx y hy
          rcases List.mem_cons.mp hy with rfl | hy
          · exact hl x hx
          · exact lt_trans (hl x hx) (hr y (delete_mem ltInt r key sz y (by rw [e]; exact hy)))
      · cases l with
        | nil =>
          cases r with
          | nil =>
            have hins : deleteNode ltInt (PT.node k .nil .nil p h i) key sz = (.nil, sz - 1) := by
              rw [deleteNode.eq_def]
              simp [hkl, hlk]
            rw [hins]
            trivial
          | node ck cl cr cp ch ci =>
            have hins : deleteNode ltInt (PT.node k .nil (.node ck cl cr cp ch ci) p h i) key sz =
                (delFix (.node ck cl cr p (1 + max (height cl) (height cr)) i), sz - 1) := by
              rw [deleteNode.eq_def]
              simp [hkl, hlk]
            rw [hins]
            dsimp only
            rw [BST_iff_pairwise, inorder_delFix]
            have := (BST_iff_pairwise _).mp br
            simpa using this
        | node lk2 ll2 lr2 lp2 lh2 li2 =>
          cases r with
          | nil =>
            have hins : deleteNode ltInt
                (PT.node k (.node lk2 ll2 lr2 lp2 lh2 li2) .nil p h i) key sz =
                (delFix (.node lk2 ll2 lr2 p (1 + max (height ll2) (height lr2)) i), sz - 1) := by
              rw [deleteNode.eq_def]
              simp [hkl, hlk]
            rw [hins]
            dsimp only
            rw [BST_iff_pairwise, inorder_delFix]
            have := (BST_iff_pairwise _).mp bl
            simpa using this
          | node rk2 rl2 rr2 rp2 rh2 ri2 =>
            rcases e : deleteNode ltInt (.node rk2 rl2 rr2 rp2 rh2 ri2)
                (rootKeyOr rk2 (minValueNode (.node rk2 rl2 rr2 rp2 rh2 ri2))) sz with ⟨r', s'⟩
            have hins : deleteNode ltInt
                (PT.node k (.node lk2 ll2 lr2 lp2 lh2 li2) (.node rk2 rl2 rr2 rp2 rh2 ri2) p h i) key sz =
                (delFix (.node (rootKeyOr rk2 (minValueNode (.node rk2 rl2 rr2 rp2 rh2 ri2)))
                  (.node lk2 ll2 lr2 lp2 lh2 li2) r' p
                  (1 + max (height (.node lk2 ll2 lr2 lp2 lh2 li2)) (height r')) i), s') := by
              rw [deleteNode.eq_def]
              simp [hkl, hlk, e]
            rw [hins]
            dsimp only
            have hmem := rootKeyOr_minValueNode_mem rk2 (.node rk2 rl2 rr2 rp2 rh2 ri2) (by simp)
            have hkm : k < rootKeyOr rk2 (minValueNode (.node rk2 rl2 rr2 rp2 rh2 ri2)) :=
              hr _ hmem
            have hgt := delete_min_gt rk2 (.node rk2 rl2 rr2 rp2 rh2 ri2) sz br
            have hbst' : BST r' := by
              have := ihr (rootKeyOr rk2 (minValueNode (.node rk2 rl2 rr2 rp2 rh2 ri2))) sz br
              rw [e] at this
              exact this
            rw [BST_iff_pairwise, inorder_delFix, inorder_node, List.pairwise_append,
              List.pairwise_cons]
            refine ⟨(BST_iff_pairwise _).mp bl, ⟨?_, (BST_iff_pairwise _).mp hbst'⟩, ?_⟩
            · intro y hy
              exact hgt y (by rw [e]; exact hy)
            · intro x hx y hy
              have hxk : x < k := hl x hx
              rcases List.mem_cons.mp hy with rfl | hy
              · exact lt_trans hxk hkm
              · exact lt_trans (lt_trans hxk hkm) (hgt y (by rw [e]; exact hy))

end AVL

namespace AVL

variable {α : Type}

/-- Deletion only ever removes node objects: the resulting id multiset is
contained in the original one. -/
theorem delete_ids_le (lt : α → α → Bool) (t : PT α) :
    ∀ (key : α) (sz : Nat), idsMS (deleteNode lt t key sz).1 ≤ idsMS t := by
  induction t with
  | nil =>
    intro key sz
    exact le_refl _
  | node k l r p h i ihl ihr =>
    intro key sz
    by_cases hkl : lt key k = true
    · rcases e : deleteNode lt l key sz with ⟨l', s'⟩
      have IH := ihl key sz
      rw [e] at IH
      dsimp only at IH
      have hins : deleteNode lt (PT.node k l r p h i) key sz =
          (delFix (.node k l' r p (1 + max (height l') (height r)) i), s') := by
        rw [deleteNode.eq_def]
        simp [hkl, e]
      rw [hins]
      dsimp only
      rw [idsMS_delFix, idsMS_node, idsMS_node]
      exact Multiset.cons_le_cons _ (add_le_add_right IH _)
    · by_cases hlk : lt k key = true
      · rcases e : deleteNode lt r key sz with ⟨r', s'⟩
        have IH := ihr key sz
        rw [e] at IH
        dsimp only at IH
        have hins : deleteNode lt (PT.node k l r p h i) key sz =
            (delFix (.node k l r' p (1 + max (height l) (height r')) i), s') := by
          rw [deleteNode.eq_def]
          simp [hkl, hlk, e]
        rw [hins]
        dsimp only
        rw [idsMS_delFix, idsMS_node, idsMS_node]
        exact Multiset.cons_le_cons _ (add_le_add_left IH _)
      · cases l with
        | nil =>
          cases r with
          | nil =>
            have hins : deleteNode lt (PT.node k .nil .nil p h i) key sz = (.nil, sz - 1) := by
              rw [deleteNode.eq_def]
              simp [hkl, hlk]
            rw [hins]
            dsimp only
            simp
          | node ck cl cr cp ch ci =>
            have hins : deleteNode lt (PT.node k .nil (.node ck cl cr cp ch ci) p h i) key sz =
                (delFix (.node ck cl cr p (1 + max (height cl) (height cr)) i), sz - 1) := by
              rw [deleteNode.eq_def]
              simp [hkl, hlk]
            rw [hins]
            dsimp only
            rw [idsMS_delFix, idsMS_node, idsMS_node, idsMS_node, idsMS_nil]
            rw [zero_add]
            exact Multiset.cons_le_cons _ (Multiset.le_cons_self _ _)
        | node lk2 ll2 lr2 lp2 lh2 li2 =>
          cases r with
          | nil =>
            have hins : deleteNode lt
                (PT.node k (.node lk2 ll2 lr2 lp2 lh2 li2) .nil p h i) key sz =
                (delFix (.node lk2 ll2 lr2 p (1 + max (height ll2) (height lr2)) i), sz - 1) := by
              rw [deleteNode.eq_def]
              simp [hkl, hlk]
            rw [hins]
            dsimp only
            rw [idsMS_delFix, idsMS_node, idsMS_node, idsMS_node, idsMS_nil]
            rw [add_zero]
            exact Multiset.cons_le_cons _ (Multiset.le_cons_self _ _)
          | node rk2 rl2 rr2 rp2 rh2 ri2 =>
            rcases e : deleteNode lt (.node rk2 rl2 rr2 rp2 rh2 ri2)
                (rootKeyOr rk2 (minValueNode (.node rk2 rl2 rr2 rp2 rh2 ri2))) sz with ⟨r', s'⟩
            have IH := ihr (rootKeyOr rk2 (minValueNode (.node rk2 rl2 rr2 rp2 rh2 ri2))) sz
            rw [e] at IH
            dsimp only at IH
            have hins : deleteNode lt
                (PT.node k (.node lk2 ll2 lr2 lp2 lh2 li2) (.node rk2 rl2 rr2 rp2 rh2 ri2) p h i) key sz =
                (delFix (.node (rootKeyOr rk2 (minValueNode (.node rk2 rl2 rr2 rp2 rh2 ri2)))
                  (.node lk2 ll2 lr2 lp2 lh2 li2) r' p
                  (1 + max (height (.node lk2 ll2 lr2 lp2 lh2 li2)) (height r')) i), s') := by
              rw [deleteNode.eq_def]
              simp [hkl, hlk, e]
            rw [hins]
            dsimp only
            rw [idsMS_delFix, idsMS_node, idsMS_node]
            exact Multiset.cons_le_cons _ (add_le_add_left IH _)

theorem asymm_ltInt : Asymm ltInt := by
  intro a b hab
  simp only [ltInt, decide_eq_true_eq] at hab
  simp only [ltInt, decide_eq_false_iff_not]
  omega

theorem asymm_ltFst : Asymm ltFst := by
  intro a b hab
  simp only [ltFst, decide_eq_true_eq] at hab
  simp only [ltFst, decide_eq_false_iff_not]
  omega

/-- The structural part of the invariants of a tree object (comparator
independent): cached heights, AVL balance, parent consistency, size
consistency, distinct node addresses bounded by the allocator state. -/
def Inv (s : AVLTreeSt α) : Prop :=
  HtOk s.root ∧ BalancedR s.root ∧ ParentOk none s.root ∧
  s.tree_size = countNodes s.root ∧ NodupIds s.root ∧
  ∀ j ∈ idsMS s.root, j < s.fresh

/-- Every reachable tree object satisfies the structural invariants, for any
asymmetric comparator. -/
theorem reachable_inv {lt : α → α → Bool} (hA : Asymm lt) {s : AVLTreeSt α}
    (hr : Reachable lt s) : Inv s := by
  induction hr with
  | empty =>
    exact ⟨trivial, trivial, trivial, rfl, Multiset.nodup_zero,
      by intro j hj; exact absurd (hj : j ∈ (0 : Multiset Nat)) (Multiset.not_mem_zero j)⟩
  | ins k hs ih =>
    rename_i s'
    rcases ih with ⟨ihH, ihB, ihP, ihS, ihN, ihL⟩
    rcases e : insert lt s'.root k none s'.fresh s'.tree_size with ⟨t2, f2, s2⟩
    have hHB := insert_HB hA k s'.root none s'.fresh s'.tree_size ihH ihB
    have hP := insert_parent lt k s'.root none s'.fresh s'.tree_size ihP
    have hAl := insert_alloc lt k s'.root none s'.fresh s'.tree_size
    rw [e] at hHB hP hAl
    dsimp only at hHB hP hAl
    have hstate : insertTree lt s' k = ⟨t2, s2, f2⟩ := by
      simp [insertTree, e]
    rw [hstate]
    simp only [Inv]
    refine ⟨hHB.1, hHB.2.1, hP, ?_, ?_, ?_⟩
    · rcases hAl with ⟨hi, hf, hsz⟩ | ⟨hi, hf, hsz⟩
      · rw [hsz, ihS, ← card_idsMS, ← card_idsMS, hi]
      · rw [hsz, ihS, ← card_idsMS, ← card_idsMS, hi]
        simp
    · rcases hAl with ⟨hi, hf, hsz⟩ | ⟨hi, hf, hsz⟩
      · rw [NodupIds, hi]
        exact ihN
      · rw [NodupIds, hi]
        refine Multiset.nodup_cons.mpr ⟨?_, ihN⟩
        intro hmem
        exact absurd (ihL _ hmem) (by omega)
    · rcases hAl with ⟨hi, hf, hsz⟩ | ⟨hi, hf, hsz⟩
      · rw [hi, hf]
        exact ihL
      · rw [hi, hf]
        intro j hj
        rcases Multiset.mem_cons.mp hj with rfl | hj
        · omega
        · exact lt_trans (ihL _ hj) (by omega)
  | del k hs ih =>
    rename_i s'
    rcases ih with ⟨ihH, ihB, ihP, ihS, ihN, ihL⟩
    rcases e : deleteNode lt s'.root k s'.tree_size with ⟨t2, s2⟩
    have hHB := delete_HB lt s'.root k s'.tree_size ihH ihB
    have hP := delete_parent lt s'.root k s'.tree_size none ihH ihB ihP
    have hCnt := delete_count lt s'.root k s'.tree_size (by omega)
    have hIds := delete_ids_le lt s'.root k s'.tree_size
    rw [e] at hHB hP hCnt hIds
    dsimp only at hHB hP hCnt hIds
    have hstate : eraseTree lt s' k = ⟨t2, s2, s'.fresh⟩ := by
      simp [eraseTree, e]
    rw [hstate]
    simp only [Inv]
    refine ⟨hHB.1, hHB.2.1, hP, by omega, ?_, ?_⟩
    · exact Multiset.nodup_of_le hIds ihN
    · intro j hj
      exact ihL _ (Multiset.mem_of_le hIds hj)

/-- Every reachable tree object over `Int` keys is a binary search tree. -/
theorem reachable_BST {s : AVLTreeSt Int} (hr : Reachable ltInt s) : BST s.root := by
  induction hr with
  | empty => trivial
  | ins k hs ih =>
    rename_i s'
    rcases e : insert ltInt s'.root k none s'.fresh s'.tree_size with ⟨t2, f2, s2⟩
    have hB := (insert_BST k s'.root none s'.fresh s'.tree_size ih).1
    rw [e] at hB
    have hstate : insertTree ltInt s' k = ⟨t2, s2, f2⟩ := by
      simp [insertTree, e]
    rw [hstate]
    exact hB
  | del k hs ih =>
    rename_i s'
    rcases e : deleteNode ltInt s'.root k s'.tree_size with ⟨t2, s2⟩
    have hB := delete_BST s'.root k s'.tree_size ih
    rw [e] at hB
    have hstate : eraseTree ltInt s' k = ⟨t2, s2, s'.fresh⟩ := by
      simp [eraseTree, e]
    rw [hstate]
    exact hB

end AVL

namespace AVL

variable {α : Type}

/-- In a BST, membership in the stored keys coincides with the comparison
descent performed by `insert`, `erase` and `find`. -/
theorem mem_iff_ceq (t : PT Int) :
    ∀ (k : Int), BST t → (k ∈ inorder t ↔ ceq ltInt t k = true) := by
  induction t with
  | nil =>
    intro k _
    simp [ceq]
  | node k0 l r p h i ihl ihr =>
    rintro k ⟨hl, hr, bl, br⟩
    simp only [inorder_node, List.mem_append, List.mem_cons]
    by_cases hkl : k < k0
    · have hc : ceq ltInt (PT.node k0 l r p h i) k = ceq ltInt l k := by
        simp [ceq, ltInt, hkl]
      rw [hc, ← ihl k bl]
      constructor
      · rintro (hx | rfl | hx)
        · exact hx
        · omega
        · exact absurd (hr k hx) (by omega)
      · exact fun hx => Or.inl hx
    · by_cases hlk : k0 < k
      · have hc : ceq ltInt (PT.node k0 l r p h i) k = ceq ltInt r k := by
          simp [ceq, ltInt, hkl, hlk]
        rw [hc, ← ihr k br]
        constructor
        · rintro (hx | rfl | hx)
          · exact absurd (hl k hx) (by omega)
          · omega
          · exact hx
        · exact fun hx => Or.inr (Or.inr hx)
      · have hkk : k = k0 := by omega
        have hc : ceq ltInt (PT.node k0 l r p h i) k = true := by
          simp [ceq, ltInt, hkl, hlk]
        rw [hc]
        simp [hkk]

/-- The `find` descent reaches a node exactly when the comparison descent
succeeds. -/
theorem findSub_eq_nil_iff (lt : α → α → Bool) (t : PT α) :
    ∀ (key : α), findSub lt t key = .nil ↔ ceq lt t key = false := by
  induction t with
  | nil =>
    intro key
    simp [findSub, ceq]
  | node k l r p h i ihl ihr =>
    intro key
    by_cases hkl : lt key k = true
    · simp [findSub, ceq, hkl, ihl]
    · by_cases hlk : lt k key = true
      · simp [findSub, ceq, hkl, hlk, ihr]
      · simp [findSub, ceq, hkl, hlk]

/-- When `find` succeeds at the `Int` instantiation, the node it returns
holds exactly the searched key. -/
theorem findSub_key (t : PT Int) :
    ∀ (k : Int), findSub ltInt t k ≠ .nil → rootKey? (findSub ltInt t k) = some k := by
  induction t with
  | nil =>
    intro k hne
    exact absurd rfl hne
  | node k0 l r p h i ihl ihr =>
    intro k hne
    by_cases hkl : ltInt k k0 = true
    · rw [show findSub ltInt (PT.node k0 l r p h i) k = findSub ltInt l k by
        simp [findSub, hkl]] at hne ⊢
      exact ihl k hne
    · by_cases hlk : ltInt k0 k = true
      · rw [show findSub ltInt (PT.node k0 l r p h i) k = findSub ltInt r k by
          simp [findSub, hkl, hlk]] at hne ⊢
        exact ihr k hne
      · rw [show findSub ltInt (PT.node k0 l r p h i) k = PT.node k0 l r p h i by
          simp [findSub, hkl, hlk]]
        have : k0 = k := by
          simp only [ltInt, decide_eq_true_eq] at hkl hlk
          omega
        rw [rootKey?, this]

end AVL

namespace AVL

/-- C1: after every sequence of `insert`/`erase` operations starting from the
empty tree, the tree satisfies all six structural invariants: BST ordering
under the comparator, AVL balance, cached-height correctness, parent
consistency, size consistency, and absence of two comparator-equal keys. -/
theorem c1_invariants (s : AVLTreeSt Int) (hr : Reachable ltInt s) :
    BST s.root ∧ BalancedR s.root ∧ HtOk s.root ∧ ParentOk none s.root ∧
    s.tree_size = countNodes s.root ∧
    (inorder s.root).Pairwise (fun a b => a ≠ b) := by
  have hInv := reachable_inv asymm_ltInt hr
  have hB := reachable_BST hr
  rcases hInv with ⟨hH, hBal, hP, hS, _, _⟩
  refine ⟨hB, hBal, hH, hP, hS, ?_⟩
  exact ((BST_iff_pairwise _).mp hB).imp (fun hx => ne_of_lt hx)

theorem c1_invariants_witness :
    BST (eraseTree ltInt (insertTree ltInt (insertTree ltInt emptyTree 2) 5) 2).root ∧
    BalancedR (eraseTree ltInt (insertTree ltInt (insertTree ltInt emptyTree 2) 5) 2).root ∧
    HtOk (eraseTree ltInt (insertTree ltInt (insertTree ltInt emptyTree 2) 5) 2).root ∧
    ParentOk none (eraseTree ltInt (insertTree ltInt (insertTree ltInt emptyTree 2) 5) 2).root ∧
    (eraseTree ltInt (insertTree ltInt (insertTree ltInt emptyTree 2) 5) 2).tree_size =
      countNodes (eraseTree ltInt (insertTree ltInt (insertTree ltInt emptyTree 2) 5) 2).root ∧
    (inorder (eraseTree ltInt (insertTree ltInt (insertTree ltInt emptyTree 2) 5) 2).root).Pairwise
      (fun a b => a ≠ b) :=
  c1_invariants _ (Reachable.del 2 (Reachable.ins 5 (Reachable.ins 2 Reachable.empty)))

/-- C3: `find(k)` returns the end cursor (a null current node) exactly when
no key equal to `k` under the ordering is stored, and otherwise returns a
cursor whose dereference yields the stored key equal to `k`.  `findSub` is a
pure function of the tree — the embedding returns only the cursor and leaves
the tree value untouched, which is the read-only behaviour of the source. -/
theorem c3_find (s : AVLTreeSt Int) (hr : Reachable ltInt s) (k : Int) :
    (findSub ltInt s.root k = PT.nil ↔ k ∉ inorder s.root) ∧
    (k ∈ inorder s.root → rootKey? (findSub ltInt s.root k) = some k) := by
  have hB := reachable_BST hr
  constructor
  · rw [findSub_eq_nil_iff, mem_iff_ceq _ k hB]
    constructor
    · intro hc hmem
      rw [hmem] at hc
      exact Bool.noConfusion hc
    · intro hmem
      cases hc : ceq ltInt s.root k
      · rfl
      · exact absurd hc hmem
  · intro hmem
    apply findSub_key
    rw [Ne, findSub_eq_nil_iff]
    intro hc
    rw [(mem_iff_ceq _ k hB).mp hmem] at hc
    exact Bool.noConfusion hc

theorem c3_find_witness :
    ((findSub ltInt (insertTree ltInt emptyTree 7).root 7 = PT.nil ↔
        (7 : Int) ∉ inorder (insertTree ltInt emptyTree 7).root) ∧
      ((7 : Int) ∈ inorder (insertTree ltInt emptyTree 7).root →
        rootKey? (findSub ltInt (insertTree ltInt emptyTree 7).root 7) = some 7)) :=
  c3_find _ (Reachable.ins 7 Reachable.empty) 7

/-- C4: inserting a key that is already stored is a silent no-op — the whole
tree object (root, size and allocator state) is unchanged, hence in
particular `size` and the in-order key sequence are unchanged. -/
theorem c4_duplicate_insert (s : AVLTreeSt Int) (hr : Reachable ltInt s) (k : Int)
    (hmem : k ∈ inorder s.root) :
    insertTree ltInt s k = s ∧
    (insertTree ltInt s k).tree_size = s.tree_size ∧
    inorder (insertTree ltInt s k).root = inorder s.root := by
  have hInv := reachable_inv asymm_ltInt hr
  have hB := reachable_BST hr
  have hceq := (mem_iff_ceq _ k hB).mp hmem
  have hno := insert_noop ltInt k s.root none s.fresh s.tree_size hInv.1 hInv.2.1 hceq
  have hstate : insertTree ltInt s k = s := by
    rw [insertTree, hno]
  exact ⟨hstate, by rw [hstate], by rw [hstate]⟩

theorem c4_duplicate_insert_witness :
    insertTree ltInt (insertTree ltInt (insertTree ltInt emptyTree 4) 9) 4 =
        insertTree ltInt (insertTree ltInt emptyTree 4) 9 ∧
    (insertTree ltInt (insertTree ltInt (insertTree ltInt emptyTree 4) 9) 4).tree_size =
        (insertTree ltInt (insertTree ltInt emptyTree 4) 9).tree_size ∧
    inorder (insertTree ltInt (insertTree ltInt (insertTree ltInt emptyTree 4) 9) 4).root =
        inorder (insertTree ltInt (insertTree ltInt emptyTree 4) 9).root :=
  c4_duplicate_insert _ (Reachable.ins 9 (Reachable.ins 4 Reachable.empty)) 4 (by decide)

/-- C5: erasing a key that is not stored is a silent no-op — the whole tree
object is unchanged (identical state), hence in particular `size` and the
in-order key sequence are unchanged. -/
theorem c5_absent_erase (s : AVLTreeSt Int) (hr : Reachable ltInt s) (k : Int)
    (hmem : k ∉ inorder s.root) :
    eraseTree ltInt s k = s ∧
    (eraseTree ltInt s k).tree_size = s.tree_size ∧
    inorder (eraseTree ltInt s k).root = inorder s.root := by
  have hInv := reachable_inv asymm_ltInt hr
  have hB := reachable_BST hr
  have hceq : ceq ltInt s.root k = false := by
    cases hc : ceq ltInt s.root k
    · rfl
    · exact absurd ((mem_iff_ceq _ k hB).mpr hc) hmem
  have hno := delete_noop ltInt k s.root s.tree_size hInv.1 hInv.2.1 hceq
  have hstate : eraseTree ltInt s k = s := by
    rw [eraseTree, hno]
  exact ⟨hstate, by rw [hstate], by rw [hstate]⟩

theorem c5_absent_erase_witness :
    eraseTree ltInt (insertTree ltInt (insertTree ltInt emptyTree 4) 9) 11 =
        insertTree ltInt (insertTree ltInt emptyTree 4) 9 ∧
    (eraseTree ltInt (insertTree ltInt (insertTree ltInt emptyTree 4) 9) 11).tree_size =
        (insertTree ltInt (insertTree ltInt emptyTree 4) 9).tree_size ∧
    inorder (eraseTree ltInt (insertTree ltInt (insertTree ltInt emptyTree 4) 9) 11).root =
        inorder (insertTree ltInt (insertTree ltInt emptyTree 4) 9).root :=
  c5_absent_erase _ (Reachable.ins 9 (Reachable.ins 4 Reachable.empty)) 11 (by decide)

end AVL

namespace AVL

variable {α : Type}

/-- An AVL-shaped tree of height `h` has at least `fib (h + 2) - 1` nodes. -/
theorem fib_le_count (t : PT α) :
    HtOk t → BalancedR t → Nat.fib (realHeight t + 2) ≤ countNodes t + 1 := by
  induction t with
  | nil =>
    intro _ _
    simp
  | node k l r p h i ihl ihr =>
    rintro ⟨hh, hhl, hhr⟩ ⟨hb1, hb2, hbl, hbr⟩
    have IHl := ihl hhl hbl
    have IHr := ihr hhr hbr
    simp only [realHeight_node, countNodes_node]
    rcases Nat.le_total (realHeight l) (realHeight r) with hc | hc
    · have hmax : max (realHeight l) (realHeight r) = realHeight r := by omega
      rw [hmax]
      have hfib : Nat.fib (realHeight r + 1 + 2) =
          Nat.fib (realHeight r + 1) + Nat.fib (realHeight r + 2) := Nat.fib_add_two
      have hmono : Nat.fib (realHeight r + 1) ≤ Nat.fib (realHeight l + 2) :=
        Nat.fib_mono (by omega)
      have : 1 + realHeight r + 2 = realHeight r + 1 + 2 := by omega
      rw [this, hfib]
      omega
    · have hmax : max (realHeight l) (realHeight r) = realHeight l := by omega
      rw [hmax]
      have hfib : Nat.fib (realHeight l + 1 + 2) =
          Nat.fib (realHeight l + 1) + Nat.fib (realHeight l + 2) := Nat.fib_add_two
      have hmono : Nat.fib (realHeight l + 1) ≤ Nat.fib (realHeight r + 2) :=
        Nat.fib_mono (by omega)
      have : 1 + realHeight l + 2 = realHeight l + 1 + 2 := by omega
      rw [this, hfib]
      omega

/-- The golden ratio. -/
noncomputable def phiR : ℝ := (1 + Real.sqrt 5) / 2

theorem phiR_sq : phiR ^ 2 = phiR + 1 := by
  have h5 : Real.sqrt 5 ^ 2 = 5 := Real.sq_sqrt (by norm_num)
  rw [phiR]
  ring_nf
  nlinarith [h5]

theorem phiR_ge : (809 / 500 : ℝ) ≤ phiR := by
  have h5 : Real.sqrt 5 ^ 2 = 5 := Real.sq_sqrt (by norm_num)
  have hnn : 0 ≤ Real.sqrt 5 := Real.sqrt_nonneg 5
  rw [phiR]
  nlinarith [sq_nonneg (Real.sqrt 5 - 559 / 250)]

theorem phiR_pos : 0 < phiR := lt_of_lt_of_le (by norm_num) phiR_ge

/-- Fibonacci numbers dominate the powers of the golden ratio. -/
theorem phiR_pow_le_fib : ∀ (n : Nat), phiR ^ n ≤ (Nat.fib (n + 2) : ℝ) := by
  intro n
  induction n using Nat.strong_induction_on with
  | _ n ih =>
    match n with
    | 0 => simp
    | 1 =>
      have : phiR ≤ 2 := by
        rw [phiR]
        nlinarith [Real.sq_sqrt (show (0:ℝ) ≤ 5 by norm_num), Real.sqrt_nonneg 5,
          sq_nonneg (Real.sqrt 5 - 3)]
      simpa using this
    | (m + 2) =>
      have ih1 := ih m (by omega)
      have ih2 := ih (m + 1) (by omega)
      have hpow : phiR ^ (m + 2) = phiR ^ m + phiR ^ (m + 1) := by
        calc phiR ^ (m + 2) = phiR ^ m * phiR ^ 2 := by ring
        _ = phiR ^ m * (phiR + 1) := by rw [phiR_sq]
        _ = phiR ^ m + phiR ^ (m + 1) := by ring
      have hfib : Nat.fib (m + 2 + 2) = Nat.fib (m + 2) + Nat.fib (m + 2 + 1) :=
        Nat.fib_add_two
      rw [hpow, hfib]
      push_cast
      have : m + 2 + 1 = m + 1 + 2 := by omega
      rw [this]
      exact add_le_add ih1 ih2

theorem two_pow_le_phiR_pow : (2 : ℝ) ^ (20 : Nat) ≤ phiR ^ (29 : Nat) := by
  have h1 : ((809 : ℝ) / 500) ^ (29 : Nat) ≤ phiR ^ (29 : Nat) :=
    pow_le_pow_left₀ (by norm_num) phiR_ge 29
  refine le_trans ?_ h1
  norm_num

end AVL

namespace AVL

/-- C6: for every reachable tree state, the height of the tree is bounded by
`1.45 * log2 (size + 2)` — the classical AVL height bound. -/
theorem c6_height_bound (s : AVLTreeSt Int) (hr : Reachable ltInt s) :
    (realHeight s.root : ℝ) ≤ 1.45 * Real.logb 2 ((s.tree_size : ℝ) + 2) := by
  have hInv := reachable_inv asymm_ltInt hr
  rcases hInv with ⟨hH, hB, _, hS, _, _⟩
  have hfib := fib_le_count s.root hH hB
  have hphi := phiR_pow_le_fib (realHeight s.root)
  have hchain : phiR ^ (realHeight s.root) ≤ (s.tree_size : ℝ) + 2 := by
    refine le_trans hphi ?_
    have : (Nat.fib (realHeight s.root + 2) : ℝ) ≤ (countNodes s.root : ℝ) + 1 := by
      exact_mod_cast hfib
    rw [hS]
    linarith
  have hpos : (0 : ℝ) < phiR ^ (realHeight s.root) := pow_pos phiR_pos _
  have e1 : (realHeight s.root : ℝ) * Real.logb 2 phiR ≤
      Real.logb 2 ((s.tree_size : ℝ) + 2) := by
    have := Real.logb_le_logb_of_le (by norm_num : (1:ℝ) < 2) hpos hchain
    rwa [Real.logb_pow] at this
  have e2 : (20 : ℝ) ≤ 29 * Real.logb 2 phiR := by
    have h2 := Real.logb_le_logb_of_le (by norm_num : (1:ℝ) < 2)
      (by positivity : (0:ℝ) < 2 ^ (20:Nat)) two_pow_le_phiR_pow
    rw [Real.logb_pow, Real.logb_pow, Real.logb_self_eq_one (by norm_num)] at h2
    push_cast at h2
    linarith
  have hhnn : (0 : ℝ) ≤ (realHeight s.root : ℝ) := Nat.cast_nonneg _
  have hLnn : 0 ≤ Real.logb 2 phiR := by linarith
  have h145 : (1.45 : ℝ) = 29 / 20 := by norm_num
  rw [h145]
  nlinarith [mul_le_mul_of_nonneg_left e2 hhnn]

theorem c6_height_bound_witness :
    (realHeight (insertTree ltInt (insertTree ltInt emptyTree 1) 2).root : ℝ) ≤
      1.45 * Real.logb 2
        (((insertTree ltInt (insertTree ltInt emptyTree 1) 2).tree_size : ℝ) + 2) :=
  c6_height_bound _ (Reachable.ins 2 (Reachable.ins 1 Reachable.empty))

end AVL

namespace AVL

variable {α β : Type}

/-- Relabelling of the stored keys (structure, heights, ids untouched); used
to transfer the `Int` BST results to comparators that only inspect part of
the element, such as `ltFst`. -/
def mapKeys (f : α → β) : PT α → PT β
  | .nil => .nil
  | .node k l r p h i => .node (f k) (mapKeys f l) (mapKeys f r) p h i

@[simp] theorem mapKeys_nil {f : α → β} : mapKeys f (.nil : PT α) = .nil := rfl

@[simp] theorem mapKeys_node {f : α → β} {k : α} {l r p h i} :
    mapKeys f (.node k l r p h i) = .node (f k) (mapKeys f l) (mapKeys f r) p h i := rfl

@[simp] theorem height_mapKeys (f : α → β) (t : PT α) : height (mapKeys f t) = height t := by
  cases t <;> rfl

@[simp] theorem getBalanceFactor_mapKeys (f : α → β) (t : PT α) :
    getBalanceFactor (mapKeys f t) = getBalanceFactor t := by
  cases t with
  | nil => rfl
  | node k l r p h i => simp [getBalanceFactor]

@[simp] theorem inorder_mapKeys (f : α → β) (t : PT α) :
    inorder (mapKeys f t) = (inorder t).map f := by
  induction t with
  | nil => rfl
  | node k l r p h i ihl ihr => simp [ihl, ihr]

theorem setParentRoot_mapKeys (f : α → β) (p : Option Nat) (t : PT α) :
    setParentRoot p (mapKeys f t) = mapKeys f (setParentRoot p t) := by
  cases t <;> rfl

theorem rightRotate_mapKeys (f : α → β) (t : PT α) :
    rightRotate (mapKeys f t) = mapKeys f (rightRotate t) := by
  cases t with
  | nil => rfl
  | node yk yl c yp yh yi =>
    cases yl with
    | nil => rfl
    | node xk a t2 xp xh xi =>
      simp [rightRotate, setParentRoot_mapKeys]

theorem leftRotate_mapKeys (f : α → β) (t : PT α) :
    leftRotate (mapKeys f t) = mapKeys f (leftRotate t) := by
  cases t with
  | nil => rfl
  | node xk a xr xp xh xi =>
    cases xr with
    | nil => rfl
    | node yk t2 c yp yh yi =>
      simp [leftRotate, setParentRoot_mapKeys]

theorem ltRoot_mapKeys {f : α → β} {lt1 : α → α → Bool} {lt2 : β → β → Bool}
    (hm : ∀ a b, lt1 a b = lt2 (f a) (f b)) (key : α) (t : PT α) :
    ltRoot lt2 (f key) (mapKeys f t) = ltRoot lt1 key t := by
  cases t with
  | nil => rfl
  | node k l r p h i => simp [ltRoot, hm]

theorem rootLt_mapKeys {f : α → β} {lt1 : α → α → Bool} {lt2 : β → β → Bool}
    (hm : ∀ a b, lt1 a b = lt2 (f a) (f b)) (key : α) (t : PT α) :
    rootLt lt2 (f key) (mapKeys f t) = rootLt lt1 key t := by
  cases t with
  | nil => rfl
  | node k l r p h i => simp [rootLt, hm]

theorem insFix_mapKeys {f : α → β} {lt1 : α → α → Bool} {lt2 : β → β → Bool}
    (hm : ∀ a b, lt1 a b = lt2 (f a) (f b)) (t : PT α) (key : α) :
    insFix lt2 (mapKeys f t) (f key) = mapKeys f (insFix lt1 t key) := by
  cases t with
  | nil => rfl
  | node k l r p h i =>
    simp only [insFix, mapKeys_node, getBalanceFactor_node, height_mapKeys,
      ltRoot_mapKeys hm, rootLt_mapKeys hm]
    split_ifs <;>
      simp [← rightRotate_mapKeys, ← leftRotate_mapKeys]

theorem delFix_mapKeys (f : α → β) (t : PT α) :
    delFix (mapKeys f t) = mapKeys f (delFix t) := by
  cases t with
  | nil => rfl
  | node k l r p h i =>
    simp only [delFix, mapKeys_node, getBalanceFactor_node, height_mapKeys,
      getBalanceFactor_mapKeys]
    split_ifs <;>
      simp [← rightRotate_mapKeys, ← leftRotate_mapKeys]

theorem insert_mapKeys {f : α → β} {lt1 : α → α → Bool} {lt2 : β → β → Bool}
    (hm : ∀ a b, lt1 a b = lt2 (f a) (f b)) (t : PT α) :
    ∀ (key : α) (par : Option Nat) (fresh sz : Nat),
      insert lt2 (mapKeys f t) (f key) par fresh sz =
        (mapKeys f (insert lt1 t key par fresh sz).1,
          (insert lt1 t key par fresh sz).2.1, (insert lt1 t key par fresh sz).2.2) := by
  induction t with
  | nil =>
    intro key par fresh sz
    simp [insert]
  | node k l r p h i ihl ihr =>
    intro key par fresh sz
    by_cases hkl : lt1 key k = true
    · have hkl2 : lt2 (f key) (f k) = true := by rw [← hm]; exact hkl
      rcases e : insert lt1 l key (some i) fresh sz with ⟨l', fr', sz'⟩
      have IH := ihl key (some i) fresh sz
      rw [e] at IH
      dsimp only at IH
      have h1 : insert lt1 (PT.node k l r p h i) key par fresh sz =
          (insFix lt1 (.node k l' r p (1 + max (height l') (height r)) i) key, fr', sz') := by
        simp [insert, hkl, e]
      have h2 : insert lt2 (mapKeys f (PT.node k l r p h i)) (f key) par fresh sz =
          (insFix lt2 (.node (f k) (mapKeys f l') (mapKeys f r) p
            (1 + max (height (mapKeys f l')) (height (mapKeys f r))) i) (f key), fr', sz') := by
        simp [insert, hkl2, IH]
      rw [h1, h2]
      dsimp only
      have : (PT.node (f k) (mapKeys f l') (mapKeys f r) p
          (1 + max (height (mapKeys f l')) (height (mapKeys f r))) i) =
          mapKeys f (.node k l' r p (1 + max (height l') (height r)) i) := by
        simp
      rw [this, insFix_mapKeys hm]
    · by_cases hlk : lt1 k key = true
      · have hkl2 : lt2 (f key) (f k) = false := by rw [← hm]; exact (by simpa using hkl)
        have hlk2 : lt2 (f k) (f key) = true := by rw [← hm]; exact hlk
        rcases e : insert lt1 r key (some i) fresh sz with ⟨r', fr', sz'⟩
        have IH := ihr key (some i) fresh sz
        rw [e] at IH
        dsimp only at IH
        have h1 : insert lt1 (PT.node k l r p h i) key par fresh sz =
            (insFix lt1 (.node k l r' p (1 + max (height l) (height r')) i) key, fr', sz') := by
          simp [insert, hkl, hlk, e]
        have h2 : insert lt2 (mapKeys f (PT.node k l r p h i)) (f key) par fresh sz =
            (insFix lt2 (.node (f k) (mapKeys f l) (mapKeys f r') p
              (1 + max (height (mapKeys f l)) (height (mapKeys f r'))) i) (f key), fr', sz') := by
          simp [insert, hkl2, hlk2, IH]
        rw [h1, h2]
        dsimp only
        have : (PT.node (f k) (mapKeys f l) (mapKeys f r') p
            (1 + max (height (mapKeys f l)) (height (mapKeys f r'))) i) =
            mapKeys f (.node k l r' p (1 + max (height l) (height r')) i) := by
          simp
        rw [this, insFix_mapKeys hm]
      · have hkl2 : lt2 (f key) (f k) = false := by rw [← hm]; exact (by simpa using hkl)
        have hlk2 : lt2 (f k) (f key) = false := by rw [← hm]; exact (by simpa using hlk)
        simp [insert, hkl, hlk, hkl2, hlk2]

theorem ceq_mapKeys {f : α → β} {lt1 : α → α → Bool} {lt2 : β → β → Bool}
    (hm : ∀ a b, lt1 a b = lt2 (f a) (f b)) (t : PT α) :
    ∀ (key : α), ceq lt2 (mapKeys f t) (f key) = ceq lt1 t key := by
  induction t with
  | nil => intro key; rfl
  | node k l r p h i ihl ihr =>
    intro key
    by_cases hkl : lt1 key k = true
    · have hkl2 : lt2 (f key) (f k) = true := by rw [← hm]; exact hkl
      simp [ceq, hkl, hkl2, ihl]
    · by_cases hlk : lt1 k key = true
      · have hkl2 : lt2 (f key) (f k) = false := by rw [← hm]; exact (by simpa using hkl)
        have hlk2 : lt2 (f k) (f key) = true := by rw [← hm]; exact hlk
        simp [ceq, hkl, hlk, hkl2, hlk2, ihr]
      · have hkl2 : lt2 (f key) (f k) = false := by rw [← hm]; exact (by simpa using hkl)
        have hlk2 : lt2 (f k) (f key) = false := by rw [← hm]; exact (by simpa using hlk)
        simp [ceq, hkl, hlk, hkl2, hlk2]

end AVL

namespace AVL

variable {α β : Type}

theorem minValueNode_mapKeys (f : α → β) (t : PT α) :
    minValueNode (mapKeys f t) = mapKeys f (minValueNode t) := by
  induction t with
  | nil => rfl
  | node k l r p h i ihl ihr =>
    cases l with
    | nil => rfl
    | node lk ll lr lp lh li =>
      simp only [mapKeys_node]
      rw [show minValueNode (PT.node (f k)
          (.node (f lk) (mapKeys f ll) (mapKeys f lr) lp lh li) (mapKeys f r) p h i) =
          minValueNode (.node (f lk) (mapKeys f ll) (mapKeys f lr) lp lh li) by
        simp [minValueNode]]
      rw [show minValueNode (PT.node k (.node lk ll lr lp lh li) r p h i) =
          minValueNode (.node lk ll lr lp lh li) by simp [minValueNode]]
      simpa using ihl

theorem rootKeyOr_mapKeys (f : α → β) (d : α) (t : PT α) :
    rootKeyOr (f d) (mapKeys f t) = f (rootKeyOr d t) := by
  cases t <;> rfl

theorem deleteNode_mapKeys {f : α → β} {lt1 : α → α → Bool} {lt2 : β → β → Bool}
    (hm : ∀ a b, lt1 a b = lt2 (f a) (f b)) (t : PT α) :
    ∀ (key : α) (sz : Nat),
      deleteNode lt2 (mapKeys f t) (f key) sz =
        (mapKeys f (deleteNode lt1 t key sz).1, (deleteNode lt1 t key sz).2) := by
  induction t with
  | nil =>
    intro key sz
    rfl
  | node k l r p h i ihl ihr =>
    intro key sz
    by_cases hkl : lt1 key k = true
    · have hkl2 : lt2 (f key) (f k) = true := by rw [← hm]; exact hkl
      rcases e : deleteNode lt1 l key sz with ⟨l', sz'⟩
      have IH := ihl key sz
      rw [e] at IH
      dsimp only at IH
      have h1 : deleteNode lt1 (PT.node k l r p h i) key sz =
          (delFix (.node k l' r p (1 + max (height l') (height r)) i), sz') := by
        rw [deleteNode.eq_def]
        simp [hkl, e]
      have h2 : deleteNode lt2 (mapKeys f (PT.node k l r p h i)) (f key) sz =
          (delFix (.node (f k) (mapKeys f l') (mapKeys f r) p
            (1 + max (height (mapKeys f l')) (height (mapKeys f r))) i), sz') := by
        rw [mapKeys_node, deleteNode.eq_def]
        simp [hkl2, IH]
      rw [h1, h2]
      dsimp only
      rw [show (PT.node (f k) (mapKeys f l') (mapKeys f r) p
          (1 + max (height (mapKeys f l')) (height (mapKeys f r))) i) =
          mapKeys f (.node k l' r p (1 + max (height l') (height r)) i) by simp]
      rw [delFix_mapKeys]
    · by_cases hlk : lt1 k key = true
      · have hkl2 : lt2 (f key) (f k) = false := by rw [← hm]; exact (by simpa using hkl)
        have hlk2 : lt2 (f k) (f key) = true := by rw [← hm]; exact hlk
        rcases e : deleteNode lt1 r key sz with ⟨r', sz'⟩
        have IH := ihr key sz
        rw [e] at IH
        dsimp only at IH
        have h1 : deleteNode lt1 (PT.node k l r p h i) key sz =
            (delFix (.node k l r' p (1 + max (height l) (height r')) i), sz') := by
          rw [deleteNode.eq_def]
          simp [hkl, hlk, e]
        have h2 : deleteNode lt2 (mapKeys f (PT.node k l r p h i)) (f key) sz =
            (delFix (.node (f k) (mapKeys f l) (mapKeys f r') p
              (1 + max (height (mapKeys f l)) (height (mapKeys f r'))) i), sz') := by
          rw [mapKeys_node, deleteNode.eq_def]
          simp [hkl2, hlk2, IH]
        rw [h1, h2]
        dsimp only
        rw [show (PT.node (f k) (mapKeys f l) (mapKeys f r') p
            (1 + max (height (mapKeys f l)) (height (mapKeys f r'))) i) =
            mapKeys f (.node k l r' p (1 + max (height l) (height r')) i) by simp]
        rw [delFix_mapKeys]
      · have hkl2 : lt2 (f key) (f k) = false := by rw [← hm]; exact (by simpa using hkl)
        have hlk2 : lt2 (f k) (f key) = false := by rw [← hm]; exact (by simpa using hlk)
        cases l with
        | nil =>
          cases r with
          | nil =>
            rw [mapKeys_node, deleteNode.eq_def, deleteNode.eq_def]
            simp [hkl, hlk, hkl2, hlk2]
          | node ck cl cr cp ch ci =>
            have h1 : deleteNode lt1 (PT.node k .nil (.node ck cl cr cp ch ci) p h i) key sz =
                (delFix (.node ck cl cr p (1 + max (height cl) (height cr)) i), sz - 1) := by
              rw [deleteNode.eq_def]
              simp [hkl, hlk]
            have h2 : deleteNode lt2 (mapKeys f (PT.node k .nil (.node ck cl cr cp ch ci) p h i))
                (f key) sz =
                (delFix (.node (f ck) (mapKeys f cl) (mapKeys f cr) p
                  (1 + max (height (mapKeys f cl)) (height (mapKeys f cr))) i), sz - 1) := by
              rw [mapKeys_node, mapKeys_node, deleteNode.eq_def]
              simp [hkl2, hlk2]
            rw [h1, h2]
            dsimp only
            rw [show (PT.node (f ck) (mapKeys f cl) (mapKeys f cr) p
                (1 + max (height (mapKeys f cl)) (height (mapKeys f cr))) i) =
                mapKeys f (.node ck cl cr p (1 + max (height cl) (height cr)) i) by simp]
            rw [delFix_mapKeys]
        | node lk2 ll2 lr2 lp2 lh2 li2 =>
          cases r with
          | nil =>
            have h1 : deleteNode lt1 (PT.node k (.node lk2 ll2 lr2 lp2 lh2 li2) .nil p h i) key sz =
                (delFix (.node lk2 ll2 lr2 p (1 + max (height ll2) (height lr2)) i), sz - 1) := by
              rw [deleteNode.eq_def]
              simp [hkl, hlk]
            have h2 : deleteNode lt2
                (mapKeys f (PT.node k (.node lk2 ll2 lr2 lp2 lh2 li2) .nil p h i)) (f key) sz =
                (delFix (.node (f lk2) (mapKeys f ll2) (mapKeys f lr2) p
                  (1 + max (height (mapKeys f ll2)) (height (mapKeys f lr2))) i), sz - 1) := by
              rw [mapKeys_node, mapKeys_node, deleteNode.eq_def]
              simp [hkl2, hlk2]
            rw [h1, h2]
            dsimp only
            rw [show (PT.node (f lk2) (mapKeys f ll2) (mapKeys f lr2) p
                (1 + max (height (mapKeys f ll2)) (height (mapKeys f lr2))) i) =
                mapKeys f (.node lk2 ll2 lr2 p (1 + max (height ll2) (height lr2)) i) by simp]
            rw [delFix_mapKeys]
          | node rk2 rl2 rr2 rp2 rh2 ri2 =>
            rcases e : deleteNode lt1 (.node rk2 rl2 rr2 rp2 rh2 ri2)
                (rootKeyOr rk2 (minValueNode (.node rk2 rl2 rr2 rp2 rh2 ri2))) sz with ⟨r', s'⟩
            have IH := ihr (rootKeyOr rk2 (minValueNode (.node rk2 rl2 rr2 rp2 rh2 ri2))) sz
            rw [e] at IH
            dsimp only at IH
            have hmkey : rootKeyOr (f rk2) (minValueNode (mapKeys f (.node rk2 rl2 rr2 rp2 rh2 ri2))) =
                f (rootKeyOr rk2 (minValueNode (.node rk2 rl2 rr2 rp2 rh2 ri2))) := by
              rw [minValueNode_mapKeys, rootKeyOr_mapKeys]
            have h1 : deleteNode lt1
                (PT.node k (.node lk2 ll2 lr2 lp2 lh2 li2) (.node rk2 rl2 rr2 rp2 rh2 ri2) p h i) key sz =
                (delFix (.node (rootKeyOr rk2 (minValueNode (.node rk2 rl2 rr2 rp2 rh2 ri2)))
                  (.node lk2 ll2 lr2 lp2 lh2 li2) r' p
                  (1 + max (height (.node lk2 ll2 lr2 lp2 lh2 li2)) (height r')) i), s') := by
              rw [deleteNode.eq_def]
              simp [hkl, hlk, e]
            have h2 : deleteNode lt2
                (mapKeys f (PT.node k (.node lk2 ll2 lr2 lp2 lh2 li2)
                  (.node rk2 rl2 rr2 rp2 rh2 ri2) p h i)) (f key) sz =
                (delFix (.node (f (rootKeyOr rk2 (minValueNode (.node rk2 rl2 rr2 rp2 rh2 ri2))))
                  (.node (f lk2) (mapKeys f ll2) (mapKeys f lr2) lp2 lh2 li2) (mapKeys f r') p
                  (1 + max (height (.node (f lk2) (mapKeys f ll2) (mapKeys f lr2) lp2 lh2 li2))
                    (height (mapKeys f r'))) i), s') := by
              rw [mapKeys_node, mapKeys_node, mapKeys_node, deleteNode.eq_def]
              simp only [hkl2, hlk2]
              rw [show (PT.node (f rk2) (mapKeys f rl2) (mapKeys f rr2) rp2 rh2 ri2) =
                  mapKeys f (.node rk2 rl2 rr2 rp2 rh2 ri2) by simp]
              rw [hmkey, IH]
              simp
            rw [h1, h2]
            dsimp only
            rw [show (PT.node (f (rootKeyOr rk2 (minValueNode (.node rk2 rl2 rr2 rp2 rh2 ri2))))
                (.node (f lk2) (mapKeys f ll2) (mapKeys f lr2) lp2 lh2 li2) (mapKeys f r') p
                (1 + max (height (.node (f lk2) (mapKeys f ll2) (mapKeys f lr2) lp2 lh2 li2))
                  (height (mapKeys f r'))) i) =
                mapKeys f (.node (rootKeyOr rk2 (minValueNode (.node rk2 rl2 rr2 rp2 rh2 ri2)))
                  (.node lk2 ll2 lr2 lp2 lh2 li2) r' p
                  (1 + max (height (.node lk2 ll2 lr2 lp2 lh2 li2)) (height r')) i) by simp]
            rw [delFix_mapKeys]

/-- Key relabelling lifted to the tree object. -/
def mapState (f : α → β) (s : AVLTreeSt α) : AVLTreeSt β :=
  ⟨mapKeys f s.root, s.tree_size, s.fresh⟩

theorem reachable_mapKeys {f : α → β} {lt1 : α → α → Bool} {lt2 : β → β → Bool}
    (hm : ∀ a b, lt1 a b = lt2 (f a) (f b)) {s : AVLTreeSt α}
    (hr : Reachable lt1 s) : Reachable lt2 (mapState f s) := by
  induction hr with
  | empty =>
    have : mapState f (emptyTree : AVLTreeSt α) = emptyTree := rfl
    rw [this]
    exact Reachable.empty
  | ins k hs ih =>
    rename_i s'
    have hcomm : mapState f (insertTree lt1 s' k) = insertTree lt2 (mapState f s') (f k) := by
      rcases e : insert lt1 s'.root k none s'.fresh s'.tree_size with ⟨t2, f2, s2⟩
      have hmk := insert_mapKeys hm s'.root k none s'.fresh s'.tree_size
      rw [e] at hmk
      dsimp only at hmk
      simp [insertTree, mapState, e, hmk]
    rw [hcomm]
    exact Reachable.ins (f k) ih
  | del k hs ih =>
    rename_i s'
    have hcomm : mapState f (eraseTree lt1 s' k) = eraseTree lt2 (mapState f s') (f k) := by
      rcases e : deleteNode lt1 s'.root k s'.tree_size with ⟨t2, s2⟩
      have hmk := deleteNode_mapKeys hm s'.root k s'.tree_size
      rw [e] at hmk
      dsimp only at hmk
      simp [eraseTree, mapState, e, hmk]
    rw [hcomm]
    exact Reachable.del (f k) ih

end AVL

namespace AVL

/-- C10: when the tree stores an element `x` that is comparator-equal to `k`
(neither `ordering(x,k)` nor `ordering(k,x)`), `insert k` leaves the stored
element object untouched: the whole tree value is unchanged and `x` — not
`k` — is what remains stored.  Stated for the comparator `ltFst` on pairs,
whose induced equivalence is coarser than equality, which makes retention of
the old element observable. -/
theorem c10_equal_insert_keeps_element (s : AVLTreeSt (Int × Int))
    (hr : Reachable ltFst s) (x k : Int × Int)
    (hx : x ∈ inorder s.root) (h1 : ltFst x k = false) (h2 : ltFst k x = false) :
    insertTree ltFst s k = s ∧ x ∈ inorder (insertTree ltFst s k).root := by
  have hm : ∀ a b : Int × Int, ltFst a b = ltInt a.1 b.1 := fun a b => rfl
  have hmap := reachable_mapKeys hm hr
  have hB : BST (mapKeys Prod.fst s.root) := reachable_BST hmap
  have heq : x.1 = k.1 := by
    simp only [ltFst, decide_eq_false_iff_not] at h1 h2
    omega
  have hmem : k.1 ∈ inorder (mapKeys Prod.fst s.root) := by
    rw [inorder_mapKeys]
    exact List.mem_map.mpr ⟨x, hx, heq⟩
  have hceqInt : ceq ltInt (mapKeys Prod.fst s.root) k.1 = true :=
    (mem_iff_ceq _ _ hB).mp hmem
  have hceq : ceq ltFst s.root k = true := by
    rw [← ceq_mapKeys hm s.root k]
    exact hceqInt
  have hInv := reachable_inv asymm_ltFst hr
  have hno := insert_noop ltFst k s.root none s.fresh s.tree_size hInv.1 hInv.2.1 hceq
  have hstate : insertTree ltFst s k = s := by
    rw [insertTree, hno]
  refine ⟨hstate, ?_⟩
  rw [hstate]
  exact hx

theorem c10_equal_insert_keeps_element_witness :
    insertTree ltFst (insertTree ltFst emptyTree (5, 100)) (5, 999) =
        insertTree ltFst emptyTree (5, 100) ∧
    ((5 : Int), (100 : Int)) ∈
      inorder (insertTree ltFst (insertTree ltFst emptyTree (5, 100)) (5, 999)).root :=
  c10_equal_insert_keeps_element _ (Reachable.ins (5, 100) Reachable.empty)
    (5, 100) (5, 999) (by decide) (by decide) (by decide)

end AVL

namespace AVL

variable {α : Type}

theorem findSub_ids_le (lt : α → α → Bool) (t : PT α) :
    ∀ (key : α), idsMS (findSub lt t key) ≤ idsMS t := by
  induction t with
  | nil =>
    intro key
    exact le_refl _
  | node k l r p h i ihl ihr =>
    intro key
    by_cases hkl : lt key k = true
    · rw [show findSub lt (PT.node k l r p h i) key = findSub lt l key by simp [findSub, hkl]]
      refine le_trans (ihl key) ?_
      rw [idsMS_node]
      exact le_trans (Multiset.le_add_right _ _) (Multiset.le_cons_self _ _)
    · by_cases hlk : lt k key = true
      · rw [show findSub lt (PT.node k l r p h i) key = findSub lt r key by
          simp [findSub, hkl, hlk]]
        refine le_trans (ihr key) ?_
        rw [idsMS_node]
        exact le_trans (Multiset.le_add_left _ _) (Multiset.le_cons_self _ _)
      · rw [show findSub lt (PT.node k l r p h i) key = PT.node k l r p h i by
          simp [findSub, hkl, hlk]]

theorem minValueNode_ids_le (t : PT α) : idsMS (minValueNode t) ≤ idsMS t := by
  induction t with
  | nil => exact le_refl _
  | node k l r p h i ihl ihr =>
    cases l with
    | nil => exact le_refl _
    | node lk ll lr lp lh li =>
      rw [show minValueNode (PT.node k (.node lk ll lr lp lh li) r p h i) =
          minValueNode (.node lk ll lr lp lh li) by simp [minValueNode]]
      refine le_trans ihl ?_
      rw [idsMS_node]
      exact le_trans (Multiset.le_add_right _ _) (Multiset.le_cons_self _ _)

theorem minValueNode_shape (t : PT α) (hne : t ≠ .nil) :
    ∃ mk mr mp mh mi, minValueNode t = .node mk .nil mr mp mh mi := by
  induction t with
  | nil => exact absurd rfl hne
  | node k l r p h i ihl ihr =>
    cases l with
    | nil => exact ⟨k, r, p, h, i, rfl⟩
    | node lk ll lr lp lh li =>
      rw [show minValueNode (PT.node k (.node lk ll lr lp lh li) r p h i) =
          minValueNode (.node lk ll lr lp lh li) by simp [minValueNode]]
      exact ihl (by simp)

/-- The `deleteNode` descent for the minimum key of a BST ends exactly at the
leftmost node. -/
theorem findSub_min (d : Int) (t : PT Int) :
    BST t → findSub ltInt t (rootKeyOr d (minValueNode t)) = minValueNode t := by
  induction t with
  | nil => intro _; rfl
  | node k l r p h i ihl ihr =>
    rintro ⟨hl, hr, bl, br⟩
    cases l with
    | nil =>
      have hm : rootKeyOr d (minValueNode (PT.node k .nil r p h i)) = k := by
        simp [minValueNode, rootKeyOr]
      rw [hm]
      have hkk : ltInt k k = false := by simp [ltInt]
      rw [show minValueNode (PT.node k .nil r p h i) = PT.node k .nil r p h i by
        simp [minValueNode]]
      simp [findSub, hkk]
    | node lk ll lr2 lp lh li =>
      have hmv : minValueNode (PT.node k (.node lk ll lr2 lp lh li) r p h i) =
          minValueNode (.node lk ll lr2 lp lh li) := by
        simp [minValueNode]
      rw [hmv]
      have hmem := rootKeyOr_minValueNode_mem d (.node lk ll lr2 lp lh li) (by simp)
      have hmk : rootKeyOr d (minValueNode (.node lk ll lr2 lp lh li)) < k := hl _ hmem
      have hkl : ltInt (rootKeyOr d (minValueNode (.node lk ll lr2 lp lh li))) k = true := by
        simp [ltInt, hmk]
      rw [show findSub ltInt (PT.node k (.node lk ll lr2 lp lh li) r p h i)
          (rootKeyOr d (minValueNode (.node lk ll lr2 lp lh li))) =
          findSub ltInt (.node lk ll lr2 lp lh li)
            (rootKeyOr d (minValueNode (.node lk ll lr2 lp lh li))) by simp [findSub, hkl]]
      exact ihl bl

end AVL

namespace AVL

/-- Which node object does `deleteNode` destroy?  If the search descent
finds a node (`findSub` returns it), then: a leaf target is destroyed
itself; a target with exactly one child keeps its own identity, receives the
child's key, and the child object is the one destroyed; a target with two
children keeps its identity, receives the minimum key of its right subtree,
and a physically different node object from the right subtree disappears. -/
theorem delete_target (t : PT Int) :
    ∀ (key : Int) (sz : Nat), HtOk t → BalancedR t → BST t → NodupIds t →
      ∀ tk tl tr tp th ti, findSub ltInt t key = .node tk tl tr tp th ti →
      ((tl = PT.nil → tr = PT.nil →
          idsMS (deleteNode ltInt t key sz).1 = (idsMS t).erase ti) ∧
        (∀ ck cl cr cp ch ci, tl = PT.node ck cl cr cp ch ci → tr = PT.nil →
          idsMS (deleteNode ltInt t key sz).1 = (idsMS t).erase ci ∧
          (ti, ck) ∈ pairsMS (deleteNode ltInt t key sz).1) ∧
        (∀ ck cl cr cp ch ci, tl = PT.nil → tr = PT.node ck cl cr cp ch ci →
          idsMS (deleteNode ltInt t key sz).1 = (idsMS t).erase ci ∧
          (ti, ck) ∈ pairsMS (deleteNode ltInt t key sz).1) ∧
        (tl ≠ PT.nil → tr ≠ PT.nil →
          ∃ dd, dd ∈ idsMS tr ∧ dd ≠ ti ∧
            idsMS (deleteNode ltInt t key sz).1 = (idsMS t).erase dd ∧
            ∃ mk2, mk2 ∈ inorder tr ∧ (∀ y ∈ inorder tr, mk2 ≤ y) ∧
              (ti, mk2) ∈ pairsMS (deleteNode ltInt t key sz).1)) := by
  induction t with
  | nil =>
    intro key sz _ _ _ _ tk tl tr tp th ti hfind
    exact absurd hfind (by simp [findSub])
  | node k l r p h i ihl ihr =>
    intro key sz hht hbal hbst hnd tk tl tr tp th ti hfind
    rcases hht with ⟨hh, hhl, hhr⟩
    rcases hbal with ⟨hb1, hb2, hbl, hbr⟩
    rcases hbst with ⟨hbstl, hbstr, bstl, bstr⟩
    have hnd2 := hnd
    rw [NodupIds, idsMS_node, Multiset.nodup_cons, Multiset.nodup_add] at hnd2
    rcases hnd2 with ⟨hiNot, hnl, hnr, hdisj⟩
    by_cases hkl : ltInt key k = true
    · -- target lies in the left subtree
      rw [show findSub ltInt (PT.node k l r p h i) key = findSub ltInt l key by
        simp [findSub, hkl]] at hfind
      rcases e : deleteNode ltInt l key sz with ⟨l', s'⟩
      have IH := ihl key sz hhl hbl bstl hnl tk tl tr tp th ti hfind
      rw [e] at IH
      dsimp only at IH
      have hins : deleteNode ltInt (PT.node k l r p h i) key sz =
          (delFix (.node k l' r p (1 + max (height l') (height r)) i), s') := by
        rw [deleteNode.eq_def]
        simp [hkl, e]
      rw [hins]
      dsimp only
      rw [idsMS_delFix, pairsMS_delFix, idsMS_node, pairsMS_node]
      have hsub : idsMS (PT.node tk tl tr tp th ti) ≤ idsMS l := by
        rw [← hfind]
        exact findSub_ids_le ltInt l key
      have hlift : ∀ dd, dd ∈ idsMS l →
          (idsMS (PT.node k l r p h i)).erase dd = i ::ₘ ((idsMS l).erase dd + idsMS r) := by
        intro dd hddl
        have hddi : i ≠ dd := fun hc => hiNot (Multiset.mem_add.mpr (Or.inl (hc ▸ hddl)))
        rw [idsMS_node, Multiset.erase_cons_tail _ hddi,
          Multiset.erase_add_left_pos _ hddl]
      rcases IH with ⟨IH1, IH2, IH3, IH4⟩
      refine ⟨?_, ?_, ?_, ?_⟩
      · intro h1 h2
        have hids := IH1 h1 h2
        have hti : ti ∈ idsMS l :=
          Multiset.mem_of_le hsub (by rw [idsMS_node]; exact Multiset.mem_cons_self _ _)
        rw [hids, hlift ti hti]
      · intro ck cl cr cp ch ci h1 h2
        rcases IH2 ck cl cr cp ch ci h1 h2 with ⟨hids, hpair⟩
        have hci : ci ∈ idsMS l := by
          refine Multiset.mem_of_le hsub ?_
          rw [idsMS_node, h1, idsMS_node]
          exact Multiset.mem_cons_of_mem (Multiset.mem_add.mpr
            (Or.inl (Multiset.mem_cons_self _ _)))
        refine ⟨by rw [hids, hlift ci hci], ?_⟩
        exact Multiset.mem_cons_of_mem (Multiset.mem_add.mpr (Or.inl hpair))
      · intro ck cl cr cp ch ci h1 h2
        rcases IH3 ck cl cr cp ch ci h1 h2 with ⟨hids, hpair⟩
        have hci : ci ∈ idsMS l := by
          refine Multiset.mem_of_le hsub ?_
          rw [idsMS_node, h2, idsMS_node]
          exact Multiset.mem_cons_of_mem (Multiset.mem_add.mpr
            (Or.inr (Multiset.mem_cons_self _ _)))
        refine ⟨by rw [hids, hlift ci hci], ?_⟩
        exact Multiset.mem_cons_of_mem (Multiset.mem_add.mpr (Or.inl hpair))
      · intro h1 h2
        rcases IH4 h1 h2 with ⟨dd, hddtr, hddti, hids, mk2, hmk1, hmk2, hpair⟩
        have hdd : dd ∈ idsMS l := by
          refine Multiset.mem_of_le hsub ?_
          rw [idsMS_node]
          exact Multiset.mem_cons_of_mem (Multiset.mem_add.mpr (Or.inr hddtr))
        exact ⟨dd, hddtr, hddti, by rw [hids, hlift dd hdd], mk2, hmk1, hmk2,
          Multiset.mem_cons_of_mem (Multiset.mem_add.mpr (Or.inl hpair))⟩
    · by_cases hlk : ltInt k key = true
      · -- target lies in the right subtree
        rw [show findSub ltInt (PT.node k l r p h i) key = findSub ltInt r key by
          simp [findSub, hkl, hlk]] at hfind
        rcases e : deleteNode ltInt r key sz with ⟨r', s'⟩
        have IH := ihr key sz hhr hbr bstr hnr tk tl tr tp th ti hfind
        rw [e] at IH
        dsimp only at IH
        have hins : deleteNode ltInt (PT.node k l r p h i) key sz =
            (delFix (.node k l r' p (1 + max (height l) (height r')) i), s') := by
          rw [deleteNode.eq_def]
          simp [hkl, hlk, e]
        rw [hins]
        dsimp only
        rw [idsMS_delFix, pairsMS_delFix, idsMS_node, pairsMS_node]
        have hsub : idsMS (PT.node tk tl tr tp th ti) ≤ idsMS r := by
          rw [← hfind]
          exact findSub_ids_le ltInt r key
        have hlift : ∀ dd, dd ∈ idsMS r →
            (idsMS (PT.node k l r p h i)).erase dd = i ::ₘ (idsMS l + (idsMS r).erase dd) := by
          intro dd hddr
          have hddi : i ≠ dd := fun hc => hiNot (Multiset.mem_add.mpr (Or.inr (hc ▸ hddr)))
          rw [idsMS_node, Multiset.erase_cons_tail _ hddi,
            Multiset.erase_add_right_pos _ hddr]
        rcases IH with ⟨IH1, IH2, IH3, IH4⟩
        refine ⟨?_, ?_, ?_, ?_⟩
        · intro h1 h2
          have hids := IH1 h1 h2
          have hti : ti ∈ idsMS r :=
            Multiset.mem_of_le hsub (by rw [idsMS_node]; exact Multiset.mem_cons_self _ _)
          rw [hids, hlift ti hti]
        · intro ck cl cr cp ch ci h1 h2
          rcases IH2 ck cl cr cp ch ci h1 h2 with ⟨hids, hpair⟩
          have hci : ci ∈ idsMS r := by
            refine Multiset.mem_of_le hsub ?_
            rw [idsMS_node, h1, idsMS_node]
            exact Multiset.mem_cons_of_mem (Multiset.mem_add.mpr
              (Or.inl (Multiset.mem_cons_self _ _)))
          refine ⟨by rw [hids, hlift ci hci], ?_⟩
          exact Multiset.mem_cons_of_mem (Multiset.mem_add.mpr (Or.inr hpair))
        · intro ck cl cr cp ch ci h1 h2
          rcases IH3 ck cl cr cp ch ci h1 h2 with ⟨hids, hpair⟩
          have hci : ci ∈ idsMS r := by
            refine Multiset.mem_of_le hsub ?_
            rw [idsMS_node, h2, idsMS_node]
            exact Multiset.mem_cons_of_mem (Multiset.mem_add.mpr
              (Or.inr (Multiset.mem_cons_self _ _)))
          refine ⟨by rw [hids, hlift ci hci], ?_⟩
          exact Multiset.mem_cons_of_mem (Multiset.mem_add.mpr (Or.inr hpair))
        · intro h1 h2
          rcases IH4 h1 h2 with ⟨dd, hddtr, hddti, hids, mk2, hmk1, hmk2, hpair⟩
          have hdd : dd ∈ idsMS r := by
            refine Multiset.mem_of_le hsub ?_
            rw [idsMS_node]
            exact Multiset.mem_cons_of_mem (Multiset.mem_add.mpr (Or.inr hddtr))
          exact ⟨dd, hddtr, hddti, by rw [hids, hlift dd hdd], mk2, hmk1, hmk2,
            Multiset.mem_cons_of_mem (Multiset.mem_add.mpr (Or.inr hpair))⟩
      · -- the target is this node
        rw [show findSub ltInt (PT.node k l r p h i) key = PT.node k l r p h i by
          simp [findSub, hkl, hlk]] at hfind
        injection hfind with e1 e2 e3 e4 e5 e6
        subst e1 e2 e3 e4 e5 e6
        refine ⟨?_, ?_, ?_, ?_⟩
        · rintro rfl rfl
          have hins : deleteNode ltInt (PT.node k .nil .nil p h i) key sz = (.nil, sz - 1) := by
            rw [deleteNode.eq_def]
            simp [hkl, hlk]
          rw [hins]
          dsimp only
          rw [idsMS_node, idsMS_nil, Multiset.erase_cons_head]
          simp
        · rintro ck cl cr cp ch ci rfl rfl
          have hcl : cl = PT.nil := by
            simp only [realHeight_node, realHeight_nil] at hb1
            rw [← realHeight_eq_zero]
            omega
          have hcr : cr = PT.nil := by
            simp only [realHeight_node, realHeight_nil] at hb1
            rw [← realHeight_eq_zero]
            omega
          subst hcl hcr
          have hins : deleteNode ltInt
              (PT.node k (.node ck .nil .nil cp ch ci) .nil p h i) key sz =
              (delFix (.node ck .nil .nil p
                (1 + max (height (.nil : PT Int)) (height (.nil : PT Int))) i), sz - 1) := by
            rw [deleteNode.eq_def]
            simp [hkl, hlk]
          rw [hins]
          dsimp only
          rw [idsMS_delFix, pairsMS_delFix]
          have hine : i ≠ ci := by
            intro hc
            exact hiNot (Multiset.mem_add.mpr (Or.inl (by
              rw [hc, idsMS_node]
              exact Multiset.mem_cons_self _ _)))
          constructor
          · rw [idsMS_node, idsMS_node, idsMS_nil, idsMS_node, idsMS_nil,
              Multiset.erase_cons_tail _ hine]
            simp [Multiset.erase_cons_head]
          · rw [pairsMS_node]
            exact Multiset.mem_cons_self _ _
        · rintro ck cl cr cp ch ci rfl rfl
          have hcl : cl = PT.nil := by
            simp only [realHeight_node, realHeight_nil] at hb2
            rw [← realHeight_eq_zero]
            omega
          have hcr : cr = PT.nil := by
            simp only [realHeight_node, realHeight_nil] at hb2
            rw [← realHeight_eq_zero]
            omega
          subst hcl hcr
          have hins : deleteNode ltInt
              (PT.node k .nil (.node ck .nil .nil cp ch ci) p h i) key sz =
              (delFix (.node ck .nil .nil p
                (1 + max (height (.nil : PT Int)) (height (.nil : PT Int))) i), sz - 1) := by
            rw [deleteNode.eq_def]
            simp [hkl, hlk]
          rw [hins]
          dsimp only
          rw [idsMS_delFix, pairsMS_delFix]
          have hine : i ≠ ci := by
            intro hc
            exact hiNot (Multiset.mem_add.mpr (Or.inr (by
              rw [hc, idsMS_node]
              exact Multiset.mem_cons_self _ _)))
          constructor
          · rw [idsMS_node, idsMS_node, idsMS_nil, idsMS_node, idsMS_nil,
              Multiset.erase_cons_tail _ hine]
            simp [Multiset.erase_cons_head]
          · rw [pairsMS_node]
            exact Multiset.mem_cons_self _ _
        · intro h1 h2
          cases l with
          | nil => exact absurd rfl h1
          | node lk2 ll2 lr2 lp2 lh2 li2 =>
            cases r with
            | nil => exact absurd rfl h2
            | node rk2 rl2 rr2 rp2 rh2 ri2 =>
              have hfr := findSub_min rk2 (.node rk2 rl2 rr2 rp2 rh2 ri2) bstr
              obtain ⟨mk3, mr3, mp3, mh3, mi3, hshape⟩ :=
                minValueNode_shape (.node rk2 rl2 rr2 rp2 rh2 ri2) (by simp)
              have hmk : rootKeyOr rk2 (minValueNode (.node rk2 rl2 rr2 rp2 rh2 ri2)) = mk3 := by
                rw [hshape, rootKeyOr]
              rw [hmk, hshape] at hfr
              rcases e : deleteNode ltInt (.node rk2 rl2 rr2 rp2 rh2 ri2) mk3 sz with ⟨r', s'⟩
              have IH := ihr mk3 sz hhr hbr bstr hnr mk3 PT.nil mr3 mp3 mh3 mi3 hfr
              rw [e] at IH
              dsimp only at IH
              have hins : deleteNode ltInt
                  (PT.node k (.node lk2 ll2 lr2 lp2 lh2 li2) (.node rk2 rl2 rr2 rp2 rh2 ri2) p h i) key sz =
                  (delFix (.node mk3
                    (.node lk2 ll2 lr2 lp2 lh2 li2) r' p
                    (1 + max (height (.node lk2 ll2 lr2 lp2 lh2 li2)) (height r')) i), s') := by
                rw [deleteNode.eq_def]
                simp [hkl, hlk, hmk, e]
              rw [hins]
              dsimp only
              rw [idsMS_delFix, pairsMS_delFix]
              have hmle : idsMS (PT.node mk3 .nil mr3 mp3 mh3 mi3) ≤
                  idsMS (PT.node rk2 rl2 rr2 rp2 rh2 ri2) := by
                rw [← hshape]
                exact minValueNode_ids_le _
              have hmmem := rootKeyOr_minValueNode_mem rk2 (.node rk2 rl2 rr2 rp2 rh2 ri2)
                (by simp)
              have hmmin := minValueNode_min rk2 (.node rk2 rl2 rr2 rp2 rh2 ri2) bstr
              rw [hmk] at hmmem hmmin
              have hpairgoal : (i, mk3) ∈
                  (i, mk3) ::ₘ
                    (pairsMS (PT.node lk2 ll2 lr2 lp2 lh2 li2) + pairsMS r') :=
                Multiset.mem_cons_self _ _
              have hlift : ∀ dd, dd ∈ idsMS (PT.node rk2 rl2 rr2 rp2 rh2 ri2) →
                  (idsMS (PT.node k (.node lk2 ll2 lr2 lp2 lh2 li2)
                    (.node rk2 rl2 rr2 rp2 rh2 ri2) p h i)).erase dd =
                  i ::ₘ (idsMS (PT.node lk2 ll2 lr2 lp2 lh2 li2) +
                    (idsMS (PT.node rk2 rl2 rr2 rp2 rh2 ri2)).erase dd) := by
                intro dd hddr
                have hddi : i ≠ dd := fun hc =>
                  hiNot (Multiset.mem_add.mpr (Or.inr (hc ▸ hddr)))
                rw [idsMS_node, Multiset.erase_cons_tail _ hddi,
                  Multiset.erase_add_right_pos _ hddr]
              cases mr3 with
              | nil =>
                have hids := IH.1 rfl rfl
                have hmi : mi3 ∈ idsMS (PT.node rk2 rl2 rr2 rp2 rh2 ri2) :=
                  Multiset.mem_of_le hmle (by rw [idsMS_node]; exact Multiset.mem_cons_self _ _)
                have hmi_ne : mi3 ≠ i := by
                  intro hc
                  exact hiNot (Multiset.mem_add.mpr (Or.inr (hc ▸ hmi)))
                refine ⟨mi3, hmi, hmi_ne, ?_, ?_⟩
                · rw [idsMS_node, hids, hlift mi3 hmi]
                · exact ⟨_, hmmem, hmmin, hpairgoal⟩
              | node mrk mrl mrr mrp mrh mri =>
                rcases IH.2.2.1 mrk mrl mrr mrp mrh mri rfl rfl with ⟨hids, hpair⟩
                have hmri : mri ∈ idsMS (PT.node rk2 rl2 rr2 rp2 rh2 ri2) := by
                  refine Multiset.mem_of_le hmle ?_
                  rw [idsMS_node, idsMS_node]
                  exact Multiset.mem_cons_of_mem (Multiset.mem_add.mpr
                    (Or.inr (Multiset.mem_cons_self _ _)))
                have hmri_ne : mri ≠ i := by
                  intro hc
                  exact hiNot (Multiset.mem_add.mpr (Or.inr (hc ▸ hmri)))
                refine ⟨mri, hmri, hmri_ne, ?_, ?_⟩
                · rw [idsMS_node, hids, hlift mri hmri]
                · exact ⟨_, hmmem, hmmin, hpairgoal⟩

end AVL

namespace AVL

/-- C8 (amended): which node object `erase` destroys.  In the leaf case the
found node itself disappears.  In the one-child case — contrary to the claim
as stated — the child's key is copied into the node that held the erased key
and the CHILD object is the one destroyed: the erased-key node's identity is
preserved, now carrying the child's key.  In the two-child case a physically
different node from the right subtree is destroyed after the right subtree's
minimum key is copied into the target. -/
theorem c8_erase_destroyed_node (s : AVLTreeSt Int) (key : Int)
    (hre : Reachable ltInt s)
    (tk : Int) (tl tr : PT Int) (tp : Option Nat) (th ti : Nat)
    (hfind : findSub ltInt s.root key = .node tk tl tr tp th ti) :
    (tl = PT.nil → tr = PT.nil →
        idsMS (eraseTree ltInt s key).root = (idsMS s.root).erase ti) ∧
    (∀ ck cl cr cp ch ci, tl = PT.node ck cl cr cp ch ci → tr = PT.nil →
        idsMS (eraseTree ltInt s key).root = (idsMS s.root).erase ci ∧
        (ti, ck) ∈ pairsMS (eraseTree ltInt s key).root) ∧
    (∀ ck cl cr cp ch ci, tl = PT.nil → tr = PT.node ck cl cr cp ch ci →
        idsMS (eraseTree ltInt s key).root = (idsMS s.root).erase ci ∧
        (ti, ck) ∈ pairsMS (eraseTree ltInt s key).root) ∧
    (tl ≠ PT.nil → tr ≠ PT.nil →
        ∃ dd, dd ∈ idsMS tr ∧ dd ≠ ti ∧
          idsMS (eraseTree ltInt s key).root = (idsMS s.root).erase dd ∧
          ∃ mk2, mk2 ∈ inorder tr ∧ (∀ y ∈ inorder tr, mk2 ≤ y) ∧
            (ti, mk2) ∈ pairsMS (eraseTree ltInt s key).root) := by
  obtain ⟨ihH, ihB, _, _, ihN, _⟩ := reachable_inv asymm_ltInt hre
  have hbst := reachable_BST hre
  have h := delete_target s.root key s.tree_size ihH ihB hbst ihN
    tk tl tr tp th ti hfind
  rcases e : deleteNode ltInt s.root key s.tree_size with ⟨t', n'⟩
  rw [e] at h
  dsimp only at h
  have he : eraseTree ltInt s key = ⟨t', n', s.fresh⟩ := by
    rw [eraseTree, e]
  rw [he]
  exact h

/-- C8 witness: in the concrete state built by `insert 2; insert 1`, erasing
the one-child key `2` leaves the multiset of node ids with the child id `1`
removed, and the target node id `0` now carries the child's key `1`. -/
theorem c8_erase_destroyed_node_witness :
    idsMS (eraseTree ltInt (insertTree ltInt (insertTree ltInt emptyTree 2) 1) 2).root =
      (idsMS (insertTree ltInt (insertTree ltInt emptyTree 2) 1).root).erase 1 ∧
    (0, (1 : Int)) ∈
      pairsMS (eraseTree ltInt (insertTree ltInt (insertTree ltInt emptyTree 2) 1) 2).root := by
  have h := c8_erase_destroyed_node (insertTree ltInt (insertTree ltInt emptyTree 2) 1) 2
    (Reachable.ins 1 (Reachable.ins 2 Reachable.empty))
    2 (PT.node 1 .nil .nil (some 0) 1 1) .nil none 2 0 (by decide)
  exact h.2.1 1 .nil .nil (some 0) 1 1 rfl rfl

/-- C8 counterexample to the claim as stated: after `insert 2; insert 1` the
node holding key `2` (allocation id `0`) has exactly one child (id `1`);
`erase 2` destroys the CHILD object — id `1` is gone from the tree while the
erased-key node id `0` survives, holding key `1`.  The claim asserts the
opposite identities. -/
theorem c8_counterexample :
    findSub ltInt (insertTree ltInt (insertTree ltInt emptyTree 2) 1).root 2 =
      PT.node 2 (PT.node 1 .nil .nil (some 0) 1 1) .nil none 2 0 ∧
    0 ∈ idsMS (eraseTree ltInt (insertTree ltInt (insertTree ltInt emptyTree 2) 1) 2).root ∧
    1 ∉ idsMS (eraseTree ltInt (insertTree ltInt (insertTree ltInt emptyTree 2) 1) 2).root := by
  refine ⟨by decide, by decide, by decide⟩

end AVL

namespace AVL

/-! ### Iterators: `begin`, `operator++`, `operator--` over the node graph

A C++ iterator holds a `Node*`; in the embedding a cursor is the allocation
id of the current node (`none` = null = the end position).  The pointer
dereferences `current->right`, `current->parent`, … become lookups of the
node with a given id inside the tree, and the parent-chain `while` loops
become fuel-bounded recursions (fuel `countNodes t + 1` always suffices
under the parent-consistency invariant). -/

/-- The subtree of `t` rooted at the node whose allocation id is `j`
(depth-first search; under `NodupIds` the result is unique).  This is the
embedding's way to dereference a `Node*` held by an iterator. -/
def lookupId : PT α → Nat → Option (PT α)
  | .nil, _ => none
  | .node k l r p h i, j =>
    if i = j then some (.node k l r p h i)
    else
      match lookupId l j with
      | some n => some n
      | none => lookupId r j

/-- `iterator::minimum`: `while (node && node->left) node = node->left;`.
The same walk is performed inline by `begin()`. -/
def iterMinimum : PT α → PT α
  | .nil => .nil
  | .node k .nil r p h i => .node k .nil r p h i
  | .node _ (.node lk ll lr lp lh li) _ _ _ _ => iterMinimum (.node lk ll lr lp lh li)

/-- The `while (current->right) current = current->right;` walk of
`operator--` (both in the end-position branch and the left-child branch). -/
def rightmostN : PT α → PT α
  | .nil => .nil
  | .node k l .nil p h i => .node k l .nil p h i
  | .node _ _ (.node rk rl rr rp rh ri) _ _ _ => rightmostN (.node rk rl rr rp rh ri)

/-- `AVLTree::begin()`: `current = root; if (current) while (current->left)
current = current->left;` — the cursor of the leftmost node (or end). -/
def beginPtr (t : PT α) : Option Nat := rootId? (iterMinimum t)

/-- The parent walk of `operator++`:
`Node* p = current->parent; while (p && current == p->right) { current = p;
p = p->parent; } current = p;` — `cur` is the current node's id and the
third argument is its parent pointer.  The outer `none` means the fuel ran
out or a parent pointer dangled (impossible under the invariants); the
inner option is the resulting cursor. -/
def walkUpR (t : PT α) : Nat → Nat → Option Nat → Option (Option Nat)
  | 0, _, _ => none
  | _ + 1, _, none => some none
  | fuel + 1, cur, some pid =>
    match lookupId t pid with
    | none => none
    | some .nil => none
    | some (.node _ _ pr pp _ _) =>
      if rootId? pr = some cur then walkUpR t fuel pid pp
      else some (some pid)

/-- The parent walk of `operator--` (`while (p && current == p->left)`). -/
def walkUpL (t : PT α) : Nat → Nat → Option Nat → Option (Option Nat)
  | 0, _, _ => none
  | _ + 1, _, none => some none
  | fuel + 1, cur, some pid =>
    match lookupId t pid with
    | none => none
    | some .nil => none
    | some (.node _ pl _ pp _ _) =>
      if rootId? pl = some cur then walkUpL t fuel pid pp
      else some (some pid)

/-- `iterator::operator++`: on the end cursor it is the identity; otherwise
go to the minimum of the right subtree if there is one, else walk up while
coming from a right child. -/
def iterNext (t : PT α) : Option Nat → Option (Option Nat)
  | none => some none
  | some cur =>
    match lookupId t cur with
    | none => none
    | some .nil => none
    | some (.node _ _ r p _ _) =>
      match r with
      | .node rk rl rr rp rh ri =>
          some (rootId? (iterMinimum (.node rk rl rr rp rh ri)))
      | .nil => walkUpR t (countNodes t + 1) cur p

/-- `iterator::operator--`: from the end cursor go to the rightmost node of
the whole tree (staying at end when the tree is empty); otherwise go to the
rightmost node of the left subtree if there is one, else walk up while
coming from a left child. -/
def iterPrev (t : PT α) : Option Nat → Option (Option Nat)
  | none =>
    match t with
    | .nil => some none
    | .node k l r p h i => some (rootId? (rightmostN (.node k l r p h i)))
  | some cur =>
    match lookupId t cur with
    | none => none
    | some .nil => none
    | some (.node _ l _ p _ _) =>
      match l with
      | .node lk ll lr lp lh li =>
          some (rootId? (rightmostN (.node lk ll lr lp lh li)))
      | .nil => walkUpL t (countNodes t + 1) cur p

/-- Forward traversal: emit the current key, advance with `operator++`,
repeat; the end cursor yields `[]`.  `none` = a step failed (fuel or a
dangling pointer), which the theorems rule out. -/
def travF (t : PT α) : Nat → Option Nat → Option (List α)
  | _, none => some []
  | 0, some _ => none
  | fuel + 1, some cur =>
    match lookupId t cur with
    | none => none
    | some .nil => none
    | some (.node k _ _ _ _ _) =>
      match iterNext t (some cur) with
      | none => none
      | some it2 => (travF t fuel it2).map (fun xs => k :: xs)

/-- Backward traversal: retreat with `operator--`, emit the key landed on,
repeat `fuel` times (the caller passes the exact number of stored keys). -/
def travB (t : PT α) : Nat → Option Nat → Option (List α)
  | 0, _ => some []
  | fuel + 1, it =>
    match iterPrev t it with
    | none => none
    | some none => none
    | some (some cur) =>
      match lookupId t cur with
      | none => none
      | some .nil => none
      | some (.node k _ _ _ _ _) =>
        (travB t fuel (some cur)).map (fun xs => k :: xs)

/-! ### A zipper on `PT`: contexts describing where a cursor sits -/

/-- One step of context: the focused subtree is the left (`fromL`) or right
(`fromR`) child of a node with the recorded other child and fields. -/
inductive Crumb (α : Type) where
  | fromL (k : α) (r : PT α) (p : Option Nat) (h : Nat) (i : Nat)
  | fromR (k : α) (l : PT α) (p : Option Nat) (h : Nat) (i : Nat)

/-- Rebuild one level around the focus. -/
def plugStep (t : PT α) : Crumb α → PT α
  | .fromL k r p h i => .node k t r p h i
  | .fromR k l p h i => .node k l t p h i

/-- Rebuild the whole tree from focus and context (innermost crumb first). -/
def plug : PT α → List (Crumb α) → PT α
  | t, [] => t
  | t, c :: cs => plug (plugStep t c) cs

/-- Allocation id of a crumb's node. -/
def crumbId : Crumb α → Nat
  | .fromL _ _ _ _ i => i
  | .fromR _ _ _ _ i => i

/-- Keys that an in-order traversal visits after the focused subtree. -/
def afterC : List (Crumb α) → List α
  | [] => []
  | .fromL k r _ _ _ :: cs => k :: inorder r ++ afterC cs
  | .fromR _ _ _ _ _ :: cs => afterC cs

/-- Keys that an in-order traversal visits before the focused subtree. -/
def beforeC : List (Crumb α) → List α
  | [] => []
  | .fromL _ _ _ _ _ :: cs => beforeC cs
  | .fromR k l _ _ _ :: cs => beforeC cs ++ inorder l ++ [k]

/-- The focus's parent field names the innermost crumb's node, and so on up
the context (the root's parent is null). -/
def ChainOk : PT α → List (Crumb α) → Prop
  | t, [] => parentF t = none
  | t, c :: cs => parentF t = some (crumbId c) ∧ ChainOk (plugStep t c) cs

/-- The crumb's other subtree has correct parent fields, hanging off the
crumb's node. -/
def CrumbOk : Crumb α → Prop
  | .fromL _ r _ _ i => ParentOk (some i) r
  | .fromR _ l _ _ i => ParentOk (some i) l

/-- A valid cursor decomposition of `T`: the context rebuilds `T`, the
parent chain is consistent, and parent fields are correct inside the focus
and the crumbs' side subtrees. -/
def Desc (T t : PT α) (cs : List (Crumb α)) : Prop :=
  plug t cs = T ∧ ChainOk t cs ∧ ParentOk (parentF t) t ∧ ∀ c ∈ cs, CrumbOk c

/-- Occurrence of `s` as a subtree of the second argument. -/
inductive Subtree (s : PT α) : PT α → Prop where
  | refl : Subtree s s
  | inL (k : α) (l r : PT α) (p : Option Nat) (h i : Nat) :
      Subtree s l → Subtree s (.node k l r p h i)
  | inR (k : α) (l r : PT α) (p : Option Nat) (h i : Nat) :
      Subtree s r → Subtree s (.node k l r p h i)

end AVL

namespace AVL

theorem subtree_trans {a b c : PT α} (h1 : Subtree a b) (h2 : Subtree b c) :
    Subtree a c := by
  induction h2 with
  | refl => exact h1
  | inL k l r p h i _ ih => exact .inL k l r p h i ih
  | inR k l r p h i _ ih => exact .inR k l r p h i ih

theorem subtree_ids_le {s t : PT α} (hs : Subtree s t) : idsMS s ≤ idsMS t := by
  induction hs with
  | refl => exact le_refl _
  | inL k l r p h i _ ih =>
    refine le_trans ih ?_
    rw [idsMS]
    exact le_trans (Multiset.le_add_right (idsMS l) (idsMS r)) (Multiset.le_cons_self _ _)
  | inR k l r p h i _ ih =>
    refine le_trans ih ?_
    rw [idsMS]
    exact le_trans (Multiset.le_add_left (idsMS r) (idsMS l)) (Multiset.le_cons_self _ _)

theorem subtree_plugStep (t : PT α) (c : Crumb α) : Subtree t (plugStep t c) := by
  cases c with
  | fromL k r p h i => exact .inL k t r p h i .refl
  | fromR k l p h i => exact .inR k l t p h i .refl

theorem subtree_plug (t : PT α) : ∀ cs, Subtree t (plug t cs) := by
  intro cs
  induction cs generalizing t with
  | nil => exact .refl
  | cons c cs ih =>
    exact subtree_trans (subtree_plugStep t c) (ih (plugStep t c))

theorem idsMS_plug_le (t : PT α) (cs : List (Crumb α)) :
    idsMS t ≤ idsMS (plug t cs) :=
  subtree_ids_le (subtree_plug t cs)

theorem countNodes_plug_ge (t : PT α) :
    ∀ cs, countNodes t + cs.length ≤ countNodes (plug t cs) := by
  intro cs
  induction cs generalizing t with
  | nil => simp [plug]
  | cons c cs ih =>
    have h1 : countNodes t + 1 ≤ countNodes (plugStep t c) := by
      cases c <;> simp [plugStep, countNodes] <;> omega
    have h2 := ih (plugStep t c)
    simp only [plug, List.length_cons]
    omega

theorem inorder_plugStep (t : PT α) (c : Crumb α) :
    inorder (plugStep t c) =
      (match c with
       | .fromL k r _ _ _ => inorder t ++ k :: inorder r
       | .fromR k l _ _ _ => inorder l ++ k :: inorder t) := by
  cases c <;> rfl

theorem inorder_plug (t : PT α) :
    ∀ cs, inorder (plug t cs) = beforeC cs ++ inorder t ++ afterC cs := by
  intro cs
  induction cs generalizing t with
  | nil => simp [plug, beforeC, afterC]
  | cons c cs ih =>
    rw [plug, ih (plugStep t c)]
    cases c with
    | fromL k r p h i => simp [plugStep, inorder, beforeC, afterC]
    | fromR k l p h i => simp [plugStep, inorder, beforeC, afterC]

theorem rootId?_mem {t : PT α} {j : Nat} (h : rootId? t = some j) : j ∈ idsMS t := by
  cases t with
  | nil => exact absurd h (by simp [rootId?])
  | node k l r p hh i =>
    rw [rootId?] at h
    injection h with h
    rw [idsMS, h]
    exact Multiset.mem_cons_self _ _

theorem lookupId_not_mem (t : PT α) : ∀ j, j ∉ idsMS t → lookupId t j = none := by
  induction t with
  | nil => intro j _; rfl
  | node k l r p h i ihl ihr =>
    intro j hj
    rw [idsMS] at hj
    have h1 : i ≠ j := fun hc => hj (hc ▸ Multiset.mem_cons_self _ _)
    have h2 : j ∉ idsMS l := fun hc =>
      hj (Multiset.mem_cons_of_mem (Multiset.mem_add.mpr (Or.inl hc)))
    have h3 : j ∉ idsMS r := fun hc =>
      hj (Multiset.mem_cons_of_mem (Multiset.mem_add.mpr (Or.inr hc)))
    rw [lookupId, if_neg h1, ihl j h2, ihr j h3]

theorem lookupId_subtree (T : PT α) :
    ∀ k l r p h i, NodupIds T → Subtree (.node k l r p h i) T →
      lookupId T i = some (.node k l r p h i) := by
  induction T with
  | nil =>
    intro k l r p h i _ hsub
    cases hsub
  | node K L R P H I ihl ihr =>
    intro k l r p h i hnd hsub
    have hnd2 := hnd
    rw [NodupIds, idsMS, Multiset.nodup_cons, Multiset.nodup_add] at hnd2
    rcases hnd2 with ⟨hInot, hnl, hnr, hdisj⟩
    cases hsub with
    | refl => rw [lookupId, if_pos rfl]
    | inL _ _ _ _ _ _ hs =>
      have hmem : i ∈ idsMS L :=
        Multiset.mem_of_le (subtree_ids_le hs) (by rw [idsMS]; exact Multiset.mem_cons_self _ _)
      have hne : I ≠ i := fun hc =>
        hInot (Multiset.mem_add.mpr (Or.inl (hc ▸ hmem)))
      rw [lookupId, if_neg hne, ihl k l r p h i hnl hs]
    | inR _ _ _ _ _ _ hs =>
      have hmem : i ∈ idsMS R :=
        Multiset.mem_of_le (subtree_ids_le hs) (by rw [idsMS]; exact Multiset.mem_cons_self _ _)
      have hne : I ≠ i := fun hc =>
        hInot (Multiset.mem_add.mpr (Or.inr (hc ▸ hmem)))
      have hnotL : i ∉ idsMS L := fun hc => Multiset.disjoint_left.mp hdisj hc hmem
      rw [lookupId, if_neg hne, lookupId_not_mem L i hnotL, ihr k l r p h i hnr hs]

theorem parentF_of_ParentOk {po : Option Nat} {t : PT α} (hp : ParentOk po t)
    (hne : t ≠ .nil) : parentF t = po := by
  cases t with
  | nil => exact absurd rfl hne
  | node k l r p h i => exact hp.1

end AVL

namespace AVL

theorem desc_init {T : PT α} (hp : ParentOk none T) : Desc T T [] := by
  have hpf : parentF T = none := by
    cases T with
    | nil => rfl
    | node k l r p h i => exact hp.1
  exact ⟨rfl, hpf, hpf ▸ hp, by intro c hc; cases hc⟩

theorem desc_left {T : PT α} {k : α} {l r : PT α} {p : Option Nat} {h i : Nat}
    {cs : List (Crumb α)} (hd : Desc T (.node k l r p h i) cs) (hne : l ≠ .nil) :
    Desc T l (.fromL k r p h i :: cs) := by
  rcases hd with ⟨hplug, hchain, hpok, hcr⟩
  rcases hpok with ⟨_, hpl, hpr⟩
  have hpf : parentF l = some i := parentF_of_ParentOk hpl hne
  refine ⟨hplug, ⟨hpf, ?_⟩, hpf ▸ hpl, ?_⟩
  · exact hchain
  · intro c hc
    rcases List.mem_cons.mp hc with hc | hc
    · rw [hc]; exact hpr
    · exact hcr c hc

theorem desc_right {T : PT α} {k : α} {l r : PT α} {p : Option Nat} {h i : Nat}
    {cs : List (Crumb α)} (hd : Desc T (.node k l r p h i) cs) (hne : r ≠ .nil) :
    Desc T r (.fromR k l p h i :: cs) := by
  rcases hd with ⟨hplug, hchain, hpok, hcr⟩
  rcases hpok with ⟨_, hpl, hpr⟩
  have hpf : parentF r = some i := parentF_of_ParentOk hpr hne
  refine ⟨hplug, ⟨hpf, ?_⟩, hpf ▸ hpr, ?_⟩
  · exact hchain
  · intro c hc
    rcases List.mem_cons.mp hc with hc | hc
    · rw [hc]; exact hpl
    · exact hcr c hc

theorem desc_asc {T t : PT α} {c : Crumb α} {cs : List (Crumb α)}
    (hd : Desc T t (c :: cs)) (hne : t ≠ .nil) : Desc T (plugStep t c) cs := by
  rcases hd with ⟨hplug, ⟨hpf, hchain⟩, hpok, hcr⟩
  have hpokt : ParentOk (some (crumbId c)) t := by rw [← hpf]; exact hpok
  refine ⟨hplug, hchain, ?_, fun c2 hc2 => hcr c2 (List.mem_cons_of_mem c hc2)⟩
  cases c with
  | fromL k r p h i =>
    exact ⟨rfl, hpokt, hcr _ (List.mem_cons_self _ _)⟩
  | fromR k l p h i =>
    exact ⟨rfl, hcr _ (List.mem_cons_self _ _), hpokt⟩

theorem toLeftmost {T : PT α} (t : PT α) :
    ∀ cs, Desc T t cs → t ≠ .nil →
      ∃ k0 r0 p0 h0 i0 cs2, iterMinimum t = .node k0 .nil r0 p0 h0 i0 ∧
        Desc T (.node k0 .nil r0 p0 h0 i0) cs2 ∧
        inorder t ++ afterC cs = k0 :: inorder r0 ++ afterC cs2 ∧
        beforeC cs2 = beforeC cs := by
  induction t with
  | nil => intro cs _ hne; exact absurd rfl hne
  | node k l r p h i ihl ihr =>
    intro cs hd _
    cases l with
    | nil =>
      exact ⟨k, r, p, h, i, cs, rfl, hd, by simp [inorder], rfl⟩
    | node lk ll lr lp lh li =>
      have hd2 := desc_left hd (by simp)
      obtain ⟨k0, r0, p0, h0, i0, cs2, hmin, hdesc, hseq, hbef⟩ :=
        ihl (.fromL k r p h i :: cs) hd2 (by simp)
      refine ⟨k0, r0, p0, h0, i0, cs2, ?_, hdesc, ?_, ?_⟩
      · rw [iterMinimum]; exact hmin
      · rw [show inorder (PT.node k (.node lk ll lr lp lh li) r p h i) =
          inorder (PT.node lk ll lr lp lh li) ++ (k :: inorder r) from rfl]
        rw [show afterC (Crumb.fromL k r p h i :: cs) = k :: inorder r ++ afterC cs
          from rfl] at hseq
        simp only [List.append_assoc]
        rw [← hseq]
      · rw [hbef]; rfl

theorem toRightmost {T : PT α} (t : PT α) :
    ∀ cs, Desc T t cs → t ≠ .nil →
      ∃ kn ln pn hn iN cs2, rightmostN t = .node kn ln .nil pn hn iN ∧
        Desc T (.node kn ln .nil pn hn iN) cs2 ∧
        beforeC cs ++ inorder t = beforeC cs2 ++ inorder ln ++ [kn] ∧
        afterC cs2 = afterC cs := by
  induction t with
  | nil => intro cs _ hne; exact absurd rfl hne
  | node k l r p h i ihl ihr =>
    intro cs hd _
    cases r with
    | nil =>
      exact ⟨k, l, p, h, i, cs, rfl, hd, by simp [inorder], rfl⟩
    | node rk rl rr rp rh ri =>
      have hd2 := desc_right hd (by simp)
      obtain ⟨kn, ln, pn, hn, iN, cs2, hmax, hdesc, hseq, haft⟩ :=
        ihr (.fromR k l p h i :: cs) hd2 (by simp)
      refine ⟨kn, ln, pn, hn, iN, cs2, ?_, hdesc, ?_, ?_⟩
      · rw [rightmostN]; exact hmax
      · rw [show inorder (PT.node k l (.node rk rl rr rp rh ri) p h i) =
          inorder l ++ k :: inorder (PT.node rk rl rr rp rh ri) from rfl]
        rw [show beforeC (Crumb.fromR k l p h i :: cs) = beforeC cs ++ inorder l ++ [k]
          from rfl] at hseq
        simp only [List.append_assoc] at hseq ⊢
        rw [← hseq]
        simp
      · rw [haft]; rfl

end AVL

namespace AVL

theorem walkUpR_none_eq (T : PT α) (fuel cur : Nat) :
    walkUpR T (fuel + 1) cur none = some none := rfl

theorem walkUpR_step (T : PT α) (fuel cur pid : Nat) :
    walkUpR T (fuel + 1) cur (some pid) =
      (match lookupId T pid with
       | none => none
       | some .nil => none
       | some (.node _ _ pr pp _ _) =>
         if rootId? pr = some cur then walkUpR T fuel pid pp
         else some (some pid)) := rfl

theorem walkUpL_none_eq (T : PT α) (fuel cur : Nat) :
    walkUpL T (fuel + 1) cur none = some none := rfl

theorem walkUpL_step (T : PT α) (fuel cur pid : Nat) :
    walkUpL T (fuel + 1) cur (some pid) =
      (match lookupId T pid with
       | none => none
       | some .nil => none
       | some (.node _ pl _ pp _ _) =>
         if rootId? pl = some cur then walkUpL T fuel pid pp
         else some (some pid)) := rfl

/-- Effect of the `operator++` parent walk: starting at the focus of a valid
cursor decomposition, either every ancestor is entered from the right and
the walk ends at the end cursor (exactly when nothing remains to the right
of the focus), or it stops at the first ancestor entered from the left,
which carries the next key. -/
theorem popUpR {T : PT α} (hnd : NodupIds T) :
    ∀ (cs : List (Crumb α)) (fuel : Nat) (t : PT α) (k : α) (l r : PT α)
      (p : Option Nat) (h i : Nat),
      Desc T t cs → t = .node k l r p h i → cs.length < fuel →
      (walkUpR T fuel i p = some none ∧ afterC cs = []) ∨
      (∃ k1 X r1 p1 h1 i1 cs2, walkUpR T fuel i p = some (some i1) ∧
        Desc T (.node k1 X r1 p1 h1 i1) cs2 ∧
        afterC cs = k1 :: inorder r1 ++ afterC cs2) := by
  intro cs
  induction cs with
  | nil =>
    intro fuel t k l r p h i hd ht hfuel
    subst ht
    have hpf : p = none := hd.2.1
    cases fuel with
    | zero => omega
    | succ f =>
      rw [hpf, walkUpR_none_eq]
      exact Or.inl ⟨rfl, rfl⟩
  | cons c cs ih =>
    intro fuel t k l r p h i hd ht hfuel
    subst ht
    have hpf : p = some (crumbId c) := hd.2.1.1
    have hd2 := desc_asc hd (by simp)
    have hsub : Subtree (plugStep (PT.node k l r p h i) c) T :=
      hd2.1 ▸ subtree_plug (plugStep (PT.node k l r p h i) c) cs
    cases fuel with
    | zero => omega
    | succ f =>
      rw [hpf, walkUpR_step]
      cases c with
      | fromL k1 r1 p1 h1 i1 =>
        have hlook : lookupId T i1 = some (.node k1 (PT.node k l r p h i) r1 p1 h1 i1) :=
          lookupId_subtree T k1 (PT.node k l r p h i) r1 p1 h1 i1 hnd hsub
        rw [show crumbId (Crumb.fromL k1 r1 p1 h1 i1 : Crumb α) = i1 from rfl, hlook]
        dsimp only
        have hndsub : NodupIds (PT.node k1 (PT.node k l r p h i) r1 p1 h1 i1) :=
          Multiset.nodup_of_le (subtree_ids_le hsub) hnd
        rw [NodupIds, idsMS, Multiset.nodup_cons, Multiset.nodup_add] at hndsub
        have hne : rootId? r1 ≠ some i := by
          intro hc
          have hir1 : i ∈ idsMS r1 := rootId?_mem hc
          have hit : i ∈ idsMS (PT.node k l r p h i) := by
            rw [idsMS]; exact Multiset.mem_cons_self _ _
          exact Multiset.disjoint_left.mp hndsub.2.2.2 hit hir1
        rw [if_neg hne]
        exact Or.inr ⟨k1, PT.node k l r p h i, r1, p1, h1, i1, cs, rfl, hd2, rfl⟩
      | fromR k1 l1 p1 h1 i1 =>
        have hlook : lookupId T i1 = some (.node k1 l1 (PT.node k l r p h i) p1 h1 i1) :=
          lookupId_subtree T k1 l1 (PT.node k l r p h i) p1 h1 i1 hnd hsub
        rw [show crumbId (Crumb.fromR k1 l1 p1 h1 i1 : Crumb α) = i1 from rfl, hlook]
        dsimp only
        rw [if_pos (show rootId? (PT.node k l r p h i) = some i from rfl)]
        have hres := ih f (plugStep (PT.node k l r p h i) (.fromR k1 l1 p1 h1 i1))
          k1 l1 (PT.node k l r p h i) p1 h1 i1 hd2 rfl (by
            simp only [List.length_cons] at hfuel; omega)
        rcases hres with ⟨hw, ha⟩ | ⟨k2, X2, r2, p2, h2, i2, cs2, hw, hdd, ha⟩
        · exact Or.inl ⟨hw, ha⟩
        · exact Or.inr ⟨k2, X2, r2, p2, h2, i2, cs2, hw, hdd, ha⟩

/-- Effect of the `operator--` parent walk, symmetric to `popUpR`. -/
theorem popUpL {T : PT α} (hnd : NodupIds T) :
    ∀ (cs : List (Crumb α)) (fuel : Nat) (t : PT α) (k : α) (l r : PT α)
      (p : Option Nat) (h i : Nat),
      Desc T t cs → t = .node k l r p h i → cs.length < fuel →
      (walkUpL T fuel i p = some none ∧ beforeC cs = []) ∨
      (∃ k1 l1 X p1 h1 i1 cs2, walkUpL T fuel i p = some (some i1) ∧
        Desc T (.node k1 l1 X p1 h1 i1) cs2 ∧
        beforeC cs = beforeC cs2 ++ inorder l1 ++ [k1]) := by
  intro cs
  induction cs with
  | nil =>
    intro fuel t k l r p h i hd ht hfuel
    subst ht
    have hpf : p = none := hd.2.1
    cases fuel with
    | zero => omega
    | succ f =>
      rw [hpf, walkUpL_none_eq]
      exact Or.inl ⟨rfl, rfl⟩
  | cons c cs ih =>
    intro fuel t k l r p h i hd ht hfuel
    subst ht
    have hpf : p = some (crumbId c) := hd.2.1.1
    have hd2 := desc_asc hd (by simp)
    have hsub : Subtree (plugStep (PT.node k l r p h i) c) T :=
      hd2.1 ▸ subtree_plug (plugStep (PT.node k l r p h i) c) cs
    cases fuel with
    | zero => omega
    | succ f =>
      rw [hpf, walkUpL_step]
      cases c with
      | fromR k1 l1 p1 h1 i1 =>
        have hlook : lookupId T i1 = some (.node k1 l1 (PT.node k l r p h i) p1 h1 i1) :=
          lookupId_subtree T k1 l1 (PT.node k l r p h i) p1 h1 i1 hnd hsub
        rw [show crumbId (Crumb.fromR k1 l1 p1 h1 i1 : Crumb α) = i1 from rfl, hlook]
        dsimp only
        have hndsub : NodupIds (PT.node k1 l1 (PT.node k l r p h i) p1 h1 i1) :=
          Multiset.nodup_of_le (subtree_ids_le hsub) hnd
        rw [NodupIds, idsMS, Multiset.nodup_cons, Multiset.nodup_add] at hndsub
        have hne : rootId? l1 ≠ some i := by
          intro hc
          have hil1 : i ∈ idsMS l1 := rootId?_mem hc
          have hit : i ∈ idsMS (PT.node k l r p h i) := by
            rw [idsMS]; exact Multiset.mem_cons_self _ _
          exact Multiset.disjoint_left.mp hndsub.2.2.2 hil1 hit |>.elim
        rw [if_neg hne]
        exact Or.inr ⟨k1, l1, PT.node k l r p h i, p1, h1, i1, cs, rfl, hd2, rfl⟩
      | fromL k1 r1 p1 h1 i1 =>
        have hlook : lookupId T i1 = some (.node k1 (PT.node k l r p h i) r1 p1 h1 i1) :=
          lookupId_subtree T k1 (PT.node k l r p h i) r1 p1 h1 i1 hnd hsub
        rw [show crumbId (Crumb.fromL k1 r1 p1 h1 i1 : Crumb α) = i1 from rfl, hlook]
        dsimp only
        rw [if_pos (show rootId? (PT.node k l r p h i) = some i from rfl)]
        have hres := ih f (plugStep (PT.node k l r p h i) (.fromL k1 r1 p1 h1 i1))
          k1 (PT.node k l r p h i) r1 p1 h1 i1 hd2 rfl (by
            simp only [List.length_cons] at hfuel; omega)
        rcases hres with ⟨hw, ha⟩ | ⟨k2, l2, X2, p2, h2, i2, cs2, hw, hdd, ha⟩
        · exact Or.inl ⟨hw, ha⟩
        · exact Or.inr ⟨k2, l2, X2, p2, h2, i2, cs2, hw, hdd, ha⟩

end AVL

namespace AVL

theorem travF_none_eq (T : PT α) (fuel : Nat) : travF T fuel none = some [] := by
  cases fuel <;> rfl

theorem travF_step (T : PT α) (fuel cur : Nat) :
    travF T (fuel + 1) (some cur) =
      (match lookupId T cur with
       | none => none
       | some .nil => none
       | some (.node k _ _ _ _ _) =>
         match iterNext T (some cur) with
         | none => none
         | some it2 => (travF T fuel it2).map (fun xs => k :: xs)) := rfl

theorem iterNext_step (T : PT α) (cur : Nat) :
    iterNext T (some cur) =
      (match lookupId T cur with
       | none => none
       | some .nil => none
       | some (.node _ _ r p _ _) =>
         match r with
         | .node rk rl rr rp rh ri =>
             some (rootId? (iterMinimum (.node rk rl rr rp rh ri)))
         | .nil => walkUpR T (countNodes T + 1) cur p) := rfl

/-- Forward traversal from a valid cursor: it emits the focus key, the keys
of the focus's right subtree, and everything after the focus in the context,
given enough fuel. -/
theorem travF_at {T : PT α} (hnd : NodupIds T) :
    ∀ (fuel : Nat) (t : PT α) (cs : List (Crumb α)) (k : α) (l r : PT α)
      (p : Option Nat) (h i : Nat),
      Desc T t cs → t = .node k l r p h i →
      1 + (inorder r).length + (afterC cs).length ≤ fuel →
      travF T fuel (some i) = some (k :: (inorder r ++ afterC cs)) := by
  intro fuel
  induction fuel using Nat.strong_induction_on with
  | _ fuel IH =>
    intro t cs k l r p h i hd ht hle
    subst ht
    obtain ⟨f, rfl⟩ : ∃ f, fuel = f + 1 := ⟨fuel - 1, by omega⟩
    have hsub : Subtree (PT.node k l r p h i) T := hd.1 ▸ subtree_plug _ cs
    have hlook := lookupId_subtree T k l r p h i hnd hsub
    rw [travF_step, iterNext_step, hlook]
    dsimp only
    cases r with
    | node rk rl rr rp rh ri =>
      have hdr : Desc T (.node rk rl rr rp rh ri) (.fromR k l p h i :: cs) :=
        desc_right hd (by simp)
      obtain ⟨k0, r0, p0, h0, i0, cs2, hmin, hdesc, hseq, hbef⟩ :=
        toLeftmost (PT.node rk rl rr rp rh ri) (.fromR k l p h i :: cs) hdr (by simp)
      have hseq2 : inorder (PT.node rk rl rr rp rh ri) ++ afterC cs =
          k0 :: (inorder r0 ++ afterC cs2) := by
        rw [show afterC (Crumb.fromR k l p h i :: cs) = afterC cs from rfl] at hseq
        simpa using hseq
      have hlen : 1 + (inorder r0).length + (afterC cs2).length ≤ f := by
        have hlg := congrArg List.length hseq2
        simp only [List.length_append, List.length_cons] at hlg hle ⊢
        omega
      have hrec := IH f (by omega) (PT.node k0 .nil r0 p0 h0 i0) cs2 k0 PT.nil r0
        p0 h0 i0 hdesc rfl hlen
      show Option.map (fun xs => k :: xs)
          (travF T f (rootId? (iterMinimum (PT.node rk rl rr rp rh ri)))) =
        some (k :: (inorder (PT.node rk rl rr rp rh ri) ++ afterC cs))
      rw [hmin, show rootId? (PT.node k0 PT.nil r0 p0 h0 i0) = some i0 from rfl, hrec]
      dsimp only [Option.map]
      rw [hseq2]
    | nil =>
      have hcln : cs.length < countNodes T + 1 := by
        have := countNodes_plug_ge (PT.node k l .nil p h i) cs
        rw [hd.1] at this
        omega
      rcases popUpR hnd cs (countNodes T + 1) (PT.node k l .nil p h i) k l .nil p h i
          hd rfl hcln with ⟨hw, ha⟩ | ⟨k1, X, r1, p1, h1, i1, cs2, hw, hdd, ha⟩
      · rw [hw]
        dsimp only
        rw [travF_none_eq, ha]
        rfl
      · rw [hw]
        dsimp only
        have hlen : 1 + (inorder r1).length + (afterC cs2).length ≤ f := by
          have hlg := congrArg List.length ha
          simp only [List.length_append, List.length_cons, inorder, List.length_nil] at hlg hle ⊢
          omega
        have hrec := IH f (by omega) (PT.node k1 X r1 p1 h1 i1) cs2 k1 X r1
          p1 h1 i1 hdd rfl hlen
        rw [hrec]
        dsimp only [Option.map]
        rw [show inorder (PT.nil : PT α) = [] from rfl, ha]
        rfl

end AVL

namespace AVL

theorem iterPrev_step (T : PT α) (cur : Nat) :
    iterPrev T (some cur) =
      (match lookupId T cur with
       | none => none
       | some .nil => none
       | some (.node _ l _ p _ _) =>
         match l with
         | .node lk ll lr lp lh li =>
             some (rootId? (rightmostN (.node lk ll lr lp lh li)))
         | .nil => walkUpL T (countNodes T + 1) cur p) := rfl

theorem iterPrev_left (T : PT α) (cur : Nat) (k : α) (lk : α) (ll lr : PT α)
    (lp : Option Nat) (lh li : Nat) (r : PT α) (p : Option Nat) (h i : Nat)
    (hlook : lookupId T cur = some (.node k (.node lk ll lr lp lh li) r p h i)) :
    iterPrev T (some cur) = some (rootId? (rightmostN (.node lk ll lr lp lh li))) := by
  rw [iterPrev_step, hlook]

theorem iterPrev_noleft (T : PT α) (cur : Nat) (k : α) (r : PT α)
    (p : Option Nat) (h i : Nat)
    (hlook : lookupId T cur = some (.node k .nil r p h i)) :
    iterPrev T (some cur) = walkUpL T (countNodes T + 1) cur p := by
  rw [iterPrev_step, hlook]

theorem travB_step (T : PT α) (fuel : Nat) (it : Option Nat) :
    travB T (fuel + 1) it =
      (match iterPrev T it with
       | none => none
       | some none => none
       | some (some cur) =>
         match lookupId T cur with
         | none => none
         | some .nil => none
         | some (.node k _ _ _ _ _) =>
           (travB T fuel (some cur)).map (fun xs => k :: xs)) := rfl

theorem travB_cursor (T : PT α) (fuel : Nat) (it : Option Nat) (cur : Nat)
    (k : α) (l r : PT α) (p : Option Nat) (h i : Nat)
    (hprev : iterPrev T it = some (some cur))
    (hlook : lookupId T cur = some (.node k l r p h i)) :
    travB T (fuel + 1) it = (travB T fuel (some cur)).map (fun xs => k :: xs) := by
  rw [travB_step, hprev]
  dsimp only
  rw [hlook]

/-- Backward traversal from a valid cursor: retreating exactly as many times
as there are keys before the focus (context keys to the left plus the
focus's left subtree) emits exactly those keys, in reverse order. -/
theorem travB_at {T : PT α} (hnd : NodupIds T) :
    ∀ (fuel : Nat) (t : PT α) (cs : List (Crumb α)) (k : α) (l r : PT α)
      (p : Option Nat) (h i : Nat),
      Desc T t cs → t = .node k l r p h i →
      fuel = (beforeC cs ++ inorder l).length →
      travB T fuel (some i) = some (beforeC cs ++ inorder l).reverse := by
  intro fuel
  induction fuel using Nat.strong_induction_on with
  | _ fuel IH =>
    intro t cs k l r p h i hd ht hfl
    subst ht
    cases fuel with
    | zero =>
      have hnil : beforeC cs ++ inorder l = [] :=
        List.eq_nil_of_length_eq_zero hfl.symm
      rw [hnil]
      rfl
    | succ f =>
      have hsub : Subtree (PT.node k l r p h i) T := hd.1 ▸ subtree_plug _ cs
      have hlook := lookupId_subtree T k l r p h i hnd hsub
      cases l with
      | node lk ll lr lp lh li =>
        have hdl : Desc T (.node lk ll lr lp lh li) (.fromL k r p h i :: cs) :=
          desc_left hd (by simp)
        obtain ⟨k2, l2, p2, h2, i2, cs2, hmax, hdesc, hseq, haft⟩ :=
          toRightmost (PT.node lk ll lr lp lh li) (.fromL k r p h i :: cs) hdl (by simp)
        have hseq2 : beforeC cs ++ inorder (PT.node lk ll lr lp lh li) =
            beforeC cs2 ++ inorder l2 ++ [k2] := by
          rw [show beforeC (Crumb.fromL k r p h i :: cs) = beforeC cs from rfl] at hseq
          exact hseq
        have hsub2 : Subtree (PT.node k2 l2 PT.nil p2 h2 i2) T :=
          hdesc.1 ▸ subtree_plug _ cs2
        have hlook2 := lookupId_subtree T k2 l2 PT.nil p2 h2 i2 hnd hsub2
        have hprev : iterPrev T (some i) = some (some i2) := by
          rw [iterPrev_left T i k lk ll lr lp lh li r p h i hlook, hmax]
          rfl
        have hflen : f = (beforeC cs2 ++ inorder l2).length := by
          have hlg := congrArg List.length hseq2
          simp only [List.length_append, List.length_cons, List.length_nil] at hlg hfl ⊢
          omega
        have hrec := IH f (by omega) (PT.node k2 l2 PT.nil p2 h2 i2) cs2 k2 l2 PT.nil
          p2 h2 i2 hdesc rfl hflen
        rw [travB_cursor T f (some i) i2 k2 l2 PT.nil p2 h2 i2 hprev hlook2, hrec]
        dsimp only [Option.map]
        rw [hseq2]
        simp
      | nil =>
        have hcln : cs.length < countNodes T + 1 := by
          have := countNodes_plug_ge (PT.node k PT.nil r p h i) cs
          rw [hd.1] at this
          omega
        rcases popUpL hnd cs (countNodes T + 1) (PT.node k PT.nil r p h i) k PT.nil r
            p h i hd rfl hcln with ⟨hw, hb⟩ | ⟨k1, l1, X, p1, h1, i1, cs2, hw, hdd, hb⟩
        · rw [hb] at hfl
          simp [inorder] at hfl
        · have hsub1 : Subtree (PT.node k1 l1 X p1 h1 i1) T :=
            hdd.1 ▸ subtree_plug _ cs2
          have hlook1 := lookupId_subtree T k1 l1 X p1 h1 i1 hnd hsub1
          have hprev : iterPrev T (some i) = some (some i1) := by
            rw [iterPrev_noleft T i k r p h i hlook, hw]
          have hflen : f = (beforeC cs2 ++ inorder l1).length := by
            have hlg := congrArg List.length hb
            simp only [List.length_append, List.length_cons, List.length_nil,
              inorder, List.length_singleton] at hlg hfl ⊢
            omega
          have hrec := IH f (by omega) (PT.node k1 l1 X p1 h1 i1) cs2 k1 l1 X
            p1 h1 i1 hdd rfl hflen
          rw [travB_cursor T f (some i) i1 k1 l1 X p1 h1 i1 hprev hlook1, hrec]
          dsimp only [Option.map]
          rw [show inorder (PT.nil : PT α) = [] from rfl, List.append_nil, hb]
          simp

end AVL

namespace AVL

theorem iterPrev_end_eq (k : α) (l r : PT α) (p : Option Nat) (h i : Nat) :
    iterPrev (PT.node k l r p h i) none =
      some (rootId? (rightmostN (PT.node k l r p h i))) := rfl

theorem countNodes_pos {t : PT α} (hne : t ≠ .nil) : 0 < countNodes t := by
  cases t with
  | nil => exact absurd rfl hne
  | node k l r p h i => rw [countNodes]; omega

/-- Forward iteration over a whole well-formed tree: starting at `begin()`
and advancing to `end()` emits exactly the in-order key sequence. -/
theorem travF_inorder {T : PT α} (hnd : NodupIds T) (hpo : ParentOk none T)
    (hne : T ≠ .nil) :
    travF T (countNodes T) (beginPtr T) = some (inorder T) := by
  obtain ⟨k0, r0, p0, h0, i0, cs2, hmin, hdesc, hseq, hbef⟩ :=
    toLeftmost T [] (desc_init hpo) hne
  have hseq2 : inorder T = k0 :: (inorder r0 ++ afterC cs2) := by
    rw [show afterC ([] : List (Crumb α)) = [] from rfl, List.append_nil] at hseq
    simpa using hseq
  have hbegin : beginPtr T = some i0 := by
    rw [beginPtr, hmin]
    rfl
  have hlen : 1 + (inorder r0).length + (afterC cs2).length ≤ countNodes T := by
    have hlg := congrArg List.length hseq2
    rw [length_inorder] at hlg
    simp only [List.length_cons, List.length_append] at hlg
    omega
  rw [hbegin, travF_at hnd (countNodes T) (PT.node k0 .nil r0 p0 h0 i0) cs2 k0
    PT.nil r0 p0 h0 i0 hdesc rfl hlen, hseq2]

/-- Backward iteration over a whole well-formed tree: starting at `end()`
and retreating `size` times emits exactly the reverse of the in-order key
sequence. -/
theorem travB_inorder {T : PT α} (hnd : NodupIds T) (hpo : ParentOk none T)
    (hne : T ≠ .nil) :
    travB T (countNodes T) none = some (inorder T).reverse := by
  obtain ⟨kn, ln, pn, hn, iN, cs2, hmax, hdesc, hseq, haft⟩ :=
    toRightmost T [] (desc_init hpo) hne
  have hseq2 : inorder T = beforeC cs2 ++ inorder ln ++ [kn] := by
    rw [show beforeC ([] : List (Crumb α)) = [] from rfl, List.nil_append] at hseq
    exact hseq
  have hprev : iterPrev T none = some (some iN) := by
    cases T with
    | nil => exact absurd rfl hne
    | node k l r p h i =>
      rw [iterPrev_end_eq, hmax]
      rfl
  have hlookN : lookupId T iN = some (.node kn ln .nil pn hn iN) :=
    lookupId_subtree T kn ln PT.nil pn hn iN hnd (hdesc.1 ▸ subtree_plug _ cs2)
  obtain ⟨f, hf⟩ : ∃ f, countNodes T = f + 1 :=
    ⟨countNodes T - 1, by have := countNodes_pos hne; omega⟩
  have hflen : f = (beforeC cs2 ++ inorder ln).length := by
    have hlg := congrArg List.length hseq2
    rw [length_inorder] at hlg
    simp only [List.length_append, List.length_singleton] at hlg ⊢
    omega
  rw [hf, travB_cursor T f none iN kn ln PT.nil pn hn iN hprev hlookN,
    travB_at hnd f (PT.node kn ln .nil pn hn iN) cs2 kn ln PT.nil pn hn iN hdesc rfl hflen]
  dsimp only [Option.map]
  rw [hseq2]
  simp

end AVL

namespace AVL

/-- C2: for every non-empty reachable tree, advancing a cursor from
`begin()` until `end()` visits exactly the stored keys in in-order sequence,
which is strictly increasing under the ordering; and retreating a cursor
from `end()` back to `begin()` visits exactly the same keys in the exact
reverse (strictly decreasing) order. -/
theorem c2_iteration_inorder (s : AVLTreeSt Int) (hre : Reachable ltInt s)
    (hne : s.root ≠ .nil) :
    travF s.root (countNodes s.root) (beginPtr s.root) = some (inorder s.root) ∧
    (inorder s.root).Pairwise (· < ·) ∧
    travB s.root (countNodes s.root) none = some (inorder s.root).reverse := by
  obtain ⟨_, _, hpo, _, hnd, _⟩ := reachable_inv asymm_ltInt hre
  exact ⟨travF_inorder hnd hpo hne, (BST_iff_pairwise s.root).mp (reachable_BST hre),
    travB_inorder hnd hpo hne⟩

/-- C2 witness: the concrete tree built by `insert 2; insert 1; insert 3`. -/
theorem c2_iteration_inorder_witness :
    travF (insertTree ltInt (insertTree ltInt (insertTree ltInt emptyTree 2) 1) 3).root
        (countNodes (insertTree ltInt (insertTree ltInt (insertTree ltInt emptyTree 2) 1) 3).root)
        (beginPtr (insertTree ltInt (insertTree ltInt (insertTree ltInt emptyTree 2) 1) 3).root) =
      some (inorder (insertTree ltInt (insertTree ltInt (insertTree ltInt emptyTree 2) 1) 3).root) ∧
    (inorder (insertTree ltInt (insertTree ltInt (insertTree ltInt emptyTree 2) 1) 3).root).Pairwise
      (· < ·) ∧
    travB (insertTree ltInt (insertTree ltInt (insertTree ltInt emptyTree 2) 1) 3).root
        (countNodes (insertTree ltInt (insertTree ltInt (insertTree ltInt emptyTree 2) 1) 3).root)
        none =
      some (inorder (insertTree ltInt (insertTree ltInt (insertTree ltInt emptyTree 2) 1) 3).root).reverse :=
  c2_iteration_inorder (insertTree ltInt (insertTree ltInt (insertTree ltInt emptyTree 2) 1) 3)
    (Reachable.ins 3 (Reachable.ins 1 (Reachable.ins 2 Reachable.empty))) (by decide)

/-- C7: for every non-empty reachable tree, retreating a cursor from the end
position lands on the node found by walking right from the root, and its key
is the maximum stored key under the ordering. -/
theorem c7_end_retreat_maximum (s : AVLTreeSt Int) (hre : Reachable ltInt s)
    (hne : s.root ≠ .nil) :
    ∃ kM lM pM hM iM, rightmostN s.root = .node kM lM .nil pM hM iM ∧
      iterPrev s.root none = some (some iM) ∧
      kM ∈ inorder s.root ∧ ∀ y ∈ inorder s.root, y ≤ kM := by
  obtain ⟨_, _, hpo, _, hnd, _⟩ := reachable_inv asymm_ltInt hre
  obtain ⟨kn, ln, pn, hn, iN, cs2, hmax, hdesc, hseq, haft⟩ :=
    toRightmost s.root [] (desc_init hpo) hne
  have hseq2 : inorder s.root = (beforeC cs2 ++ inorder ln) ++ [kn] := by
    rw [show beforeC ([] : List (Crumb Int)) = [] from rfl, List.nil_append] at hseq
    rw [hseq]
  have hprev : iterPrev s.root none = some (some iN) := by
    rcases e : s.root with _ | ⟨k, l, r, p, h, i⟩
    · exact absurd e hne
    · rw [← e, e, iterPrev_end_eq, ← e, hmax]
      rfl
  have hpw := (BST_iff_pairwise s.root).mp (reachable_BST hre)
  rw [hseq2] at hpw
  rcases List.pairwise_append.mp hpw with ⟨_, _, hcross⟩
  refine ⟨kn, ln, pn, hn, iN, hmax, hprev, ?_, ?_⟩
  · rw [hseq2]
    simp
  · intro y hy
    rw [hseq2] at hy
    rcases List.mem_append.mp hy with hy | hy
    · exact le_of_lt (hcross y hy kn (List.mem_singleton_self kn))
    · rw [List.mem_singleton.mp hy]

/-- C7 witness: the concrete tree built by `insert 2; insert 1; insert 3`
(maximum key `3`). -/
theorem c7_end_retreat_maximum_witness :
    ∃ kM lM pM hM iM,
      rightmostN (insertTree ltInt (insertTree ltInt (insertTree ltInt emptyTree 2) 3) 1).root =
        .node kM lM .nil pM hM iM ∧
      iterPrev (insertTree ltInt (insertTree ltInt (insertTree ltInt emptyTree 2) 3) 1).root none =
        some (some iM) ∧
      kM ∈ inorder (insertTree ltInt (insertTree ltInt (insertTree ltInt emptyTree 2) 3) 1).root ∧
      ∀ y ∈ inorder (insertTree ltInt (insertTree ltInt (insertTree ltInt emptyTree 2) 3) 1).root,
        y ≤ kM :=
  c7_end_retreat_maximum (insertTree ltInt (insertTree ltInt (insertTree ltInt emptyTree 2) 3) 1)
    (Reachable.ins 1 (Reachable.ins 3 (Reachable.ins 2 Reachable.empty))) (by decide)

/-- C9: for every non-empty reachable tree, decrementing a cursor positioned
at the minimum element (`begin()`) terminates: the parent walk runs off the
root and leaves the cursor at the end position (`some none`, not the `none`
that would signal a fault or endless walk). -/
theorem c9_retreat_from_begin (s : AVLTreeSt Int) (hre : Reachable ltInt s)
    (hne : s.root ≠ .nil) :
    iterPrev s.root (beginPtr s.root) = some none := by
  obtain ⟨_, _, hpo, _, hnd, _⟩ := reachable_inv asymm_ltInt hre
  obtain ⟨k0, r0, p0, h0, i0, cs2, hmin, hdesc, hseq, hbef⟩ :=
    toLeftmost s.root [] (desc_init hpo) hne
  have hbegin : beginPtr s.root = some i0 := by
    rw [beginPtr, hmin]
    rfl
  have hlook : lookupId s.root i0 = some (.node k0 .nil r0 p0 h0 i0) :=
    lookupId_subtree _ k0 PT.nil r0 p0 h0 i0 hnd (hdesc.1 ▸ subtree_plug _ cs2)
  have hbef2 : beforeC cs2 = [] := by
    rw [hbef]
    rfl
  have hcln : cs2.length < countNodes s.root + 1 := by
    have := countNodes_plug_ge (PT.node k0 .nil r0 p0 h0 i0) cs2
    rw [hdesc.1] at this
    omega
  rw [hbegin, iterPrev_noleft s.root i0 k0 r0 p0 h0 i0 hlook]
  rcases popUpL hnd cs2 (countNodes s.root + 1) (PT.node k0 .nil r0 p0 h0 i0)
      k0 PT.nil r0 p0 h0 i0 hdesc rfl hcln with ⟨hw, _⟩ |
    ⟨k1, l1, X, p1, h1, i1, cs3, hw, hdd, hb⟩
  · exact hw
  · rw [hbef2] at hb
    exact absurd hb (by simp)

/-- C9 witness: the concrete tree built by `insert 5; insert 7`. -/
theorem c9_retreat_from_begin_witness :
    iterPrev (insertTree ltInt (insertTree ltInt emptyTree 5) 7).root
      (beginPtr (insertTree ltInt (insertTree ltInt emptyTree 5) 7).root) = some none :=
  c9_retreat_from_begin (insertTree ltInt (insertTree ltInt emptyTree 5) 7)
    (Reachable.ins 7 (Reachable.ins 5 Reachable.empty)) (by decide)

end AVL
